import Mathlib

/-!
# The tiled pixel display of Soda (`src/soda/src/PixelDisplay.cpp`)

A shallow embedding of `SdlGlue::PixelDisplay`: the tile state store, the lazily
materialised per-tile pixel buffers, the rasteriser (`SetPixel`, `SetPixelRun`,
`DrawLine`, `FillRect`, `FillEllipse`) and the render pass (`Render`), followed
by theorems about them.

Conventions of the embedding.

* C++ `int` is `Int`.  Signed overflow is undefined behaviour in C++, so the
  embedding describes the code on arguments whose intermediate values fit in an `int`.
* C++ `/` and `%` truncate toward zero: they are `Int.tdiv` and `Int.tmod`.
* The heap arrays `textureInUse`, `tileColor`, `tileNeedsUpdate` and `pixelCache`
  are maps from the `int` tile index to the cell content.  A pixel buffer
  (`pixelCache[i].pixels`) is `none` for the null pointer and `some buf` for an
  allocated buffer with `buf.length` entries.
* `tileWidth` and `tileHeight` are constants of the class declared in
  `PixelDisplay.h`, which is not among the sources; they are carried as fields
  of the display so that every result holds for whatever positive value they have.
* A counted `for` loop is a fold over its index range; the `while` loop of
  `SetPixelRun` takes fuel, and `SetPixelRunLoop_fuel` shows the fuel it is
  given is never exhausted before the loop condition fails.
* A store outside an allocated buffer, or through a null buffer pointer, is
  undefined behaviour in C++; the embedding drops it.  `WellFormed` describes
  the states in which the operations make no such access, and is what the
  constructor establishes and the operations keep.
* The render context is outside the sources.  `Render` takes the content of the
  tile textures and the outcome of `SDL_LockTexture` in each pass of its loops
  (an error, or success with a row stride) as arguments, and returns with the
  display the new texture content, the drawing calls and the lock calls made.
* The floating-point computations of `FillEllipse` depend on IEEE arithmetic;
  their results are a parameter (`EllipseFloat`) of `FillEllipse`.  Where every
  `float` operation of `IsPointWithinEllipse` has an exactly representable
  result, IEEE arithmetic returns that result, and `IsPointWithinEllipse` below
  computes it (`float32`); elsewhere it gives `none`.
* The array accesses of `FillRect` are lists (`FillRectWrites`) built along the
  same loops as the state.
-/

namespace SdlGlue

/-- Modelled from the spec: `Color.h` is not among the sources.  A colour is a
4-channel (R,G,B,A) value compared channel by channel (`operator==`). -/
structure Color where
  r : Nat
  g : Nat
  b : Nat
  a : Nat
deriving DecidableEq, Repr

/-- The four `int` fields of `SDL_Rect` (SDL library type). -/
structure SDL_Rect where
  x : Int
  y : Int
  w : Int
  h : Int
deriving DecidableEq, Repr

/-- The data members of `PixelDisplay` that the drawing operations use. -/
structure PixelDisplay where
  totalWidth : Int
  totalHeight : Int
  tileWidth : Int
  tileHeight : Int
  tileCols : Int
  tileRows : Int
  textureInUse : Int → Bool
  tileColor : Int → Color
  tileNeedsUpdate : Int → Bool
  pixelCache : Int → Option (List Color)

/-- The function `static int ceilDiv(int x, int y)`. -/
def ceilDiv (x y : Int) : Int :=
  if x = 0 then 0 else 1 + (x - 1).tdiv y

/-- The function `static void Swap(int& a, int& b)`, on a pair. -/
def Swap (p : Int × Int) : Int × Int := (p.2, p.1)

/-- The method `PixelDisplay::AllocArrays`, together with the assignments of `totalWidth` and
`totalHeight` that precede it in the constructor: every tile starts Solid, with
colour `Color(0,0,0,0)`, clean, and without a pixel buffer. -/
def AllocArrays (totalWidth totalHeight tileWidth tileHeight : Int) : PixelDisplay :=
  { totalWidth := totalWidth
    totalHeight := totalHeight
    tileWidth := tileWidth
    tileHeight := tileHeight
    tileCols := ceilDiv totalWidth tileWidth
    tileRows := ceilDiv totalHeight tileHeight
    textureInUse := fun _ => false
    tileColor := fun _ => Color.mk 0 0 0 0
    tileNeedsUpdate := fun _ => false
    pixelCache := fun _ => none }

/-- The two assignments `textureInUse[i] = false; tileColor[i] = color`, which
make tile `i` Solid with the given colour (the loop body of `Clear` and of the
bulk phase of `FillRect`). -/
def setSolid (s : PixelDisplay) (tileIndex : Int) (color : Color) : PixelDisplay :=
  { s with
    textureInUse := Function.update s.textureInUse tileIndex false
    tileColor := Function.update s.tileColor tileIndex color }

/-- The method `PixelDisplay::Clear(Color color)`. -/
def Clear (s : PixelDisplay) (color : Color) : PixelDisplay :=
  (List.range (s.tileCols * s.tileRows).toNat).foldl
    (fun (d : PixelDisplay) (i : Nat) => setSolid d (i : Int) color) s

/-- The constructor `PixelDisplay::PixelDisplay()`: `AllocArrays` then `Clear()`.
The window size and the default argument of `Clear` come from outside the
sources and are parameters. -/
def PixelDisplay.create (width height tileWidth tileHeight : Int) (clearColor : Color) :
    PixelDisplay :=
  Clear (AllocArrays width height tileWidth tileHeight) clearColor

/-- Read `buf[off]`; `none` outside the buffer. -/
def readBuf (buf : List Color) (off : Int) : Option Color :=
  if off < 0 then none else buf[off.toNat]?

/-- Store `buf[off] = c`; a store outside the buffer (undefined in C++) is dropped. -/
def writeBuf (buf : List Color) (off : Int) (c : Color) : List Color :=
  if off < 0 then buf else buf.set off.toNat c

/-- The loop `for (i = 0; i < n; i++) *p++ = c` starting at `buf + off`. -/
def writeRun (buf : List Color) (off : Int) (n : Nat) (c : Color) : List Color :=
  (List.range n).foldl (fun (b : List Color) (i : Nat) => writeBuf b (off + (i : Int)) c) buf

/-- The method `PixelDisplay::EnsureTextureInUse(int tileIndex)`: allocate the buffer when
the pointer is null (`new Color[pixPerTile]`), overwrite its first `pixPerTile`
entries with the tile colour, mark the tile as using its texture. -/
def EnsureTextureInUse (s : PixelDisplay) (tileIndex : Int) : PixelDisplay :=
  if s.textureInUse tileIndex then s
  else
    let pixPerTile := s.tileWidth * s.tileHeight
    let pixels : List Color :=
      match s.pixelCache tileIndex with
      | none => List.replicate pixPerTile.toNat (Color.mk 0 0 0 0)
      | some buf => buf
    let c := s.tileColor tileIndex
    { s with
      pixelCache := Function.update s.pixelCache tileIndex
        (some (writeRun pixels 0 pixPerTile.toNat c))
      textureInUse := Function.update s.textureInUse tileIndex true }

/-- The method `PixelDisplay::EnsureTextureInUse(int tileIndex, Color unlessColor)`, the
two-argument overload: the returned flag and the state after the call. -/
def EnsureTextureInUseUnless (s : PixelDisplay) (tileIndex : Int) (unlessColor : Color) :
    Bool × PixelDisplay :=
  if s.textureInUse tileIndex then (true, s)
  else if s.tileColor tileIndex = unlessColor then (false, s)
  else (true, EnsureTextureInUse s tileIndex)

/-- The method `PixelDisplay::SetPixel`. -/
def SetPixel (s : PixelDisplay) (x y : Int) (color : Color) : PixelDisplay :=
  if x < 0 ∨ y < 0 ∨ x ≥ s.totalWidth ∨ y ≥ s.totalHeight then s
  else
    let col := x.tdiv s.tileWidth
    let row := y.tdiv s.tileHeight
    let tileIndex := row * s.tileCols + col
    let r := EnsureTextureInUseUnless s tileIndex color
    if r.1 = false then r.2
    else
      let localX := x.tmod s.tileWidth
      let localY := y.tmod s.tileHeight
      let off := localY * s.tileWidth + localX
      match r.2.pixelCache tileIndex with
      | none => r.2
      | some buf =>
        if readBuf buf off = some color then r.2
        else
          { r.2 with
            pixelCache := Function.update r.2.pixelCache tileIndex
              (some (writeBuf buf off color))
            tileNeedsUpdate := Function.update r.2.tileNeedsUpdate tileIndex true }

/-- One pass of the body of the `while (x < x1)` loop of `SetPixelRun`, for the
current `x` and `col`: the state after the body (the body then sets
`col = col + 1` and `x = col * tileWidth`). -/
def SetPixelRunBody (s : PixelDisplay) (x1 row localY : Int) (color : Color)
    (x col : Int) : PixelDisplay :=
  let endX0 := (col + 1) * s.tileWidth
  let endX := if endX0 > x1 then x1 else endX0
  let tileIndex := row * s.tileCols + col
  let localX := x.tmod s.tileWidth
  let r := EnsureTextureInUseUnless s tileIndex color
  if r.1 = true then
    match r.2.pixelCache tileIndex with
    | none => r.2
    | some buf =>
      { r.2 with
        pixelCache := Function.update r.2.pixelCache tileIndex
          (some (writeRun buf (localY * s.tileWidth + localX) (endX - x).toNat color))
        tileNeedsUpdate := Function.update r.2.tileNeedsUpdate tileIndex true }
  else r.2

/-- The `while (x < x1)` loop of `SetPixelRun`, with fuel. -/
def SetPixelRunLoop (x1 row localY : Int) (color : Color) :
    Nat → Int → Int → PixelDisplay → PixelDisplay
  | 0, _, _, s => s
  | fuel + 1, x, col, s =>
    if x < x1 then
      SetPixelRunLoop x1 row localY color fuel ((col + 1) * s.tileWidth) (col + 1)
        (SetPixelRunBody s x1 row localY color x col)
    else s

/-- The method `PixelDisplay::SetPixelRun`.  Every pass of the loop moves `x` to the next
tile boundary, so `x1 - x0` passes are enough. -/
def SetPixelRun (s : PixelDisplay) (x0 x1 y : Int) (color : Color) : PixelDisplay :=
  let col := x0.tdiv s.tileWidth
  let row := y.tdiv s.tileHeight
  let localY := y - row * s.tileHeight
  SetPixelRunLoop x1 row localY color (x1 - x0).toNat x0 col s

/-- The loop variables `(x, y, error)` of `DrawLine` after one pass of the loop body. -/
def DrawLineStep (absDy dx ystep : Int) (v : Int × Int × Int) : Int × Int × Int :=
  let error := v.2.2 - absDy
  if error < 0 then (v.1 + 1, v.2.1 + ystep, error + dx) else (v.1 + 1, v.2.1, error)

/-- The `for (x = x1; x <= maxX; x++)` loop of `DrawLine`: `n` passes from the
loop variables `v = (x, y, error)`. -/
def DrawLineLoop (steep : Bool) (absDy dx ystep : Int) (color : Color) :
    Nat → Int × Int × Int → PixelDisplay → PixelDisplay
  | 0, _, s => s
  | n + 1, v, s =>
    DrawLineLoop steep absDy dx ystep color n (DrawLineStep absDy dx ystep v)
      (if steep then SetPixel s v.2.1 v.1 color else SetPixel s v.1 v.2.1 color)

/-- The values `DrawLine` has computed when it enters its loop. -/
structure LineSetup where
  steep : Bool
  x1 : Int
  y1 : Int
  x2 : Int
  y2 : Int
  dx : Int
  absDy : Int
  error : Int
  ystep : Int
deriving DecidableEq, Repr

/-- The part of `PixelDisplay::DrawLine` before the loop. -/
def DrawLineSetup (x1 y1 x2 y2 : Int) : LineSetup :=
  let dx := x2 - x1
  let dy := y2 - y1
  let absDx := if dx < 0 then -dx else dx
  let absDy := if dy < 0 then -dy else dy
  let steep : Bool := decide (absDy > absDx)
  let p1 := if steep then Swap (x1, y1) else (x1, y1)
  let p2 := if steep then Swap (x2, y2) else (x2, y2)
  let q := if p1.1 > p2.1 then (p2, p1) else (p1, p2)
  let x1 := q.1.1
  let y1 := q.1.2
  let x2 := q.2.1
  let y2 := q.2.2
  let dx := x2 - x1
  let dy := y2 - y1
  let absDy := if dy < 0 then -dy else dy
  { steep := steep, x1 := x1, y1 := y1, x2 := x2, y2 := y2, dx := dx, absDy := absDy
    error := dx.tdiv 2
    ystep := if y1 < y2 then 1 else -1 }

/-- The method `PixelDisplay::DrawLine`. -/
def DrawLine (s : PixelDisplay) (x1 y1 x2 y2 : Int) (color : Color) : PixelDisplay :=
  let L := DrawLineSetup x1 y1 x2 y2
  DrawLineLoop L.steep L.absDy L.dx L.ystep color (L.x2 - L.x1 + 1).toNat
    (L.x1, L.y1, L.error) s

/-- The arguments of the successive `SetPixel` calls made by the loop of `DrawLine`. -/
def DrawLineLoopCalls (steep : Bool) (absDy dx ystep : Int) :
    Nat → Int × Int × Int → List (Int × Int)
  | 0, _ => []
  | n + 1, v =>
    (if steep then (v.2.1, v.1) else (v.1, v.2.1)) ::
      DrawLineLoopCalls steep absDy dx ystep n (DrawLineStep absDy dx ystep v)

/-- The arguments `(x, y)` of the successive `SetPixel` calls of
`DrawLine(x1, y1, x2, y2, _)`, in call order. -/
def DrawLineCalls (x1 y1 x2 y2 : Int) : List (Int × Int) :=
  let L := DrawLineSetup x1 y1 x2 y2
  DrawLineLoopCalls L.steep L.absDy L.dx L.ystep (L.x2 - L.x1 + 1).toNat
    (L.x1, L.y1, L.error)

/-- The results of `PixelDisplay::TileRangeWithin`: the returned flag and the
four output parameters. -/
structure TileRange where
  ok : Bool
  tileCol0 : Int
  tileCol1 : Int
  tileRow0 : Int
  tileRow1 : Int
deriving DecidableEq, Repr

/-- The method `PixelDisplay::TileRangeWithin`. -/
def TileRangeWithin (s : PixelDisplay) (rect : SDL_Rect) : TileRange :=
  let maxTileCol := s.tileCols - 1
  let c0 := ceilDiv rect.x s.tileWidth
  let c1 := (rect.x + rect.w + 1).tdiv s.tileWidth - 1
  let tileCol0 := if c0 < 0 then 0 else c0
  let okA : Bool := if c0 < 0 then true else if c0 > maxTileCol then false else true
  let okB : Bool := if c1 < 0 then false else okA
  let tileCol1 := if c1 < 0 then c1 else if c1 > maxTileCol then maxTileCol else c1
  let maxTileRow := s.tileRows - 1
  let r0 := ceilDiv rect.y s.tileHeight
  let r1 := (rect.y + rect.h + 1).tdiv s.tileHeight - 1
  let tileRow0 := if r0 < 0 then 0 else r0
  let okC : Bool := if r0 < 0 then okB else if r0 > maxTileRow then false else okB
  let okD : Bool := if r1 < 0 then false else okC
  let tileRow1 := if r1 < 0 then r1 else if r1 > maxTileRow then maxTileRow else r1
  let ok : Bool := if okD then decide (tileCol0 ≤ tileCol1 ∧ tileRow0 ≤ tileRow1) else false
  { ok := ok, tileCol0 := tileCol0, tileCol1 := tileCol1
    tileRow0 := tileRow0, tileRow1 := tileRow1 }

/-- The nested loops of the bulk phase of `FillRect`: tile rows
`tileRow0 .. tileRow1`, and in each the tile columns `tileCol0 .. tileCol1`. -/
def FillRectBulk (s : PixelDisplay) (tileCol0 tileCol1 tileRow0 tileRow1 : Int)
    (color : Color) : PixelDisplay :=
  (List.range (tileRow1 - tileRow0 + 1).toNat).foldl
    (fun (d : PixelDisplay) (i : Nat) =>
      (List.range (tileCol1 - tileCol0 + 1).toNat).foldl
        (fun (e : PixelDisplay) (j : Nat) =>
          setSolid e ((tileRow0 + (i : Int)) * e.tileCols + (tileCol0 + (j : Int))) color)
        d)
    s

/-- The last loop of `FillRect`: `for (y = y0; y < y1; y++) SetPixelRun(x0, x1, y, color)`. -/
def FillRectRows (s : PixelDisplay) (x0 x1 y0 y1 : Int) (color : Color) : PixelDisplay :=
  (List.range (y1 - y0).toNat).foldl
    (fun (d : PixelDisplay) (i : Nat) => SetPixelRun d x0 x1 (y0 + (i : Int)) color) s

/-- The method `PixelDisplay::FillRect`. -/
def FillRect (s : PixelDisplay) (left bottom width height : Int) (color : Color) :
    PixelDisplay :=
  let rect : SDL_Rect := { x := left, y := bottom, w := width, h := height }
  let y0 := if rect.y < 0 then 0 else if rect.y ≥ s.totalHeight then s.totalHeight else rect.y
  let y1 := if rect.y + rect.h < 0 then 0
    else if rect.y + rect.h ≥ s.totalHeight then s.totalHeight else rect.y + rect.h
  let x0 := if rect.x < 0 then 0 else if rect.x ≥ s.totalWidth then s.totalWidth else rect.x
  let x1 := if rect.x + rect.w < 0 then 0
    else if rect.x + rect.w ≥ s.totalWidth then s.totalWidth else rect.x + rect.w
  let t := TileRangeWithin s rect
  let s1 := if t.ok then FillRectBulk s t.tileCol0 t.tileCol1 t.tileRow0 t.tileRow1 color else s
  FillRectRows s1 x0 x1 y0 y1 color

/-- The logical pixel at `(x, y)`, the observation the claims about drawing are
stated with: the entry of the tile's pixel buffer when the tile is Materialized
(`textureInUse`), the tile colour when it is Solid.  It is what `Render` puts on
screen for the tile (the texture filled from `pixelCache`, or a rectangle of
`tileColor`), addressed as `SetPixel` addresses it.  The value is `none` when a
Materialized tile has no buffer entry there. -/
def pixelAt (s : PixelDisplay) (x y : Int) : Option Color :=
  let tileIndex := y.tdiv s.tileHeight * s.tileCols + x.tdiv s.tileWidth
  if s.textureInUse tileIndex then
    match s.pixelCache tileIndex with
    | none => none
    | some buf => readBuf buf (y.tmod s.tileHeight * s.tileWidth + x.tmod s.tileWidth)
  else some (s.tileColor tileIndex)

/-- The pixel `(x, y)` is on the surface. -/
def inBounds (s : PixelDisplay) (x y : Int) : Prop :=
  0 ≤ x ∧ x < s.totalWidth ∧ 0 ≤ y ∧ y < s.totalHeight

/-- What the constructor establishes and every operation keeps: positive tile
dimensions, the tile counts of `AllocArrays`, a buffer under every Materialized
tile, and `tileWidth * tileHeight` entries in every allocated buffer. -/
structure WellFormed (s : PixelDisplay) : Prop where
  tileWidth_pos : 0 < s.tileWidth
  tileHeight_pos : 0 < s.tileHeight
  cols_eq : s.tileCols = ceilDiv s.totalWidth s.tileWidth
  rows_eq : s.tileRows = ceilDiv s.totalHeight s.tileHeight
  inUse_alloc : ∀ t, s.textureInUse t = true → s.pixelCache t ≠ none
  alloc_size : ∀ t buf, s.pixelCache t = some buf →
    buf.length = (s.tileWidth * s.tileHeight).toNat

/-- What a read of entry `off` of tile `t` shows: the buffer entry of a
Materialized tile, the colour of a Solid one (`pixelAt` is this at the tile and
offset of the pixel). -/
def tileRead (s : PixelDisplay) (t off : Int) : Option Color :=
  if s.textureInUse t then
    match s.pixelCache t with
    | none => none
    | some buf => readBuf buf off
  else some (s.tileColor t)

/-- The surface and tile dimensions of `s1` are those of `s`. -/
def SameGeom (s s1 : PixelDisplay) : Prop :=
  s1.totalWidth = s.totalWidth ∧ s1.totalHeight = s.totalHeight ∧
  s1.tileWidth = s.tileWidth ∧ s1.tileHeight = s.tileHeight ∧
  s1.tileCols = s.tileCols ∧ s1.tileRows = s.tileRows

/-- The state `s1` is `s` with the entries `lo ≤ off < hi` of tile `t` showing `c`:
same dimensions, still well formed, and every other entry reads as before. -/
structure TileStep (s s1 : PixelDisplay) (t lo hi : Int) (c : Color) : Prop where
  geom : SameGeom s s1
  wf : WellFormed s1
  read : ∀ t1 off, 0 ≤ off → off < s.tileWidth * s.tileHeight →
    tileRead s1 t1 off = if t1 = t ∧ lo ≤ off ∧ off < hi then some c else tileRead s t1 off

/-- Successive calls of `SetPixel`, one on each point of a list, with one colour. -/
def drawPixels (s : PixelDisplay) (pts : List (Int × Int)) (color : Color) : PixelDisplay :=
  pts.foldl (fun (d : PixelDisplay) (p : Int × Int) => SetPixel d p.1 p.2 color) s

/-! ### `Render` and the render context -/

/-- A drawing call that `Render` makes on the renderer: `SDL_RenderCopy` of the
texture of a tile to a destination rectangle, or `SDL_SetRenderDrawColor`
followed by `SDL_RenderFillRect` of a destination rectangle. -/
inductive DrawCmd where
  | renderCopy (tileIndex : Int) (destRect : SDL_Rect)
  | renderFillRect (color : Color) (destRect : SDL_Rect)
deriving DecidableEq, Repr

/-- Modelled from the spec: the byte of channel `k` of a colour in an RGBA32
pixel buffer (bytes R, G, B, A in this order); `Color.h`, which lays a `Color`
out in memory, is not among the sources. -/
def colorByte (c : Color) (k : Nat) : Nat :=
  if k = 0 then c.r else if k = 1 then c.g else if k = 2 then c.b else c.a

/-- The call `memcpy(dest + d, src + k, n)` from an array of colours, 4 bytes
each, into a byte buffer; a colour read outside the array (undefined in C++)
counts as `Color(0,0,0,0)`. -/
def memcpyColors (dest : Int → Nat) (d : Int) (src : List Color) (k : Int) (n : Int) :
    Int → Nat :=
  (List.range n.toNat).foldl
    (fun (m : Int → Nat) (j : Nat) =>
      Function.update m (d + (j : Int))
        (colorByte ((readBuf src (k + ((j / 4 : Nat) : Int))).getD (Color.mk 0 0 0 0)) (j % 4)))
    dest

/-- The copy of a pixel buffer into the locked texture buffer in `Render`, by
either of its two loops: `pixels` is the locked byte buffer, `pitch` its row
stride, `srcP` starts at the last row of the pixel buffer. -/
def RenderCopyRows (s : PixelDisplay) (buf : List Color) (pitch : Int) (pixels : Int → Nat) :
    Int → Nat :=
  let srcP := (s.tileHeight - 1) * s.tileWidth
  let bytesToCopy := s.tileWidth * 4
  if bytesToCopy = pitch then
    (List.range s.tileHeight.toNat).foldl
      (fun (m : Int → Nat) (y : Nat) =>
        memcpyColors m ((y : Int) * pitch) buf (srcP - (y : Int) * s.tileWidth) bytesToCopy)
      pixels
  else
    ((List.range s.tileHeight.toNat).foldl
      (fun (v : (Int → Nat) × Int × Int) (_ : Nat) =>
        (memcpyColors v.1 v.2.2 buf v.2.1 bytesToCopy, v.2.1 - s.tileWidth, v.2.2 + pitch))
      (pixels, srcP, 0)).1

/-- The texels that `SDL_UnlockTexture` uploads from a locked RGBA32 buffer with
row stride `pitch`: texel `(x, y)`, row 0 at the top, is the four bytes at
`y * pitch + 4 * x`. -/
def unlockTexels (pixels : Int → Nat) (pitch : Int) (x y : Int) : Color :=
  Color.mk (pixels (y * pitch + 4 * x)) (pixels (y * pitch + 4 * x + 1))
    (pixels (y * pitch + 4 * x + 2)) (pixels (y * pitch + 4 * x + 3))

/-- The state of a `Render` pass: the display, the content of the tile textures
on the GPU (`tex i x y` is texel `(x, y)` of the texture of tile `i`), the
drawing calls made so far, the calls of `SDL_LockTexture` made so far (tile
index, and whether the lock succeeded), and the loop variable `i`. -/
structure RenderState where
  disp : PixelDisplay
  tex : Int → Int → Int → Color
  cmds : List DrawCmd
  lockLog : List (Int × Bool)
  i : Int

/-- The body of the inner loop of `Render` for one `(row, col)`, given the
destination rectangle of that position and the outcome `SDL_LockTexture` has
if it is called in this pass of the loop: `none` for an error, `some pitch` for
success with that row stride.  On a lock error the body ends with `continue`,
before `i++`.  The locked buffer is write-only and starts as zeros here. -/
def RenderTile (lock : Option Int) (destRect : SDL_Rect) (st : RenderState) : RenderState :=
  if st.disp.textureInUse st.i then
    if st.disp.tileNeedsUpdate st.i then
      match lock with
      | none => { st with lockLog := st.lockLog ++ [(st.i, false)] }
      | some pitch =>
        { disp :=
            { st.disp with
              tileNeedsUpdate := Function.update st.disp.tileNeedsUpdate st.i false }
          tex := Function.update st.tex st.i
            (unlockTexels
              (RenderCopyRows st.disp ((st.disp.pixelCache st.i).getD []) pitch (fun _ => 0))
              pitch)
          cmds := st.cmds ++ [DrawCmd.renderCopy st.i destRect]
          lockLog := st.lockLog ++ [(st.i, true)]
          i := st.i + 1 }
    else
      { st with cmds := st.cmds ++ [DrawCmd.renderCopy st.i destRect], i := st.i + 1 }
  else if (st.disp.tileColor st.i).a > 0 then
    { st with
      cmds := st.cmds ++ [DrawCmd.renderFillRect (st.disp.tileColor st.i) destRect]
      i := st.i + 1 }
  else { st with i := st.i + 1 }

/-- The inner loop of `Render` for one tile row: the columns `0 .. tileCols - 1`. -/
def RenderRow (s : PixelDisplay) (locks : Nat → Nat → Option Int) (row : Nat)
    (st : RenderState) : RenderState :=
  (List.range s.tileCols.toNat).foldl
    (fun (t : RenderState) (col : Nat) =>
      RenderTile (locks row col)
        { x := (col : Int) * s.tileWidth
          y := s.tileRows * s.tileHeight - ((row : Int) + 1) * s.tileHeight
          w := s.tileWidth
          h := s.tileHeight } t)
    st

/-- The method `PixelDisplay::Render`, from a display and the texture content
on the GPU; `locks row col` is the outcome of `SDL_LockTexture` in the pass of
the loops for `(row, col)`.  The result holds the display and textures after
the pass and the calls made. -/
def Render (s : PixelDisplay) (tex : Int → Int → Int → Color)
    (locks : Nat → Nat → Option Int) : RenderState :=
  (List.range s.tileRows.toNat).foldl
    (fun (t : RenderState) (row : Nat) => RenderRow s locks row t)
    { disp := s, tex := tex, cmds := [], lockLog := [], i := 0 }

/-! ### `FillEllipse` -/

/-- The results of the floating-point computations of `FillEllipse`, which
depend on IEEE arithmetic and are parameters of the embedding:
`IsPointWithinEllipse(x, y, &rect)` for integer `x`, `y`, and the two chord
ends `(int)(rectCenterX - cx + 0.5f)` and `(int)(rectCenterX + cx + 0.5f)` that
the row loop computes for the rectangle and the row `y`. -/
structure EllipseFloat where
  IsPointWithinEllipse : Int → Int → SDL_Rect → Bool
  chordX0 : SDL_Rect → Int → Int
  chordX1 : SDL_Rect → Int → Int

/-- The method `PixelDisplay::IsTileWithinEllipse`. -/
def IsTileWithinEllipse (F : EllipseFloat) (s : PixelDisplay) (col row : Int)
    (ellipse : SDL_Rect) : Bool :=
  let x := col * s.tileWidth
  let y := row * s.tileHeight
  F.IsPointWithinEllipse x y ellipse
    && F.IsPointWithinEllipse (x + s.tileWidth) y ellipse
    && F.IsPointWithinEllipse (x + s.tileWidth) (y + s.tileHeight) ellipse
    && F.IsPointWithinEllipse x (y + s.tileHeight) ellipse

/-- The nested loops of the bulk phase of `FillEllipse`: as in `FillRect`, but
only the tiles that `IsTileWithinEllipse` accepts are made Solid. -/
def FillEllipseBulk (F : EllipseFloat) (s : PixelDisplay) (rect : SDL_Rect)
    (tileCol0 tileCol1 tileRow0 tileRow1 : Int) (color : Color) : PixelDisplay :=
  (List.range (tileRow1 - tileRow0 + 1).toNat).foldl
    (fun (d : PixelDisplay) (i : Nat) =>
      (List.range (tileCol1 - tileCol0 + 1).toNat).foldl
        (fun (e : PixelDisplay) (j : Nat) =>
          if IsTileWithinEllipse F e (tileCol0 + (j : Int)) (tileRow0 + (i : Int)) rect then
            setSolid e ((tileRow0 + (i : Int)) * e.tileCols + (tileCol0 + (j : Int))) color
          else e)
        d)
    s

/-- The row loop of `FillEllipse`: for each `y0 ≤ y < y1`, `SetPixelRun` over the
chord of row `y`, clamped to the surface. -/
def FillEllipseRows (F : EllipseFloat) (s : PixelDisplay) (rect : SDL_Rect) (y0 y1 : Int)
    (color : Color) : PixelDisplay :=
  (List.range (y1 - y0).toNat).foldl
    (fun (d : PixelDisplay) (i : Nat) =>
      let x0 := F.chordX0 rect (y0 + (i : Int))
      let x0 := if x0 < 0 then 0 else if x0 ≥ d.totalWidth then d.totalWidth else x0
      let x1 := F.chordX1 rect (y0 + (i : Int))
      let x1 := if x1 < 0 then 0 else if x1 ≥ d.totalWidth then d.totalWidth else x1
      SetPixelRun d x0 x1 (y0 + (i : Int)) color)
    s

/-- The method `PixelDisplay::FillEllipse`. -/
def FillEllipse (F : EllipseFloat) (s : PixelDisplay) (left bottom width height : Int)
    (color : Color) : PixelDisplay :=
  let rect : SDL_Rect := { x := left, y := bottom, w := width, h := height }
  if rect.w ≤ 2 ∨ rect.h ≤ 2 then FillRect s left bottom width height color
  else
    let y0 := if rect.y < 0 then 0
      else if rect.y ≥ s.totalHeight then s.totalHeight - 1 else rect.y
    let y1 := if rect.y + rect.h < 0 then 0
      else if rect.y + rect.h ≥ s.totalHeight then s.totalHeight else rect.y + rect.h
    let t := TileRangeWithin s rect
    let s1 := if t.ok then
        FillEllipseBulk F s rect t.tileCol0 t.tileCol1 t.tileRow0 t.tileRow1 color
      else s
    FillEllipseRows F s1 rect y0 y1 color

/-! ### The draw calls of a pass, as the specification lists them -/

/-- Following the specification of the render pass: the draw call for tile
`(col, row)`, of size `tileWidth x tileHeight` at screen position
`(col * tileWidth, (tileRows - row - 1) * tileHeight)`: a texture copy if the
tile is Materialized, one flat fill in the tile colour if it is Solid with
alpha above 0, nothing if it is Solid with alpha 0. -/
def specTileDraw (s : PixelDisplay) (row col : Nat) : List DrawCmd :=
  if s.textureInUse ((row : Int) * s.tileCols + (col : Int)) then
    [DrawCmd.renderCopy ((row : Int) * s.tileCols + (col : Int))
      { x := (col : Int) * s.tileWidth
        y := (s.tileRows - (row : Int) - 1) * s.tileHeight
        w := s.tileWidth
        h := s.tileHeight }]
  else if (s.tileColor ((row : Int) * s.tileCols + (col : Int))).a > 0 then
    [DrawCmd.renderFillRect (s.tileColor ((row : Int) * s.tileCols + (col : Int)))
      { x := (col : Int) * s.tileWidth
        y := (s.tileRows - (row : Int) - 1) * s.tileHeight
        w := s.tileWidth
        h := s.tileHeight }]
  else []

/-- Following the specification of the render pass: the draw calls of a pass,
tile by tile in row-major order. -/
def specRenderDraws (s : PixelDisplay) : List DrawCmd :=
  (List.range s.tileRows.toNat).flatMap
    (fun (row : Nat) =>
      (List.range s.tileCols.toNat).flatMap (fun (col : Nat) => specTileDraw s row col))

/-- What holds of the state of a `Render` pass over the display `s` at every
point of the pass: the pass changes no dimension, no Solid or Materialized
state, no tile colour and no pixel buffer; a tile whose lock succeeded is
clean; the dirty flag of any other tile is as it was; and a lock is only tried
on a Materialized, dirty tile. -/
structure RenderInv (s : PixelDisplay) (st : RenderState) : Prop where
  geom : SameGeom s st.disp
  inUse : st.disp.textureInUse = s.textureInUse
  color : st.disp.tileColor = s.tileColor
  cache : st.disp.pixelCache = s.pixelCache
  synced : ∀ t, (t, true) ∈ st.lockLog → st.disp.tileNeedsUpdate t = false
  kept : ∀ t, (t, true) ∉ st.lockLog → st.disp.tileNeedsUpdate t = s.tileNeedsUpdate t
  tried : ∀ t ok, (t, ok) ∈ st.lockLog →
    s.textureInUse t = true ∧ s.tileNeedsUpdate t = true

/-! ### Reachable states -/

/-- The displays, with the texture content on the GPU, that a program reaches
from a freshly constructed surface by `Clear`, `SetPixel`, `DrawLine`,
`FillRect` and `Render`.  The surface and tile dimensions are positive, the
textures start with any content, and a successful `SDL_LockTexture` reports a
row stride of at least the `4 * tileWidth` bytes of a row. -/
inductive Reachable : PixelDisplay → (Int → Int → Int → Color) → Prop where
  | create (w h tw th : Int) (c : Color) (tex : Int → Int → Int → Color) :
      0 < w → 0 < h → 0 < tw → 0 < th → Reachable (PixelDisplay.create w h tw th c) tex
  | clear {s : PixelDisplay} {tex : Int → Int → Int → Color} (c : Color) :
      Reachable s tex → Reachable (Clear s c) tex
  | setPixel {s : PixelDisplay} {tex : Int → Int → Int → Color} (x y : Int) (c : Color) :
      Reachable s tex → Reachable (SetPixel s x y c) tex
  | drawLine {s : PixelDisplay} {tex : Int → Int → Int → Color} (x1 y1 x2 y2 : Int)
      (c : Color) : Reachable s tex → Reachable (DrawLine s x1 y1 x2 y2 c) tex
  | fillRect {s : PixelDisplay} {tex : Int → Int → Int → Color}
      (left bottom width height : Int) (c : Color) :
      Reachable s tex → Reachable (FillRect s left bottom width height c) tex
  | render {s : PixelDisplay} {tex : Int → Int → Int → Color}
      (locks : Nat → Nat → Option Int) :
      (∀ row col pitch, locks row col = some pitch → 4 * s.tileWidth ≤ pitch) →
      Reachable s tex → Reachable (Render s tex locks).disp (Render s tex locks).tex

/-! ### What the operations keep of the buffers and of the clean tiles -/

/-- What a drawing operation that takes the display `s` to `s1` keeps: an
allocated pixel buffer stays allocated, and a tile that is Materialized and
clean in `s1` was Materialized and clean in `s` and has the buffer content it
had in `s` (a tile whose buffer the operation wrote, or that it materialised,
is dirty afterwards). -/
structure Kept (s s1 : PixelDisplay) : Prop where
  alloc : ∀ t, s.pixelCache t ≠ none → s1.pixelCache t ≠ none
  clean : ∀ t, s1.textureInUse t = true → s1.tileNeedsUpdate t = false →
    s.textureInUse t = true ∧ s.tileNeedsUpdate t = false ∧ s1.pixelCache t = s.pixelCache t

/-- One call of `Clear`, `SetPixel`, `DrawLine`, `FillRect` or `Render` on a
display, with any arguments and, for `Render`, any texture content and lock
outcomes. -/
inductive Step : PixelDisplay → PixelDisplay → Prop where
  | clear (s : PixelDisplay) (c : Color) : Step s (Clear s c)
  | setPixel (s : PixelDisplay) (x y : Int) (c : Color) : Step s (SetPixel s x y c)
  | drawLine (s : PixelDisplay) (x1 y1 x2 y2 : Int) (c : Color) :
      Step s (DrawLine s x1 y1 x2 y2 c)
  | fillRect (s : PixelDisplay) (left bottom width height : Int) (c : Color) :
      Step s (FillRect s left bottom width height c)
  | render (s : PixelDisplay) (tex : Int → Int → Int → Color)
      (locks : Nat → Nat → Option Int) : Step s (Render s tex locks).disp

/-- The texture of tile `t` shows the pixel buffer of the tile flipped
vertically: texel `(x, y)`, row 0 at the top, is entry
`(tileHeight - 1 - y) * tileWidth + x` of the buffer, whose row 0 is the bottom
row of the tile. -/
def TexMatches (s : PixelDisplay) (tex : Int → Int → Int → Color) (t : Int) : Prop :=
  ∀ buf, s.pixelCache t = some buf →
    ∀ x y : Int, 0 ≤ x → x < s.tileWidth → 0 ≤ y → y < s.tileHeight →
      readBuf buf ((s.tileHeight - 1 - y) * s.tileWidth + x) = some (tex t x y)

/-! ### The array accesses of `FillRect` -/

/-- The offsets in the pixel buffer of tile `tileIndex` that the two-argument
`EnsureTextureInUse` stores to: the fill loop of the one-argument overload
stores to `0 .. pixPerTile - 1` when the call materialises the tile, and
nothing is stored otherwise. -/
def EnsureTextureInUseOffsets (s : PixelDisplay) (tileIndex : Int) (unlessColor : Color) :
    List Int :=
  if s.textureInUse tileIndex then []
  else if s.tileColor tileIndex = unlessColor then []
  else (List.range (s.tileWidth * s.tileHeight).toNat).map (fun (i : Nat) => (i : Int))

/-- The accesses of one pass of the body of the loop of `SetPixelRun`: the tile
index that subscripts `textureInUse`, `tileColor`, `pixelCache` and
`tileNeedsUpdate`, and the offsets in the pixel buffer of that tile that are
stored to, by `EnsureTextureInUse` and then by `for (; x < endX; x++) *p++ = color`
from `p = pixels + localY * tileWidth + localX`. -/
def SetPixelRunBodyWrites (s : PixelDisplay) (x1 row localY : Int) (color : Color)
    (x col : Int) : Int × List Int :=
  let endX0 := (col + 1) * s.tileWidth
  let endX := if endX0 > x1 then x1 else endX0
  let tileIndex := row * s.tileCols + col
  let localX := x.tmod s.tileWidth
  (tileIndex,
    EnsureTextureInUseOffsets s tileIndex color ++
      (if (EnsureTextureInUseUnless s tileIndex color).1 = true then
        (List.range (endX - x).toNat).map
          (fun (j : Nat) => localY * s.tileWidth + localX + (j : Int))
      else []))

/-- The accesses of the `while (x < x1)` loop of `SetPixelRun`, pass by pass, with
the fuel of `SetPixelRunLoop`. -/
def SetPixelRunLoopWrites (x1 row localY : Int) (color : Color) :
    Nat → Int → Int → PixelDisplay → List (Int × List Int)
  | 0, _, _, _ => []
  | fuel + 1, x, col, s =>
    if x < x1 then
      SetPixelRunBodyWrites s x1 row localY color x col ::
        SetPixelRunLoopWrites x1 row localY color fuel ((col + 1) * s.tileWidth) (col + 1)
          (SetPixelRunBody s x1 row localY color x col)
    else []

/-- The accesses of `SetPixelRun(x0, x1, y, color)`. -/
def SetPixelRunWrites (s : PixelDisplay) (x0 x1 y : Int) (color : Color) :
    List (Int × List Int) :=
  let col := x0.tdiv s.tileWidth
  let row := y.tdiv s.tileHeight
  let localY := y - row * s.tileHeight
  SetPixelRunLoopWrites x1 row localY color (x1 - x0).toNat x0 col s

/-- The accesses of the bulk phase of `FillRect`: the tile indices that subscript
`textureInUse` and `tileColor`; no pixel buffer is stored to. -/
def FillRectBulkWrites (s : PixelDisplay) (tileCol0 tileCol1 tileRow0 tileRow1 : Int) :
    List (Int × List Int) :=
  (List.range (tileRow1 - tileRow0 + 1).toNat).flatMap
    (fun (i : Nat) =>
      (List.range (tileCol1 - tileCol0 + 1).toNat).map
        (fun (j : Nat) =>
          ((tileRow0 + (i : Int)) * s.tileCols + (tileCol0 + (j : Int)), ([] : List Int))))

/-- The accesses of the last loop of `FillRect`, one `SetPixelRun` after the
other, each from the display the calls before it have left. -/
def FillRectRowsWrites (s : PixelDisplay) (x0 x1 y0 y1 : Int) (color : Color) :
    List (Int × List Int) :=
  ((List.range (y1 - y0).toNat).foldl
    (fun (v : PixelDisplay × List (Int × List Int)) (i : Nat) =>
      (SetPixelRun v.1 x0 x1 (y0 + (i : Int)) color,
        v.2 ++ SetPixelRunWrites v.1 x0 x1 (y0 + (i : Int)) color))
    (s, [])).2

/-- The accesses of `FillRect(left, bottom, width, height, color)`: each tile index
that subscripts one of the tile arrays, with the offsets in the pixel buffer of
that tile that are stored to, in the order of the calls. -/
def FillRectWrites (s : PixelDisplay) (left bottom width height : Int) (color : Color) :
    List (Int × List Int) :=
  let rect : SDL_Rect := { x := left, y := bottom, w := width, h := height }
  let y0 := if rect.y < 0 then 0 else if rect.y ≥ s.totalHeight then s.totalHeight else rect.y
  let y1 := if rect.y + rect.h < 0 then 0
    else if rect.y + rect.h ≥ s.totalHeight then s.totalHeight else rect.y + rect.h
  let x0 := if rect.x < 0 then 0 else if rect.x ≥ s.totalWidth then s.totalWidth else rect.x
  let x1 := if rect.x + rect.w < 0 then 0
    else if rect.x + rect.w ≥ s.totalWidth then s.totalWidth else rect.x + rect.w
  let t := TileRangeWithin s rect
  let s1 := if t.ok then FillRectBulk s t.tileCol0 t.tileCol1 t.tileRow0 t.tileRow1 color else s
  (if t.ok then FillRectBulkWrites s t.tileCol0 t.tileCol1 t.tileRow0 t.tileRow1 else []) ++
    FillRectRowsWrites s1 x0 x1 y0 y1 color

/-- An access is within the arrays of the display `s`: the tile index is in
`[0, tileCols * tileRows)` and every buffer offset in `[0, tileWidth * tileHeight)`. -/
def InArrays (s : PixelDisplay) (w : Int × List Int) : Prop :=
  (0 ≤ w.1 ∧ w.1 < s.tileCols * s.tileRows) ∧
    ∀ off ∈ w.2, 0 ≤ off ∧ off < s.tileWidth * s.tileHeight

/-! ### The point-in-ellipse test where `float` arithmetic is exact -/

/-- The result of a `float` operation, or of a conversion from `int` to `float`,
whose exact value is `q`.  In IEEE 754 arithmetic an operation whose exact
value is a binary32 number returns that number; `q` is one when it is
`m * 2 ^ (-j)` with `|m| < 2 ^ 24` and `0 ≤ j ≤ 100`.  For any other exact value
the result is `none`: the embedding does not say how it is rounded. -/
def float32 (q : ℚ) : Option ℚ :=
  if q.den ∣ 2 ^ 100 ∧ q.num.natAbs < 2 ^ 24 then some q else none

/-- One of the two terms of `IsPointWithinEllipse`, which computes both in the
same way: for the `x` axis, `float halfWidth = ellipse->w/2` (a division of
`int`s, converted), `float dx = x - (ellipse->x + halfWidth)` and
`(dx * dx) / (halfWidth * halfWidth)`, with `p`, `origin`, `extent` for `x`,
`ellipse->x`, `ellipse->w`.  The result is `none` when an operation is not
exact or divides by 0. -/
def ellipseTerm (p origin extent : Int) : Option ℚ :=
  (float32 (p : ℚ)).bind fun pf =>
  (float32 ((extent.tdiv 2 : Int) : ℚ)).bind fun half =>
  (float32 (origin : ℚ)).bind fun o =>
  (float32 (o + half)).bind fun centre =>
  (float32 (pf - centre)).bind fun d =>
  (float32 (d * d)).bind fun d2 =>
  (float32 (half * half)).bind fun h2 =>
  if h2 = 0 then none else float32 (d2 / h2)

/-- The function `static bool IsPointWithinEllipse(float x, float y, SDL_Rect* ellipse)`,
called with `int` arguments as `IsTileWithinEllipse` calls it:
`return term1 + term2 <= 1`. -/
def IsPointWithinEllipse (x y : Int) (ellipse : SDL_Rect) : Option Bool :=
  (ellipseTerm x ellipse.x ellipse.w).bind fun term1 =>
  (ellipseTerm y ellipse.y ellipse.h).bind fun term2 =>
  (float32 (term1 + term2)).bind fun sum =>
  some (decide (sum ≤ 1))

/-! ### Concrete displays used in the instances below -/

/-- Opaque black. -/
def demoBlack : Color := Color.mk 0 0 0 255

/-- Opaque red. -/
def demoRed : Color := Color.mk 255 0 0 255

/-- An 8 x 8 surface of 4 x 4 tiles (two tile columns, two tile rows), as
constructed and cleared to opaque black. -/
def demoDisplay : PixelDisplay := PixelDisplay.create 8 8 4 4 demoBlack

/-- Textures whose texels are all `Color(0,0,0,0)`. -/
def demoTex : Int → Int → Int → Color := fun _ _ _ => Color.mk 0 0 0 0

/-- The 8 x 8 display after `SetPixel(0, 0, red)` and `SetPixel(7, 7, red)`:
tiles 0 and 3 are Materialized and dirty, tiles 1 and 2 are Solid black. -/
def demoDrawn : PixelDisplay := SetPixel (SetPixel demoDisplay 0 0 demoRed) 7 7 demoRed

/-- Every lock succeeds, with the tight row stride of 16 bytes. -/
def demoLocksOk : Nat → Nat → Option Int := fun _ _ => some 16

/-- The lock in the first pass of the loops, `(row, col) = (0, 0)`, fails; every
other lock succeeds. -/
def demoLocksFailFirst : Nat → Nat → Option Int :=
  fun (row col : Nat) => if row = 0 ∧ col = 0 then none else some 16

/-- Every lock fails. -/
def demoLocksFailAll : Nat → Nat → Option Int := fun _ _ => none

/-- Some results for the floating-point computations of `FillEllipse`. -/
def demoEllipseFloat : EllipseFloat :=
  { IsPointWithinEllipse := fun _ _ _ => false
    chordX0 := fun (rect : SDL_Rect) _ => rect.x
    chordX1 := fun (rect : SDL_Rect) _ => rect.x + rect.w }

/-- The state of a `Render` pass over the drawn 8 x 8 display when the pass
reaches tile 0. -/
def demoRenderState : RenderState :=
  { disp := demoDrawn, tex := demoTex, cmds := [], lockLog := [], i := 0 }

/-- The `Render` pass over the drawn 8 x 8 display in which every lock succeeds. -/
def demoRendered : RenderState := Render demoDrawn demoTex demoLocksOk

/-- A 256 x 256 surface of 64 x 64 tiles (four tile columns, four tile rows), as
constructed and cleared to opaque black. -/
def demoSurface : PixelDisplay := PixelDisplay.create 256 256 64 64 demoBlack

/-- Floating-point results for `FillEllipse` that are those of the `float`
arithmetic wherever it is exact: `IsPointWithinEllipse` is the value that
`IsPointWithinEllipse` gives (`false` where it gives none). -/
def demoExactFloat : EllipseFloat :=
  { IsPointWithinEllipse := fun (x y : Int) (rect : SDL_Rect) =>
      (IsPointWithinEllipse x y rect).getD false
    chordX0 := fun (rect : SDL_Rect) _ => rect.x
    chordX1 := fun (rect : SDL_Rect) _ => rect.x + rect.w }

/-- The lock in the last pass of the loops, `(row, col) = (1, 1)`, fails; every
other lock succeeds. -/
def demoLocksFailLast : Nat → Nat → Option Int :=
  fun (row col : Nat) => if row = 1 ∧ col = 1 then none else some 16

/-- The `Render` pass over the drawn 8 x 8 display in which the lock of tile 3,
tried in the last pass of the loops, fails. -/
def demoFailedPass : RenderState := Render demoDrawn demoTex demoLocksFailLast

/-- The display that `demoFailedPass` leaves, after `SetPixel(1, 1, red)`: tile 0
is dirty again, tile 3 is still dirty. -/
def demoRedrawn : PixelDisplay := SetPixel demoFailedPass.disp 1 1 demoRed

instance inBounds.decidable (s : PixelDisplay) (x y : Int) : Decidable (inBounds s x y) := by
  unfold inBounds
  infer_instance

/-! ## Arithmetic of truncating division on non-negative operands -/

theorem tdiv_of_nonneg {a b : Int} (ha : 0 ≤ a) (hb : 0 < b) : a.tdiv b = a / b :=
  Int.tdiv_eq_ediv ha hb.le

theorem tmod_of_nonneg {a b : Int} (ha : 0 ≤ a) (hb : 0 < b) : a.tmod b = a % b :=
  Int.tmod_eq_emod ha hb.le

/-- Quotient and remainder by a positive divisor, in the form linear arithmetic uses. -/
theorem divmod_spec (a b : Int) (hb : 0 < b) :
    a = (a / b) * b + a % b ∧ 0 ≤ a % b ∧ a % b < b := by
  refine ⟨?_, Int.emod_nonneg a hb.ne', Int.emod_lt_of_pos a hb⟩
  have := Int.ediv_add_emod a b
  rw [Int.mul_comm] at this
  exact this.symm

/-- A quotient is determined by the interval the dividend lies in. -/
theorem ediv_eq_of_bounds {a b q : Int} (hb : 0 < b) (h1 : q * b ≤ a) (h2 : a < (q + 1) * b) :
    a / b = q := by
  obtain ⟨h, h3, h4⟩ := divmod_spec a b hb
  have : a / b < q + 1 := by
    by_contra hc
    push_neg at hc
    have := Int.mul_le_mul_of_nonneg_right hc hb.le
    omega
  have : q < a / b + 1 := by
    by_contra hc
    push_neg at hc
    have := Int.mul_le_mul_of_nonneg_right hc hb.le
    rw [Int.add_mul] at this
    omega
  omega

/-- Row-major indexing is injective: `r * C + c` with `0 ≤ c < C` determines `r` and `c`. -/
theorem rowMajor_inj {C r c r' c' : Int} (hc : 0 ≤ c) (hcC : c < C) (hc' : 0 ≤ c')
    (hcC' : c' < C) (h : r * C + c = r' * C + c') : r = r' ∧ c = c' := by
  have hC : 0 < C := by omega
  have e1 : (r * C + c) / C = r := ediv_eq_of_bounds hC (by omega) (by rw [Int.add_mul]; omega)
  have e2 : (r' * C + c') / C = r' :=
    ediv_eq_of_bounds hC (by omega) (by rw [Int.add_mul]; omega)
  have : r = r' := by rw [← e1, ← e2, h]
  subst this
  exact ⟨rfl, by omega⟩

/-! ## Pixel buffers -/

theorem writeBuf_length (buf : List Color) (off : Int) (c : Color) :
    (writeBuf buf off c).length = buf.length := by
  unfold writeBuf
  split <;> simp

theorem readBuf_writeBuf (buf : List Color) (off off' : Int) (c : Color)
    (h0 : 0 ≤ off) (h1 : off < buf.length) :
    readBuf (writeBuf buf off c) off' = if off' = off then some c else readBuf buf off' := by
  unfold readBuf writeBuf
  have hn : ¬ off < 0 := by omega
  simp only [hn, if_false]
  by_cases h : off' < 0
  · have : off' ≠ off := by omega
    simp [h, this]
  · simp only [h, if_false, List.getElem?_set]
    by_cases e : off' = off
    · subst e
      have : off'.toNat < buf.length := by omega
      simp [this]
    · have : off.toNat ≠ off'.toNat := by omega
      simp [this, e]

theorem writeRun_succ (buf : List Color) (off : Int) (n : Nat) (c : Color) :
    writeRun buf off (n + 1) c = writeBuf (writeRun buf off n c) (off + (n : Int)) c := by
  simp [writeRun, List.range_succ, List.foldl_append]

theorem writeRun_length (buf : List Color) (off : Int) (n : Nat) (c : Color) :
    (writeRun buf off n c).length = buf.length := by
  induction n with
  | zero => simp [writeRun]
  | succ n ih => rw [writeRun_succ, writeBuf_length, ih]

theorem readBuf_writeRun (buf : List Color) (off off' : Int) (n : Nat) (c : Color)
    (h0 : 0 ≤ off) (h1 : off + (n : Int) ≤ buf.length) :
    readBuf (writeRun buf off n c) off' =
      if off ≤ off' ∧ off' < off + (n : Int) then some c else readBuf buf off' := by
  induction n with
  | zero =>
    have : ¬ (off ≤ off' ∧ off' < off + ((0 : Nat) : Int)) := by omega
    rw [if_neg this]
    rfl
  | succ n ih =>
    have hlen := writeRun_length buf off n c
    rw [writeRun_succ, readBuf_writeBuf _ _ _ _ (by omega) (by rw [hlen]; omega),
      ih (by omega)]
    split_ifs <;> first | rfl | (exfalso; omega)

/-! ## Tiles: materialising and writing -/

theorem SameGeom.refl (s : PixelDisplay) : SameGeom s s :=
  ⟨rfl, rfl, rfl, rfl, rfl, rfl⟩

theorem SameGeom.trans {s s1 s2 : PixelDisplay} (h1 : SameGeom s s1) (h2 : SameGeom s1 s2) :
    SameGeom s s2 := by
  unfold SameGeom at h1 h2 ⊢
  refine ⟨?_, ?_, ?_, ?_, ?_, ?_⟩
  · rw [h2.1, h1.1]
  · rw [h2.2.1, h1.2.1]
  · rw [h2.2.2.1, h1.2.2.1]
  · rw [h2.2.2.2.1, h1.2.2.2.1]
  · rw [h2.2.2.2.2.1, h1.2.2.2.2.1]
  · rw [h2.2.2.2.2.2, h1.2.2.2.2.2]

theorem pixelAt_eq_tileRead (s : PixelDisplay) (x y : Int) :
    pixelAt s x y = tileRead s (y.tdiv s.tileHeight * s.tileCols + x.tdiv s.tileWidth)
      (y.tmod s.tileHeight * s.tileWidth + x.tmod s.tileWidth) := rfl

/-- Replacing the buffer of a Materialized tile by one of the same length, and
setting its dirty flag: the reads of the tile come from the new buffer, all
other reads are unchanged. -/
theorem store_spec (s : PixelDisplay) (t : Int) (buf buf1 : List Color) (hw : WellFormed s)
    (hin : s.textureInUse t = true) (hb : s.pixelCache t = some buf)
    (hlen : buf1.length = buf.length) :
    let s1 : PixelDisplay :=
      { s with
        pixelCache := Function.update s.pixelCache t (some buf1)
        tileNeedsUpdate := Function.update s.tileNeedsUpdate t true }
    SameGeom s s1 ∧ WellFormed s1 ∧
      ∀ t1 off, tileRead s1 t1 off = if t1 = t then readBuf buf1 off else tileRead s t1 off := by
  intro s1
  refine ⟨SameGeom.refl s, ?_, ?_⟩
  · refine ⟨hw.tileWidth_pos, hw.tileHeight_pos, hw.cols_eq, hw.rows_eq, ?_, ?_⟩
    · intro t1 h1
      show Function.update s.pixelCache t (some buf1) t1 ≠ none
      by_cases e : t1 = t
      · subst e; simp
      · rw [Function.update_noteq e]; exact hw.inUse_alloc t1 h1
    · intro t1 b h1
      change Function.update s.pixelCache t (some buf1) t1 = some b at h1
      show b.length = (s.tileWidth * s.tileHeight).toNat
      by_cases e : t1 = t
      · subst e
        rw [Function.update_same] at h1
        cases h1
        rw [hlen]; exact hw.alloc_size t1 buf hb
      · rw [Function.update_noteq e] at h1
        exact hw.alloc_size t1 b h1
  · intro t1 off
    show (if s.textureInUse t1 then
        match Function.update s.pixelCache t (some buf1) t1 with
        | none => none
        | some buf => readBuf buf off
      else some (s.tileColor t1)) = _
    by_cases e : t1 = t
    · subst e; simp [hin]
    · rw [Function.update_noteq e, if_neg e]; rfl

/-- Materialising a Solid tile changes no read: the new buffer holds the tile
colour in each of its `tileWidth * tileHeight` entries. -/
theorem EnsureTextureInUse_spec (s : PixelDisplay) (t : Int) (hw : WellFormed s) :
    SameGeom s (EnsureTextureInUse s t) ∧ WellFormed (EnsureTextureInUse s t) ∧
      (EnsureTextureInUse s t).textureInUse t = true ∧
      ∀ t1 off, 0 ≤ off → off < s.tileWidth * s.tileHeight →
        tileRead (EnsureTextureInUse s t) t1 off = tileRead s t1 off := by
  unfold EnsureTextureInUse
  by_cases hin : s.textureInUse t = true
  · rw [if_pos hin]
    exact ⟨SameGeom.refl s, hw, hin, fun _ _ _ _ => rfl⟩
  · rw [if_neg hin]
    have hlen : ∀ pixels : List Color, pixels.length = (s.tileWidth * s.tileHeight).toNat →
        (writeRun pixels 0 (s.tileWidth * s.tileHeight).toNat (s.tileColor t)).length =
          (s.tileWidth * s.tileHeight).toNat := by
      intro pixels hp; rw [writeRun_length, hp]
    have hpix : (match s.pixelCache t with
        | none => List.replicate (s.tileWidth * s.tileHeight).toNat (Color.mk 0 0 0 0)
        | some buf => buf).length = (s.tileWidth * s.tileHeight).toNat := by
      cases hc : s.pixelCache t with
      | none => simp
      | some buf => exact hw.alloc_size t buf hc
    refine ⟨SameGeom.refl s, ?_, ?_, ?_⟩
    · refine ⟨hw.tileWidth_pos, hw.tileHeight_pos, hw.cols_eq, hw.rows_eq, ?_, ?_⟩
      · intro t1 h1
        show Function.update s.pixelCache t _ t1 ≠ none
        change Function.update s.textureInUse t true t1 = true at h1
        by_cases e : t1 = t
        · subst e; simp
        · rw [Function.update_noteq e] at h1 ⊢; exact hw.inUse_alloc t1 h1
      · intro t1 b h1
        change Function.update s.pixelCache t _ t1 = some b at h1
        show b.length = (s.tileWidth * s.tileHeight).toNat
        by_cases e : t1 = t
        · subst e
          rw [Function.update_same] at h1
          cases h1
          exact hlen _ hpix
        · rw [Function.update_noteq e] at h1
          exact hw.alloc_size t1 b h1
    · show Function.update s.textureInUse t true t = true
      simp
    · intro t1 off h0 h1
      show (if Function.update s.textureInUse t true t1 = true then
          match Function.update s.pixelCache t _ t1 with
          | none => none
          | some buf => readBuf buf off
        else some (s.tileColor t1)) = tileRead s t1 off
      by_cases e : t1 = t
      · subst e
        simp only [Function.update_same, if_true]
        rw [readBuf_writeRun _ _ _ _ _ (le_refl 0) (by rw [hpix]; omega)]
        have : (0 : Int) ≤ off ∧ off < 0 + ((s.tileWidth * s.tileHeight).toNat : Int) := by omega
        rw [if_pos this]
        simp [tileRead, hin]
      · rw [Function.update_noteq e, Function.update_noteq e]; rfl

/-- The two outcomes of the two-argument `EnsureTextureInUse`: `false` on a
Solid tile of the colour asked about, with the state untouched; otherwise `true`
with the tile Materialized over an allocated buffer and every read unchanged. -/
theorem EnsureTextureInUseUnless_spec (s : PixelDisplay) (t : Int) (c : Color)
    (hw : WellFormed s) :
    ((EnsureTextureInUseUnless s t c).1 = false ∧ (EnsureTextureInUseUnless s t c).2 = s ∧
        s.textureInUse t = false ∧ s.tileColor t = c) ∨
    ((EnsureTextureInUseUnless s t c).1 = true ∧
      SameGeom s (EnsureTextureInUseUnless s t c).2 ∧
      WellFormed (EnsureTextureInUseUnless s t c).2 ∧
      (EnsureTextureInUseUnless s t c).2.textureInUse t = true ∧
      (∃ buf, (EnsureTextureInUseUnless s t c).2.pixelCache t = some buf) ∧
      ∀ t1 off, 0 ≤ off → off < s.tileWidth * s.tileHeight →
        tileRead (EnsureTextureInUseUnless s t c).2 t1 off = tileRead s t1 off) := by
  unfold EnsureTextureInUseUnless
  by_cases hin : s.textureInUse t = true
  · rw [if_pos hin]
    right
    have hb : ∃ buf, s.pixelCache t = some buf := by
      cases hc : s.pixelCache t with
      | none => exact absurd hc (hw.inUse_alloc t hin)
      | some buf => exact ⟨buf, rfl⟩
    exact ⟨rfl, SameGeom.refl s, hw, hin, hb, fun _ _ _ _ => rfl⟩
  · rw [if_neg hin]
    by_cases hc : s.tileColor t = c
    · rw [if_pos hc]
      left
      exact ⟨rfl, rfl, by simpa using hin, hc⟩
    · rw [if_neg hc]
      right
      obtain ⟨hg, hw1, hin1, hr⟩ := EnsureTextureInUse_spec s t hw
      have hb : ∃ buf, (EnsureTextureInUse s t).pixelCache t = some buf := by
        cases hc : (EnsureTextureInUse s t).pixelCache t with
        | none => exact absurd hc (hw1.inUse_alloc t hin1)
        | some buf => exact ⟨buf, rfl⟩
      exact ⟨rfl, hg, hw1, hin1, hb, hr⟩

/-- A Solid tile of colour `c` already shows `c` in every entry: leaving the state
as it is counts as writing `c` to any range of the tile. -/
theorem TileStep.of_solid (s : PixelDisplay) (t lo hi : Int) (c : Color) (hw : WellFormed s)
    (hin : s.textureInUse t = false) (hc : s.tileColor t = c) : TileStep s s t lo hi c := by
  refine ⟨SameGeom.refl s, hw, ?_⟩
  intro t1 off _ _
  by_cases e : t1 = t ∧ lo ≤ off ∧ off < hi
  · rw [if_pos e, e.1]
    simp [tileRead, hin, hc]
  · rw [if_neg e]

/-- Replacing the buffer of tile `t` in a state `s1` that reads like `s`, by a
buffer that differs from the old one by `c` on the entries `lo ≤ off < hi`. -/
theorem TileStep.of_store (s s1 : PixelDisplay) (t lo hi : Int) (c : Color)
    (buf buf1 : List Color) (hg : SameGeom s s1) (hw1 : WellFormed s1)
    (hin : s1.textureInUse t = true) (hb : s1.pixelCache t = some buf)
    (hr : ∀ t1 off, 0 ≤ off → off < s.tileWidth * s.tileHeight →
      tileRead s1 t1 off = tileRead s t1 off)
    (hlen : buf1.length = buf.length)
    (hbuf : ∀ off, readBuf buf1 off = if lo ≤ off ∧ off < hi then some c else readBuf buf off) :
    TileStep s
      { s1 with
        pixelCache := Function.update s1.pixelCache t (some buf1)
        tileNeedsUpdate := Function.update s1.tileNeedsUpdate t true }
      t lo hi c := by
  obtain ⟨g, w, r⟩ := store_spec s1 t buf buf1 hw1 hin hb hlen
  refine ⟨hg.trans g, w, ?_⟩
  intro t1 off h0 h1
  rw [r t1 off]
  by_cases e : t1 = t
  · subst e
    rw [if_pos rfl, hbuf off]
    have hs : tileRead s1 t1 off = readBuf buf off := by simp [tileRead, hin, hb]
    by_cases f : lo ≤ off ∧ off < hi
    · rw [if_pos f, if_pos ⟨rfl, f⟩]
    · rw [if_neg f, if_neg (fun h => f h.2), ← hs, hr t1 off h0 h1]
  · rw [if_neg e, if_neg (fun h => e h.1), hr t1 off h0 h1]

/-- A state that reads like `s` and already shows `c` on `lo ≤ off < hi` of tile `t`. -/
theorem TileStep.of_same (s s1 : PixelDisplay) (t lo hi : Int) (c : Color)
    (hg : SameGeom s s1) (hw1 : WellFormed s1)
    (hr : ∀ t1 off, 0 ≤ off → off < s.tileWidth * s.tileHeight →
      tileRead s1 t1 off = tileRead s t1 off)
    (hc : ∀ off, 0 ≤ off → off < s.tileWidth * s.tileHeight → lo ≤ off → off < hi →
      tileRead s1 t off = some c) :
    TileStep s s1 t lo hi c := by
  refine ⟨hg, hw1, ?_⟩
  intro t1 off h0 h1
  by_cases e : t1 = t ∧ lo ≤ off ∧ off < hi
  · rw [if_pos e, e.1]; exact hc off h0 h1 e.2.1 e.2.2
  · rw [if_neg e]; exact hr t1 off h0 h1

/-- A call of `SetPixel` at an in-bounds pixel writes `color` to one entry of one tile. -/
theorem SetPixel_step (s : PixelDisplay) (x y : Int) (color : Color) (hw : WellFormed s)
    (hb : inBounds s x y) :
    TileStep s (SetPixel s x y color)
      (y.tdiv s.tileHeight * s.tileCols + x.tdiv s.tileWidth)
      (y.tmod s.tileHeight * s.tileWidth + x.tmod s.tileWidth)
      (y.tmod s.tileHeight * s.tileWidth + x.tmod s.tileWidth + 1) color := by
  obtain ⟨hx0, hx1, hy0, hy1⟩ := hb
  have hcond : ¬ (x < 0 ∨ y < 0 ∨ x ≥ s.totalWidth ∨ y ≥ s.totalHeight) := by omega
  unfold SetPixel
  rw [if_neg hcond]
  have htw := hw.tileWidth_pos
  have hth := hw.tileHeight_pos
  have hlx := divmod_spec x s.tileWidth htw
  have hly := divmod_spec y s.tileHeight hth
  rw [tmod_of_nonneg hx0 htw, tmod_of_nonneg hy0 hth]
  have hoff0 : 0 ≤ y % s.tileHeight * s.tileWidth + x % s.tileWidth := by
    have := Int.mul_nonneg hly.2.1 htw.le
    omega
  have hoff1 : y % s.tileHeight * s.tileWidth + x % s.tileWidth < s.tileWidth * s.tileHeight := by
    have h : (y % s.tileHeight + 1) * s.tileWidth ≤ s.tileHeight * s.tileWidth :=
      Int.mul_le_mul_of_nonneg_right (by omega) htw.le
    rw [Int.add_mul, Int.mul_comm s.tileHeight] at h
    omega
  rcases EnsureTextureInUseUnless_spec s
      (y.tdiv s.tileHeight * s.tileCols + x.tdiv s.tileWidth) color hw with
    ⟨h1, h2, h3, h4⟩ | ⟨h1, hg, hw1, hin, ⟨buf, hbuf⟩, hr⟩
  · simp only [h1, if_true]
    rw [h2]
    exact TileStep.of_solid s _ _ _ color hw h3 h4
  · simp only [h1, Bool.true_eq_false, if_false]
    rw [hbuf]
    simp only
    have hlen : buf.length = (s.tileWidth * s.tileHeight).toNat := by
      have := hw1.alloc_size _ buf hbuf
      rw [hg.2.2.1, hg.2.2.2.1] at this
      exact this
    by_cases he : readBuf buf (y % s.tileHeight * s.tileWidth + x % s.tileWidth) = some color
    · rw [if_pos he]
      refine TileStep.of_same s _ _ _ _ color hg hw1 hr ?_
      intro off _ _ hlo hhi
      have : off = y % s.tileHeight * s.tileWidth + x % s.tileWidth := by omega
      subst this
      simp [tileRead, hin, hbuf, he]
    · rw [if_neg he]
      refine TileStep.of_store s _ _ _ _ color buf _ hg hw1 hin hbuf hr
        (writeBuf_length _ _ _) ?_
      intro off
      rw [readBuf_writeBuf _ _ _ _ hoff0 (by rw [hlen]; omega)]
      by_cases e : off = y % s.tileHeight * s.tileWidth + x % s.tileWidth
      · rw [if_pos e, if_pos (by omega)]
      · rw [if_neg e, if_neg (by omega)]

/-! ## From pixels to tiles -/

/-- Two offsets `l * w + m` with `0 ≤ m < w`: the second lies in a run of the
first row `l` exactly when it is in that row and its column is in the run. -/
theorem run_offset_iff {w l m n l1 m1 : Int} (hm : 0 ≤ m) (hn : m + n ≤ w)
    (hm1 : 0 ≤ m1) (hm1w : m1 < w) :
    (l * w + m ≤ l1 * w + m1 ∧ l1 * w + m1 < l * w + m + n) ↔ (l1 = l ∧ m ≤ m1 ∧ m1 < m + n) := by
  constructor
  · rintro ⟨h1, h2⟩
    have hw : 0 < w := by omega
    have e : l1 = l := by
      rcases lt_trichotomy l1 l with h | h | h
      · exfalso
        have := Int.mul_le_mul_of_nonneg_right (show l1 + 1 ≤ l by omega) hw.le
        rw [Int.add_mul] at this
        omega
      · exact h
      · exfalso
        have := Int.mul_le_mul_of_nonneg_right (show l + 1 ≤ l1 by omega) hw.le
        rw [Int.add_mul] at this
        omega
    subst e
    exact ⟨rfl, by omega, by omega⟩
  · rintro ⟨rfl, h1, h2⟩
    exact ⟨by omega, by omega⟩

/-- The number of tile columns covers every pixel column of the surface. -/
theorem ediv_lt_ceilDiv {x W w : Int} (hw : 0 < w) (h0 : 0 ≤ x) (h1 : x < W) :
    x / w < ceilDiv W w := by
  unfold ceilDiv
  rw [if_neg (by omega), tdiv_of_nonneg (by omega) hw]
  have := Int.ediv_le_ediv hw (show x ≤ W - 1 by omega)
  omega

/-- The tile and the buffer offset of an in-bounds pixel, in floor arithmetic,
and their ranges. -/
theorem pixel_coords (s : PixelDisplay) (x y : Int) (hw : WellFormed s) (hb : inBounds s x y) :
    x.tdiv s.tileWidth = x / s.tileWidth ∧ y.tdiv s.tileHeight = y / s.tileHeight ∧
    x.tmod s.tileWidth = x % s.tileWidth ∧ y.tmod s.tileHeight = y % s.tileHeight ∧
    0 ≤ x / s.tileWidth ∧ x / s.tileWidth < s.tileCols ∧
    0 ≤ y / s.tileHeight ∧ y / s.tileHeight < s.tileRows ∧
    0 ≤ y % s.tileHeight * s.tileWidth + x % s.tileWidth ∧
    y % s.tileHeight * s.tileWidth + x % s.tileWidth < s.tileWidth * s.tileHeight := by
  obtain ⟨hx0, hx1, hy0, hy1⟩ := hb
  have htw := hw.tileWidth_pos
  have hth := hw.tileHeight_pos
  have hlx := divmod_spec x s.tileWidth htw
  have hly := divmod_spec y s.tileHeight hth
  refine ⟨tdiv_of_nonneg hx0 htw, tdiv_of_nonneg hy0 hth, tmod_of_nonneg hx0 htw,
    tmod_of_nonneg hy0 hth, Int.ediv_nonneg hx0 htw.le, ?_, Int.ediv_nonneg hy0 hth.le, ?_, ?_, ?_⟩
  · rw [hw.cols_eq]; exact ediv_lt_ceilDiv htw hx0 hx1
  · rw [hw.rows_eq]; exact ediv_lt_ceilDiv hth hy0 hy1
  · have := Int.mul_nonneg hly.2.1 htw.le
    omega
  · have h : (y % s.tileHeight + 1) * s.tileWidth ≤ s.tileHeight * s.tileWidth :=
      Int.mul_le_mul_of_nonneg_right (by omega) htw.le
    rw [Int.add_mul, Int.mul_comm s.tileHeight] at h
    omega

/-- The pixels that a run of `n` buffer entries of tile `(row, col)` stands for:
an in-bounds pixel `(x, y)` has its buffer entry in the run starting at local
position `(lx, ly)` exactly when `y` is the run's row and `x` is in the run. -/
theorem pixel_in_run_iff (s : PixelDisplay) (x y row col lx ly n : Int) (hw : WellFormed s)
    (hb : inBounds s x y) (hcol0 : 0 ≤ col) (hcol1 : col < s.tileCols)
    (hly0 : 0 ≤ ly) (hly1 : ly < s.tileHeight) (hlx0 : 0 ≤ lx) (hlx1 : lx + n ≤ s.tileWidth) :
    (y.tdiv s.tileHeight * s.tileCols + x.tdiv s.tileWidth = row * s.tileCols + col ∧
      ly * s.tileWidth + lx ≤ y.tmod s.tileHeight * s.tileWidth + x.tmod s.tileWidth ∧
      y.tmod s.tileHeight * s.tileWidth + x.tmod s.tileWidth < ly * s.tileWidth + lx + n) ↔
    (y = row * s.tileHeight + ly ∧ col * s.tileWidth + lx ≤ x ∧
      x < col * s.tileWidth + lx + n) := by
  obtain ⟨e1, e2, e3, e4, c0, c1, _, _, _, _⟩ := pixel_coords s x y hw hb
  rw [e1, e2, e3, e4]
  have htw := hw.tileWidth_pos
  have hth := hw.tileHeight_pos
  have hlx := divmod_spec x s.tileWidth htw
  have hly := divmod_spec y s.tileHeight hth
  constructor
  · rintro ⟨h1, h2, h3⟩
    obtain ⟨r1, r2⟩ := rowMajor_inj c0 c1 hcol0 hcol1 h1
    obtain ⟨q1, q2, q3⟩ := (run_offset_iff hlx0 hlx1 hlx.2.1 hlx.2.2).mp ⟨h2, h3⟩
    rw [r1, q1] at hly
    rw [r2] at hlx
    omega
  · rintro ⟨h1, h2, h3⟩
    have r1 : y / s.tileHeight = row :=
      ediv_eq_of_bounds hth (by omega) (by rw [Int.add_mul]; omega)
    have r2 : x / s.tileWidth = col :=
      ediv_eq_of_bounds htw (by omega) (by rw [Int.add_mul]; omega)
    rw [r1] at hly ⊢
    rw [r2] at hlx ⊢
    have q : y % s.tileHeight = ly := by omega
    refine ⟨rfl, ?_⟩
    rw [q]
    omega

/-- How a write to a run of one tile shows in the logical pixels. -/
theorem TileStep.pixelAt {s s1 : PixelDisplay} {row col lx ly n : Int} {c : Color}
    (h : TileStep s s1 (row * s.tileCols + col) (ly * s.tileWidth + lx)
      (ly * s.tileWidth + lx + n) c)
    (hw : WellFormed s) (hcol0 : 0 ≤ col) (hcol1 : col < s.tileCols)
    (hly0 : 0 ≤ ly) (hly1 : ly < s.tileHeight) (hlx0 : 0 ≤ lx) (hlx1 : lx + n ≤ s.tileWidth)
    (x y : Int) (hb : inBounds s x y) :
    SdlGlue.pixelAt s1 x y =
      if y = row * s.tileHeight + ly ∧ col * s.tileWidth + lx ≤ x ∧
          x < col * s.tileWidth + lx + n
      then some c else SdlGlue.pixelAt s x y := by
  obtain ⟨g1, g2, g3, g4, g5, g6⟩ := h.geom
  have hc := pixel_coords s x y hw hb
  rw [pixelAt_eq_tileRead, pixelAt_eq_tileRead, g3, g4, g5]
  rw [h.read _ _ (by rw [hc.2.2.1, hc.2.2.2.1]; exact hc.2.2.2.2.2.2.2.2.1)
    (by rw [hc.2.2.1, hc.2.2.2.1]; exact hc.2.2.2.2.2.2.2.2.2)]
  have := pixel_in_run_iff s x y row col lx ly n hw hb hcol0 hcol1 hly0 hly1 hlx0 hlx1
  by_cases e : y = row * s.tileHeight + ly ∧ col * s.tileWidth + lx ≤ x ∧
      x < col * s.tileWidth + lx + n
  · rw [if_pos e, if_pos (this.mpr e)]
  · rw [if_neg e, if_neg (fun h => e (this.mp h))]

/-! ## `SetPixel` -/

theorem SetPixel_of_not_inBounds (s : PixelDisplay) (x y : Int) (color : Color)
    (h : ¬ inBounds s x y) : SetPixel s x y color = s := by
  unfold SetPixel
  rw [if_pos]
  unfold inBounds at h
  omega

theorem SetPixel_geom (s : PixelDisplay) (x y : Int) (color : Color) (hw : WellFormed s) :
    SameGeom s (SetPixel s x y color) := by
  by_cases hb : inBounds s x y
  · exact (SetPixel_step s x y color hw hb).geom
  · rw [SetPixel_of_not_inBounds s x y color hb]; exact SameGeom.refl s

theorem SetPixel_wf (s : PixelDisplay) (x y : Int) (color : Color) (hw : WellFormed s) :
    WellFormed (SetPixel s x y color) := by
  by_cases hb : inBounds s x y
  · exact (SetPixel_step s x y color hw hb).wf
  · rw [SetPixel_of_not_inBounds s x y color hb]; exact hw

theorem inBounds_of_geom {s s1 : PixelDisplay} (h : SameGeom s s1) (x y : Int) :
    inBounds s1 x y ↔ inBounds s x y := by
  unfold inBounds
  rw [h.1, h.2.1]

/-- The logical pixels after `SetPixel(x, y, color)`, for any `(x, y)`: the pixel
`(x, y)` shows `color`, every other pixel of the surface shows what it did. -/
theorem SetPixel_pixelAt (s : PixelDisplay) (x y : Int) (color : Color) (hw : WellFormed s)
    (x1 y1 : Int) (hb1 : inBounds s x1 y1) :
    pixelAt (SetPixel s x y color) x1 y1 =
      if x1 = x ∧ y1 = y then some color else pixelAt s x1 y1 := by
  by_cases hb : inBounds s x y
  · have hc := pixel_coords s x y hw hb
    have htw := hw.tileWidth_pos
    have hth := hw.tileHeight_pos
    have hlx := divmod_spec x s.tileWidth htw
    have hly := divmod_spec y s.tileHeight hth
    have hstep := SetPixel_step s x y color hw hb
    have hlx1 : x.tmod s.tileWidth + 1 ≤ s.tileWidth := by rw [hc.2.2.1]; omega
    have := TileStep.pixelAt hstep hw (by rw [hc.1]; exact hc.2.2.2.2.1)
      (by rw [hc.1]; exact hc.2.2.2.2.2.1) (by rw [hc.2.2.2.1]; exact hly.2.1)
      (by rw [hc.2.2.2.1]; exact hly.2.2) (by rw [hc.2.2.1]; exact hlx.2.1) hlx1 x1 y1 hb1
    rw [this, hc.1, hc.2.1, hc.2.2.1, hc.2.2.2.1]
    by_cases e : x1 = x ∧ y1 = y
    · rw [if_pos e, if_pos (by omega)]
    · rw [if_neg e, if_neg (by omega)]
  · rw [SetPixel_of_not_inBounds s x y color hb]
    have : ¬ (x1 = x ∧ y1 = y) := by
      rintro ⟨rfl, rfl⟩
      exact hb hb1
    rw [if_neg this]

/-! ## `Clear` and the constructor -/

/-- Making tiles Solid one after the other, over any list of tile indices: the
listed tiles end Solid with the colour, nothing else changes. -/
theorem setSolid_fold (color : Color) (l : List Int) (s : PixelDisplay) :
    SameGeom s (l.foldl (fun (d : PixelDisplay) (t : Int) => setSolid d t color) s) ∧
      (l.foldl (fun (d : PixelDisplay) (t : Int) => setSolid d t color) s).pixelCache
        = s.pixelCache ∧
      (l.foldl (fun (d : PixelDisplay) (t : Int) => setSolid d t color) s).tileNeedsUpdate
        = s.tileNeedsUpdate ∧
      ∀ t : Int,
        (l.foldl (fun (d : PixelDisplay) (t : Int) => setSolid d t color) s).textureInUse t
          = (if t ∈ l then false else s.textureInUse t) ∧
        (l.foldl (fun (d : PixelDisplay) (t : Int) => setSolid d t color) s).tileColor t
          = (if t ∈ l then color else s.tileColor t) := by
  induction l generalizing s with
  | nil => exact ⟨SameGeom.refl s, rfl, rfl, fun t => by simp⟩
  | cons a l ih =>
    obtain ⟨g, hp, hd, ht⟩ := ih (setSolid s a color)
    rw [List.foldl_cons]
    refine ⟨(show SameGeom s (setSolid s a color) from SameGeom.refl s).trans g, hp, hd, ?_⟩
    intro t
    obtain ⟨h1, h2⟩ := ht t
    rw [h1, h2]
    by_cases e : t ∈ l
    · simp [e]
    · by_cases f : t = a
      · subst f; simp [setSolid]
      · simp [e, f, setSolid, Function.update_noteq f]

theorem Clear_eq (s : PixelDisplay) (color : Color) :
    Clear s color = ((List.range (s.tileCols * s.tileRows).toNat).map (fun (i : Nat) => (i : Int))).foldl
      (fun (d : PixelDisplay) (t : Int) => setSolid d t color) s := by
  unfold Clear
  rw [List.foldl_map]

theorem Clear_spec (s : PixelDisplay) (color : Color) :
    SameGeom s (Clear s color) ∧ (Clear s color).pixelCache = s.pixelCache ∧
      (Clear s color).tileNeedsUpdate = s.tileNeedsUpdate ∧
      ∀ t : Int,
        (Clear s color).textureInUse t =
          (if 0 ≤ t ∧ t < s.tileCols * s.tileRows then false else s.textureInUse t) ∧
        (Clear s color).tileColor t =
          (if 0 ≤ t ∧ t < s.tileCols * s.tileRows then color else s.tileColor t) := by
  rw [Clear_eq]
  obtain ⟨g, hp, hd, ht⟩ := setSolid_fold color
    ((List.range (s.tileCols * s.tileRows).toNat).map (fun (i : Nat) => (i : Int))) s
  refine ⟨g, hp, hd, ?_⟩
  intro t
  obtain ⟨h1, h2⟩ := ht t
  have e : t ∈ (List.range (s.tileCols * s.tileRows).toNat).map (fun (i : Nat) => (i : Int)) ↔
      (0 ≤ t ∧ t < s.tileCols * s.tileRows) := by
    simp only [List.mem_map, List.mem_range]
    constructor
    · rintro ⟨i, hi, rfl⟩; omega
    · rintro ⟨h0, h1⟩; exact ⟨t.toNat, by omega, by omega⟩
  rw [h1, h2]
  by_cases f : 0 ≤ t ∧ t < s.tileCols * s.tileRows
  · rw [if_pos (e.mpr f), if_pos (e.mpr f), if_pos f, if_pos f]
    exact ⟨rfl, rfl⟩
  · rw [if_neg (fun h => f (e.mp h)), if_neg (fun h => f (e.mp h)), if_neg f, if_neg f]
    exact ⟨rfl, rfl⟩

theorem Clear_wf (s : PixelDisplay) (color : Color) (hw : WellFormed s) :
    WellFormed (Clear s color) := by
  obtain ⟨⟨g1, g2, g3, g4, g5, g6⟩, hp, _, ht⟩ := Clear_spec s color
  refine ⟨by rw [g3]; exact hw.tileWidth_pos, by rw [g4]; exact hw.tileHeight_pos,
    by rw [g5, g1, g3]; exact hw.cols_eq, by rw [g6, g2, g4]; exact hw.rows_eq, ?_, ?_⟩
  · intro t h
    rw [hp]
    rw [(ht t).1] at h
    by_cases e : 0 ≤ t ∧ t < s.tileCols * s.tileRows
    · rw [if_pos e] at h; cases h
    · rw [if_neg e] at h; exact hw.inUse_alloc t h
  · intro t buf h
    rw [hp] at h
    rw [g3, g4]
    exact hw.alloc_size t buf h

theorem AllocArrays_wf (w h tw th : Int) (htw : 0 < tw) (hth : 0 < th) :
    WellFormed (AllocArrays w h tw th) :=
  ⟨htw, hth, rfl, rfl, fun _ h => (by cases h), fun _ _ h => (by cases h)⟩

/-- The constructor yields a well-formed display for positive tile dimensions. -/
theorem create_wf (w h tw th : Int) (c : Color) (htw : 0 < tw) (hth : 0 < th) :
    WellFormed (PixelDisplay.create w h tw th c) :=
  Clear_wf _ c (AllocArrays_wf w h tw th htw hth)

/-- The tile index of an in-bounds pixel is one of the `tileCols * tileRows` tiles. -/
theorem tileIndex_range (s : PixelDisplay) (x y : Int) (hw : WellFormed s)
    (hb : inBounds s x y) :
    0 ≤ y.tdiv s.tileHeight * s.tileCols + x.tdiv s.tileWidth ∧
      y.tdiv s.tileHeight * s.tileCols + x.tdiv s.tileWidth < s.tileCols * s.tileRows := by
  obtain ⟨e1, e2, _, _, c0, c1, r0, r1, _, _⟩ := pixel_coords s x y hw hb
  rw [e1, e2]
  have hC : 0 < s.tileCols := by omega
  have h1 := Int.mul_nonneg r0 hC.le
  have h2 : (y / s.tileHeight + 1) * s.tileCols ≤ s.tileRows * s.tileCols :=
    Int.mul_le_mul_of_nonneg_right (by omega) hC.le
  rw [Int.add_mul, Int.mul_comm s.tileRows] at h2
  omega

/-! ## `SetPixelRun` -/

/-- One pass of the loop of `SetPixelRun`, entered with `x` in tile column `col`
and `x < x1`: the run `x ≤ · < min ((col + 1) * tileWidth) x1` of buffer row
`localY` of tile `(row, col)` is written. -/
theorem SetPixelRunBody_step (s : PixelDisplay) (x1 row localY : Int) (color : Color)
    (x col : Int) (hw : WellFormed s) (hly0 : 0 ≤ localY) (hly1 : localY < s.tileHeight)
    (hcol : 0 ≤ col) (hx0 : col * s.tileWidth ≤ x) (hx1 : x < (col + 1) * s.tileWidth)
    (hx : x < x1) :
    TileStep s (SetPixelRunBody s x1 row localY color x col) (row * s.tileCols + col)
      (localY * s.tileWidth + (x - col * s.tileWidth))
      (localY * s.tileWidth + (x - col * s.tileWidth) +
        ((if (col + 1) * s.tileWidth > x1 then x1 else (col + 1) * s.tileWidth) - x)) color := by
  have htw := hw.tileWidth_pos
  have hth := hw.tileHeight_pos
  have hcw : 0 ≤ col * s.tileWidth := Int.mul_nonneg hcol htw.le
  have hxn : 0 ≤ x := by omega
  have hq : x / s.tileWidth = col := ediv_eq_of_bounds htw hx0 hx1
  have hlx := divmod_spec x s.tileWidth htw
  rw [hq] at hlx
  have hm : x.tmod s.tileWidth = x - col * s.tileWidth := by
    rw [tmod_of_nonneg hxn htw]; omega
  have hend : x < (if (col + 1) * s.tileWidth > x1 then x1 else (col + 1) * s.tileWidth) := by
    split <;> omega
  have hend1 : (if (col + 1) * s.tileWidth > x1 then x1 else (col + 1) * s.tileWidth) ≤
      (col + 1) * s.tileWidth := by
    split <;> omega
  generalize hE : (if (col + 1) * s.tileWidth > x1 then x1 else (col + 1) * s.tileWidth) = endX
    at hend hend1
  have hoff0 : 0 ≤ localY * s.tileWidth + (x - col * s.tileWidth) := by
    have := Int.mul_nonneg hly0 htw.le
    omega
  have hoff1 : localY * s.tileWidth + (x - col * s.tileWidth) + (endX - x) ≤
      s.tileWidth * s.tileHeight := by
    have h : (localY + 1) * s.tileWidth ≤ s.tileHeight * s.tileWidth :=
      Int.mul_le_mul_of_nonneg_right (by omega) htw.le
    rw [Int.add_mul, Int.mul_comm s.tileHeight] at h
    rw [Int.add_mul] at hend1
    omega
  unfold SetPixelRunBody
  simp only [hE, hm]
  rcases EnsureTextureInUseUnless_spec s (row * s.tileCols + col) color hw with
    ⟨h1, h2, h3, h4⟩ | ⟨h1, hg, hw1, hin, ⟨buf, hbuf⟩, hr⟩
  · rw [if_neg (by rw [h1]; decide), h2]
    exact TileStep.of_solid s _ _ _ color hw h3 h4
  · rw [if_pos h1, hbuf]
    simp only
    have hlen : buf.length = (s.tileWidth * s.tileHeight).toNat := by
      have := hw1.alloc_size _ buf hbuf
      rw [hg.2.2.1, hg.2.2.2.1] at this
      exact this
    have hn : (((endX - x).toNat : Nat) : Int) = endX - x := Int.toNat_of_nonneg (by omega)
    refine TileStep.of_store s _ _ _ _ color buf _ hg hw1 hin hbuf hr
      (writeRun_length _ _ _ _) ?_
    intro off
    rw [readBuf_writeRun _ _ _ _ _ hoff0 (by rw [hlen, hn]; omega), hn]

/-- The loop of `SetPixelRun` on row `y`, entered with `x` in tile column `col`:
it keeps the display well formed, sets the pixels `x ≤ · < x1` of row `y` and no
other, and does not depend on fuel beyond `x1 - x`. -/
theorem SetPixelRunLoop_spec (x1 y : Int) (color : Color) (fuel : Nat) :
    ∀ (x col : Int) (s : PixelDisplay), WellFormed s → 0 ≤ y → y < s.totalHeight →
      x1 ≤ s.totalWidth → 0 ≤ col → col * s.tileWidth ≤ x → x < (col + 1) * s.tileWidth →
      (x1 - x).toNat ≤ fuel →
      SameGeom s (SetPixelRunLoop x1 (y / s.tileHeight) (y % s.tileHeight) color fuel x col s) ∧
      WellFormed (SetPixelRunLoop x1 (y / s.tileHeight) (y % s.tileHeight) color fuel x col s) ∧
      (∀ xp yp : Int, inBounds s xp yp →
        pixelAt (SetPixelRunLoop x1 (y / s.tileHeight) (y % s.tileHeight) color fuel x col s)
          xp yp = if yp = y ∧ x ≤ xp ∧ xp < x1 then some color else pixelAt s xp yp) ∧
      (∀ k : Nat,
        SetPixelRunLoop x1 (y / s.tileHeight) (y % s.tileHeight) color (fuel + k) x col s =
          SetPixelRunLoop x1 (y / s.tileHeight) (y % s.tileHeight) color fuel x col s) := by
  induction fuel with
  | zero =>
    intro x col s hw _ _ _ _ _ _ hf
    refine ⟨SameGeom.refl s, hw, ?_, ?_⟩
    · intro xp yp _
      rw [if_neg (by omega)]
      rfl
    · intro k
      cases k with
      | zero => rfl
      | succ k =>
        show SetPixelRunLoop x1 _ _ color (0 + (k + 1)) x col s = s
        rw [show 0 + (k + 1) = k + 1 by omega]
        unfold SetPixelRunLoop
        rw [if_neg (by omega)]
  | succ fuel ih =>
    intro x col s hw hy0 hy1 hx1 hcol hxa hxb hf
    by_cases hx : x < x1
    · have htw := hw.tileWidth_pos
      have hth := hw.tileHeight_pos
      have hly := divmod_spec y s.tileHeight hth
      have hcw : 0 ≤ col * s.tileWidth := Int.mul_nonneg hcol htw.le
      have hstep := SetPixelRunBody_step s x1 (y / s.tileHeight) (y % s.tileHeight) color x col
        hw hly.2.1 hly.2.2 hcol hxa hxb hx
      obtain ⟨g1, g2, g3, g4, g5, g6⟩ := hstep.geom
      have hcolC : col < s.tileCols := by
        have h := ediv_lt_ceilDiv htw (show 0 ≤ x by omega) (show x < s.totalWidth by omega)
        rw [ediv_eq_of_bounds htw hxa hxb, ← hw.cols_eq] at h
        exact h
      have hnext : (col + 1) * s.tileWidth < (col + 1 + 1) * s.tileWidth := by
        rw [Int.add_mul (col + 1) 1]; omega
      have hih := ih ((col + 1) * s.tileWidth) (col + 1)
        (SetPixelRunBody s x1 (y / s.tileHeight) (y % s.tileHeight) color x col) hstep.wf hy0
        (by rw [g2]; exact hy1) (by rw [g1]; exact hx1) (by omega) (by rw [g3])
        (by rw [g3]; exact hnext) (by omega)
      rw [g4] at hih
      obtain ⟨i1, i2, i3, i4⟩ := hih
      have unf : ∀ f : Nat,
          SetPixelRunLoop x1 (y / s.tileHeight) (y % s.tileHeight) color (f + 1) x col s =
          SetPixelRunLoop x1 (y / s.tileHeight) (y % s.tileHeight) color f
            ((col + 1) * s.tileWidth) (col + 1)
            (SetPixelRunBody s x1 (y / s.tileHeight) (y % s.tileHeight) color x col) := by
        intro f
        conv => lhs; unfold SetPixelRunLoop
        rw [if_pos hx]
      rw [unf]
      refine ⟨hstep.geom.trans i1, i2, ?_, ?_⟩
      · intro xp yp hb
        rw [i3 xp yp ((inBounds_of_geom hstep.geom xp yp).mpr hb)]
        have hend1 : (if (col + 1) * s.tileWidth > x1 then x1 else (col + 1) * s.tileWidth) ≤
            (col + 1) * s.tileWidth := by
          split <;> omega
        have hcw1 : (col + 1) * s.tileWidth = col * s.tileWidth + s.tileWidth := by
          rw [Int.add_mul, Int.one_mul]
        have hp := TileStep.pixelAt hstep hw hcol hcolC hly.2.1 hly.2.2
          (show 0 ≤ x - col * s.tileWidth by omega)
          (by omega) xp yp hb
        rw [hp]
        have hy : y / s.tileHeight * s.tileHeight + y % s.tileHeight = y := hly.1.symm
        rw [hy]
        by_cases hc : (col + 1) * s.tileWidth > x1
        · rw [if_pos hc]
          by_cases e : yp = y ∧ x ≤ xp ∧ xp < x1
          · rw [if_neg (by omega), if_pos (by omega), if_pos e]
          · rw [if_neg (by omega), if_neg (by omega), if_neg e]
        · rw [if_neg hc]
          by_cases e : yp = y ∧ x ≤ xp ∧ xp < x1
          · rw [if_pos e]
            by_cases f : (col + 1) * s.tileWidth ≤ xp
            · rw [if_pos (by omega)]
            · rw [if_neg (by omega), if_pos (by omega)]
          · rw [if_neg e, if_neg (by omega), if_neg (by omega)]
      · intro k
        rw [show fuel + 1 + k = (fuel + k) + 1 by omega, unf, i4 k]
    · have unf : ∀ f : Nat,
          SetPixelRunLoop x1 (y / s.tileHeight) (y % s.tileHeight) color (f + 1) x col s = s := by
        intro f
        conv => lhs; unfold SetPixelRunLoop
        rw [if_neg hx]
      rw [unf]
      refine ⟨SameGeom.refl s, hw, ?_, ?_⟩
      · intro xp yp _
        rw [if_neg (by omega)]
      · intro k
        rw [show fuel + 1 + k = (fuel + k) + 1 by omega, unf]

/-- A call of `SetPixelRun` on a row of the surface, with both ends of the run clamped to
the surface: the pixels `x0 ≤ x < x1` of row `y` show `color`, every other pixel
of the surface shows what it did. -/
theorem SetPixelRun_spec (s : PixelDisplay) (x0 x1 y : Int) (color : Color) (hw : WellFormed s)
    (hy0 : 0 ≤ y) (hy1 : y < s.totalHeight) (hx0 : 0 ≤ x0) (hx1 : x1 ≤ s.totalWidth) :
    SameGeom s (SetPixelRun s x0 x1 y color) ∧ WellFormed (SetPixelRun s x0 x1 y color) ∧
      ∀ xp yp : Int, inBounds s xp yp →
        pixelAt (SetPixelRun s x0 x1 y color) xp yp =
          if yp = y ∧ x0 ≤ xp ∧ xp < x1 then some color else pixelAt s xp yp := by
  have htw := hw.tileWidth_pos
  have hth := hw.tileHeight_pos
  have hlx := divmod_spec x0 s.tileWidth htw
  have hly := divmod_spec y s.tileHeight hth
  have e : SetPixelRun s x0 x1 y color =
      SetPixelRunLoop x1 (y / s.tileHeight) (y % s.tileHeight) color (x1 - x0).toNat x0
        (x0 / s.tileWidth) s := by
    unfold SetPixelRun
    simp only [tdiv_of_nonneg hx0 htw, tdiv_of_nonneg hy0 hth]
    rw [show y - y / s.tileHeight * s.tileHeight = y % s.tileHeight by omega]
  rw [e]
  obtain ⟨a, b, c, _⟩ := SetPixelRunLoop_spec x1 y color (x1 - x0).toNat x0 (x0 / s.tileWidth) s
    hw hy0 hy1 hx1 (Int.ediv_nonneg hx0 htw.le) (by omega) (by rw [Int.add_mul]; omega)
    (le_refl _)
  exact ⟨a, b, c⟩

/-- The fuel of the loop of `SetPixelRun` is never what stops it: from the state
in which `SetPixelRun` enters the loop, any larger amount of fuel gives the same
final state, so the loop ends because `x < x1` fails. -/
theorem SetPixelRunLoop_fuel (s : PixelDisplay) (x0 x1 y : Int) (color : Color)
    (hw : WellFormed s) (hy0 : 0 ≤ y) (hy1 : y < s.totalHeight) (hx0 : 0 ≤ x0)
    (hx1 : x1 ≤ s.totalWidth) (k : Nat) :
    SetPixelRunLoop x1 (y.tdiv s.tileHeight) (y - y.tdiv s.tileHeight * s.tileHeight) color
        ((x1 - x0).toNat + k) x0 (x0.tdiv s.tileWidth) s = SetPixelRun s x0 x1 y color := by
  have htw := hw.tileWidth_pos
  have hth := hw.tileHeight_pos
  have hlx := divmod_spec x0 s.tileWidth htw
  have hly := divmod_spec y s.tileHeight hth
  unfold SetPixelRun
  simp only [tdiv_of_nonneg hx0 htw, tdiv_of_nonneg hy0 hth]
  rw [show y - y / s.tileHeight * s.tileHeight = y % s.tileHeight by omega]
  exact (SetPixelRunLoop_spec x1 y color (x1 - x0).toNat x0 (x0 / s.tileWidth) s
    hw hy0 hy1 hx1 (Int.ediv_nonneg hx0 htw.le) (by omega) (by rw [Int.add_mul]; omega)
    (le_refl _)).2.2.2 k

/-! ## `FillRect` -/

/-- A property kept by every pass of a loop holds after the loop. -/
theorem foldl_invariant {α β : Type} (P : α → Prop) (f : α → β → α) (l : List β) (a : α)
    (hf : ∀ d b, P d → P (f d b)) (ha : P a) : P (l.foldl f a) := by
  induction l generalizing a with
  | nil => exact ha
  | cons b l ih => exact ih (f a b) (hf a b ha)

/-- A loop whose body changes nothing changes nothing. -/
theorem foldl_fixed {α β : Type} (f : α → β → α) (l : List β) (a : α)
    (hf : ∀ d b, f d b = d) : l.foldl f a = a := by
  induction l with
  | nil => rfl
  | cons b l ih => rw [List.foldl_cons, hf, ih]

theorem setSolid_wf (s : PixelDisplay) (t : Int) (color : Color) (hw : WellFormed s) :
    WellFormed (setSolid s t color) := by
  refine ⟨hw.tileWidth_pos, hw.tileHeight_pos, hw.cols_eq, hw.rows_eq, ?_, hw.alloc_size⟩
  intro t1 h
  change Function.update s.textureInUse t false t1 = true at h
  by_cases e : t1 = t
  · subst e; simp at h
  · rw [Function.update_noteq e] at h; exact hw.inUse_alloc t1 h

/-- The bulk phase of `FillRect` keeps the dimensions and well-formedness. -/
theorem FillRectBulk_wf (s : PixelDisplay) (c0 c1 r0 r1 : Int) (color : Color)
    (hw : WellFormed s) :
    SameGeom s (FillRectBulk s c0 c1 r0 r1 color) ∧
      WellFormed (FillRectBulk s c0 c1 r0 r1 color) := by
  unfold FillRectBulk
  apply foldl_invariant (fun d => SameGeom s d ∧ WellFormed d)
  · intro d i hd
    apply foldl_invariant (fun d => SameGeom s d ∧ WellFormed d)
    · intro e j he
      exact ⟨he.1.trans (SameGeom.refl e), setSolid_wf e _ color he.2⟩
    · exact hd
  · exact ⟨SameGeom.refl s, hw⟩

/-- The first `n` passes of the row loop of `FillRect`, from row `y0`, with the
rectangle clamped to the surface: exactly the pixels of the rows
`y0 ≤ y < y0 + n` and columns `x0 ≤ x < x1` are set. -/
theorem FillRectRows_fold (s : PixelDisplay) (x0 x1 y0 : Int) (color : Color)
    (hw : WellFormed s) (hx0 : 0 ≤ x0) (hx1 : x1 ≤ s.totalWidth) (hy0 : 0 ≤ y0) (n : Nat)
    (hn : y0 + (n : Int) ≤ s.totalHeight) :
    SameGeom s ((List.range n).foldl
        (fun (d : PixelDisplay) (i : Nat) => SetPixelRun d x0 x1 (y0 + (i : Int)) color) s) ∧
      WellFormed ((List.range n).foldl
        (fun (d : PixelDisplay) (i : Nat) => SetPixelRun d x0 x1 (y0 + (i : Int)) color) s) ∧
      ∀ xp yp : Int, inBounds s xp yp →
        pixelAt ((List.range n).foldl
          (fun (d : PixelDisplay) (i : Nat) => SetPixelRun d x0 x1 (y0 + (i : Int)) color) s)
          xp yp =
        if (y0 ≤ yp ∧ yp < y0 + (n : Int)) ∧ x0 ≤ xp ∧ xp < x1 then some color
        else pixelAt s xp yp := by
  induction n with
  | zero =>
    refine ⟨SameGeom.refl s, hw, ?_⟩
    intro xp yp _
    rw [if_neg (by omega)]
    rfl
  | succ n ih =>
    obtain ⟨g, w, r⟩ := ih (by omega)
    rw [List.range_succ, List.foldl_append]
    simp only [List.foldl_cons, List.foldl_nil]
    obtain ⟨a, b, c⟩ := SetPixelRun_spec _ x0 x1 (y0 + (n : Int)) color w (by omega)
      (by rw [g.2.1]; omega) hx0 (by rw [g.1]; exact hx1)
    refine ⟨g.trans a, b, ?_⟩
    intro xp yp hb
    rw [c xp yp ((inBounds_of_geom g xp yp).mpr hb), r xp yp hb]
    by_cases e : (y0 ≤ yp ∧ yp < y0 + ((n + 1 : Nat) : Int)) ∧ x0 ≤ xp ∧ xp < x1
    · rw [if_pos e]
      by_cases f : yp = y0 + (n : Int)
      · rw [if_pos (by omega)]
      · rw [if_neg (by omega), if_pos (by omega)]
    · rw [if_neg e, if_neg (by omega), if_neg (by omega)]

theorem FillRectRows_spec (s : PixelDisplay) (x0 x1 y0 y1 : Int) (color : Color)
    (hw : WellFormed s) (hx0 : 0 ≤ x0) (hx1 : x1 ≤ s.totalWidth) (hy0 : 0 ≤ y0)
    (hy1 : y1 ≤ s.totalHeight) :
    SameGeom s (FillRectRows s x0 x1 y0 y1 color) ∧
      WellFormed (FillRectRows s x0 x1 y0 y1 color) ∧
      ∀ xp yp : Int, inBounds s xp yp →
        pixelAt (FillRectRows s x0 x1 y0 y1 color) xp yp =
          if (y0 ≤ yp ∧ yp < y1) ∧ x0 ≤ xp ∧ xp < x1 then some color else pixelAt s xp yp := by
  by_cases hle : y0 ≤ y1
  · obtain ⟨g, w, r⟩ := FillRectRows_fold s x0 x1 y0 color hw hx0 hx1 hy0 (y1 - y0).toNat
      (by omega)
    refine ⟨g, w, ?_⟩
    intro xp yp hb
    unfold FillRectRows
    rw [r xp yp hb]
    by_cases e : (y0 ≤ yp ∧ yp < y1) ∧ x0 ≤ xp ∧ xp < x1
    · rw [if_pos e, if_pos (by omega)]
    · rw [if_neg e, if_neg (by omega)]
  · have e : FillRectRows s x0 x1 y0 y1 color = s := by
      unfold FillRectRows
      rw [show (y1 - y0).toNat = 0 by omega]
      rfl
    rw [e]
    refine ⟨SameGeom.refl s, hw, ?_⟩
    intro xp yp _
    rw [if_neg (by omega)]

/-- The state in which `FillRect` starts its row loop: after the bulk phase when
`TileRangeWithin` succeeds, the given state otherwise. -/
theorem FillRect_eq (s : PixelDisplay) (left bottom width height : Int) (color : Color) :
    FillRect s left bottom width height color =
      FillRectRows
        (if (TileRangeWithin s ⟨left, bottom, width, height⟩).ok then
          FillRectBulk s (TileRangeWithin s ⟨left, bottom, width, height⟩).tileCol0
            (TileRangeWithin s ⟨left, bottom, width, height⟩).tileCol1
            (TileRangeWithin s ⟨left, bottom, width, height⟩).tileRow0
            (TileRangeWithin s ⟨left, bottom, width, height⟩).tileRow1 color
        else s)
        (if left < 0 then 0 else if left ≥ s.totalWidth then s.totalWidth else left)
        (if left + width < 0 then 0
          else if left + width ≥ s.totalWidth then s.totalWidth else left + width)
        (if bottom < 0 then 0 else if bottom ≥ s.totalHeight then s.totalHeight else bottom)
        (if bottom + height < 0 then 0
          else if bottom + height ≥ s.totalHeight then s.totalHeight else bottom + height)
        color := rfl

/-- After `FillRect`, every pixel of the surface inside the rectangle shows the
colour, and every other pixel shows what it did after the bulk phase. -/
theorem FillRect_pixelAt (s : PixelDisplay) (left bottom width height : Int) (color : Color)
    (hw : WellFormed s) (xp yp : Int) (hb : inBounds s xp yp) :
    pixelAt (FillRect s left bottom width height color) xp yp =
      if (bottom ≤ yp ∧ yp < bottom + height) ∧ left ≤ xp ∧ xp < left + width then some color
      else pixelAt
        (if (TileRangeWithin s ⟨left, bottom, width, height⟩).ok then
          FillRectBulk s (TileRangeWithin s ⟨left, bottom, width, height⟩).tileCol0
            (TileRangeWithin s ⟨left, bottom, width, height⟩).tileCol1
            (TileRangeWithin s ⟨left, bottom, width, height⟩).tileRow0
            (TileRangeWithin s ⟨left, bottom, width, height⟩).tileRow1 color
        else s) xp yp := by
  rw [FillRect_eq]
  generalize hs1 : (if (TileRangeWithin s ⟨left, bottom, width, height⟩).ok then
          FillRectBulk s (TileRangeWithin s ⟨left, bottom, width, height⟩).tileCol0
            (TileRangeWithin s ⟨left, bottom, width, height⟩).tileCol1
            (TileRangeWithin s ⟨left, bottom, width, height⟩).tileRow0
            (TileRangeWithin s ⟨left, bottom, width, height⟩).tileRow1 color
        else s) = s1
  have h1 : SameGeom s s1 ∧ WellFormed s1 := by
    rw [← hs1]
    split
    · exact FillRectBulk_wf s _ _ _ _ color hw
    · exact ⟨SameGeom.refl s, hw⟩
  obtain ⟨g, w⟩ := h1
  obtain ⟨hx0, hx1, hy0, hy1⟩ := hb
  have hb1 : inBounds s1 xp yp := (inBounds_of_geom g xp yp).mpr ⟨hx0, hx1, hy0, hy1⟩
  have hr := (FillRectRows_spec s1
    (if left < 0 then 0 else if left ≥ s.totalWidth then s.totalWidth else left)
    (if left + width < 0 then 0
      else if left + width ≥ s.totalWidth then s.totalWidth else left + width)
    (if bottom < 0 then 0 else if bottom ≥ s.totalHeight then s.totalHeight else bottom)
    (if bottom + height < 0 then 0
      else if bottom + height ≥ s.totalHeight then s.totalHeight else bottom + height)
    color w (by split_ifs <;> omega) (by rw [g.1]; split_ifs <;> omega)
    (by split_ifs <;> omega) (by rw [g.2.1]; split_ifs <;> omega)).2.2 xp yp hb1
  rw [hr]
  by_cases e : (bottom ≤ yp ∧ yp < bottom + height) ∧ left ≤ xp ∧ xp < left + width
  · rw [if_pos e, if_pos (by split_ifs <;> omega)]
  · rw [if_neg e, if_neg (by split_ifs <;> omega)]

/-! ### Rectangles without area -/

theorem tdiv_nonpos_of_nonpos {a b : Int} (ha : a ≤ 0) (hb : 0 ≤ b) : a.tdiv b ≤ 0 := by
  have := Int.tdiv_nonneg (show 0 ≤ -a by omega) hb
  rw [Int.neg_tdiv] at this
  omega

/-- The two tile bounds that `TileRangeWithin` computes along one axis, for an
extent `w ≤ 0` and tiles wider than one pixel: the upper bound is negative, or
it is below the (non-negative) lower bound. -/
theorem empty_extent (x w t : Int) (ht : 1 < t) (hw : w ≤ 0) :
    (x + w + 1).tdiv t - 1 < 0 ∨
      (0 ≤ ceilDiv x t ∧ (x + w + 1).tdiv t - 1 < ceilDiv x t) := by
  by_cases h : x + w + 1 < t
  · left
    by_cases h0 : x + w + 1 ≤ 0
    · have := tdiv_nonpos_of_nonpos h0 (show 0 ≤ t by omega)
      omega
    · rw [tdiv_of_nonneg (by omega) (by omega), Int.ediv_eq_zero_of_lt (by omega) h]
      omega
  · right
    have hx : 1 ≤ x := by omega
    unfold ceilDiv
    rw [if_neg (by omega), tdiv_of_nonneg (by omega) (by omega),
      tdiv_of_nonneg (by omega) (by omega)]
    have h1 : (x + w + 1) / t ≤ (x - 1 + 1 * t) / t :=
      Int.ediv_le_ediv (by omega) (by omega)
    rw [Int.add_mul_ediv_right _ _ (by omega)] at h1
    have h2 : 0 ≤ (x - 1) / t := Int.ediv_nonneg (by omega) (by omega)
    omega


/-- What a successful `TileRangeWithin` says about the bounds it computed along
each axis, before clamping to the grid: the upper bound is not negative, and the
lower bound, raised to 0 when negative, does not exceed it. -/
theorem TileRangeWithin_ok (s : PixelDisplay) (rect : SDL_Rect)
    (h : (TileRangeWithin s rect).ok = true) :
    (¬ (rect.x + rect.w + 1).tdiv s.tileWidth - 1 < 0 ∧
      (if ceilDiv rect.x s.tileWidth < 0 then 0 else ceilDiv rect.x s.tileWidth) ≤
        (rect.x + rect.w + 1).tdiv s.tileWidth - 1) ∧
    (¬ (rect.y + rect.h + 1).tdiv s.tileHeight - 1 < 0 ∧
      (if ceilDiv rect.y s.tileHeight < 0 then 0 else ceilDiv rect.y s.tileHeight) ≤
        (rect.y + rect.h + 1).tdiv s.tileHeight - 1) := by
  unfold TileRangeWithin at h
  simp only at h
  generalize ceilDiv rect.x s.tileWidth = c0 at h ⊢
  generalize (rect.x + rect.w + 1).tdiv s.tileWidth - 1 = c1 at h ⊢
  generalize ceilDiv rect.y s.tileHeight = r0 at h ⊢
  generalize (rect.y + rect.h + 1).tdiv s.tileHeight - 1 = r1 at h ⊢
  generalize s.tileCols - 1 = mc at h
  generalize s.tileRows - 1 = mr at h
  split_ifs at h ⊢ <;> first | contradiction | (simp at h; omega)

/-- No tile is reported by `TileRangeWithin` for a rectangle of width or height `≤ 0`,
when tiles are more than one pixel wide and high. -/
theorem TileRangeWithin_empty (s : PixelDisplay) (rect : SDL_Rect)
    (htw : 1 < s.tileWidth) (hth : 1 < s.tileHeight) (h : rect.w ≤ 0 ∨ rect.h ≤ 0) :
    (TileRangeWithin s rect).ok = false := by
  cases hok : (TileRangeWithin s rect).ok with
  | false => rfl
  | true =>
    exfalso
    obtain ⟨⟨a1, a2⟩, ⟨b1, b2⟩⟩ := TileRangeWithin_ok s rect hok
    rcases h with h | h
    · rcases empty_extent rect.x rect.w s.tileWidth htw h with e | ⟨e0, e1⟩
      · exact a1 e
      · rw [if_neg (by omega)] at a2; omega
    · rcases empty_extent rect.y rect.h s.tileHeight hth h with e | ⟨e0, e1⟩
      · exact b1 e
      · rw [if_neg (by omega)] at b2; omega

/-- A call of `SetPixelRun` over an empty run does nothing. -/
theorem SetPixelRun_empty (s : PixelDisplay) (x0 x1 y : Int) (color : Color) (h : x1 ≤ x0) :
    SetPixelRun s x0 x1 y color = s := by
  unfold SetPixelRun
  rw [show (x1 - x0).toNat = 0 by omega]
  rfl

/-- The row loop of `FillRect` over no rows, or over empty runs, does nothing. -/
theorem FillRectRows_empty (s : PixelDisplay) (x0 x1 y0 y1 : Int) (color : Color)
    (h : x1 ≤ x0 ∨ y1 ≤ y0) : FillRectRows s x0 x1 y0 y1 color = s := by
  unfold FillRectRows
  rcases h with h | h
  · exact foldl_fixed _ _ _ (fun d i => SetPixelRun_empty d x0 x1 _ color h)
  · rw [show (y1 - y0).toNat = 0 by omega]
    rfl

/-! ### Tiles stay Materialized while pixels are written -/

theorem EnsureTextureInUse_inUse_mono (s : PixelDisplay) (t t1 : Int)
    (h : s.textureInUse t1 = true) : (EnsureTextureInUse s t).textureInUse t1 = true := by
  unfold EnsureTextureInUse
  split
  · exact h
  · show Function.update s.textureInUse t true t1 = true
    by_cases e : t1 = t
    · subst e; simp
    · rw [Function.update_noteq e]; exact h

theorem EnsureTextureInUseUnless_inUse_mono (s : PixelDisplay) (t t1 : Int) (c : Color)
    (h : s.textureInUse t1 = true) :
    (EnsureTextureInUseUnless s t c).2.textureInUse t1 = true := by
  unfold EnsureTextureInUseUnless
  split_ifs
  · exact h
  · exact h
  · exact EnsureTextureInUse_inUse_mono s t t1 h

theorem SetPixelRunBody_inUse_mono (s : PixelDisplay) (x1 row localY : Int) (color : Color)
    (x col t1 : Int) (h : s.textureInUse t1 = true) :
    (SetPixelRunBody s x1 row localY color x col).textureInUse t1 = true := by
  have hr := EnsureTextureInUseUnless_inUse_mono s (row * s.tileCols + col) t1 color h
  unfold SetPixelRunBody
  simp only
  split
  · split
    · exact hr
    · exact hr
  · exact hr

theorem SetPixelRunLoop_inUse_mono (x1 row localY : Int) (color : Color) (t1 : Int)
    (fuel : Nat) : ∀ (x col : Int) (s : PixelDisplay), s.textureInUse t1 = true →
      (SetPixelRunLoop x1 row localY color fuel x col s).textureInUse t1 = true := by
  induction fuel with
  | zero => intro x col s h; exact h
  | succ fuel ih =>
    intro x col s h
    unfold SetPixelRunLoop
    split
    · exact ih _ _ _ (SetPixelRunBody_inUse_mono s x1 row localY color x col t1 h)
    · exact h

theorem SetPixelRun_inUse_mono (s : PixelDisplay) (x0 x1 y : Int) (color : Color) (t1 : Int)
    (h : s.textureInUse t1 = true) : (SetPixelRun s x0 x1 y color).textureInUse t1 = true :=
  SetPixelRunLoop_inUse_mono _ _ _ _ _ _ _ _ _ h

theorem FillRectRows_inUse_mono (s : PixelDisplay) (x0 x1 y0 y1 : Int) (color : Color)
    (t1 : Int) (h : s.textureInUse t1 = true) :
    (FillRectRows s x0 x1 y0 y1 color).textureInUse t1 = true := by
  unfold FillRectRows
  exact foldl_invariant (fun d => d.textureInUse t1 = true) _ _ _
    (fun d i hd => SetPixelRun_inUse_mono d x0 x1 _ color t1 hd) h

theorem FillRectRows_first (s : PixelDisplay) (x0 x1 y0 y1 : Int) (color : Color)
    (h : y0 < y1) :
    FillRectRows s x0 x1 y0 y1 color =
      FillRectRows (SetPixelRun s x0 x1 y0 color) x0 x1 (y0 + 1) y1 color := by
  unfold FillRectRows
  obtain ⟨n, hn⟩ : ∃ n : Nat, (y1 - y0).toNat = n + 1 := ⟨(y1 - y0).toNat - 1, by omega⟩
  rw [hn, show (y1 - (y0 + 1)).toNat = n by omega, List.range_succ_eq_map, List.foldl_cons,
    List.foldl_map]
  simp only [Nat.succ_eq_add_one, Nat.cast_add, Nat.cast_one, Nat.cast_zero, add_zero]
  congr 1
  funext d i
  rw [show y0 + ((i : Int) + 1) = y0 + 1 + (i : Int) by omega]

/-! ## `DrawLine` -/

theorem drawPixels_spec (color : Color) (pts : List (Int × Int)) :
    ∀ s : PixelDisplay, WellFormed s →
      SameGeom s (drawPixels s pts color) ∧ WellFormed (drawPixels s pts color) ∧
      ∀ xp yp : Int, inBounds s xp yp →
        pixelAt (drawPixels s pts color) xp yp =
          if (xp, yp) ∈ pts then some color else pixelAt s xp yp := by
  induction pts with
  | nil =>
    intro s hw
    exact ⟨SameGeom.refl s, hw, fun xp yp _ => by simp [drawPixels]⟩
  | cons p pts ih =>
    intro s hw
    have g := SetPixel_geom s p.1 p.2 color hw
    obtain ⟨a, b, c⟩ := ih (SetPixel s p.1 p.2 color) (SetPixel_wf s p.1 p.2 color hw)
    have e : drawPixels s (p :: pts) color = drawPixels (SetPixel s p.1 p.2 color) pts color := rfl
    rw [e]
    refine ⟨g.trans a, b, ?_⟩
    intro xp yp hb
    rw [c xp yp ((inBounds_of_geom g xp yp).mpr hb), SetPixel_pixelAt s p.1 p.2 color hw xp yp hb]
    by_cases h1 : (xp, yp) ∈ pts
    · rw [if_pos h1, if_pos (List.mem_cons_of_mem _ h1)]
    · rw [if_neg h1]
      by_cases h2 : xp = p.1 ∧ yp = p.2
      · rw [if_pos h2, if_pos]
        rw [h2.1, h2.2]
        exact List.mem_cons_self _ _
      · rw [if_neg h2, if_neg]
        intro h
        rcases List.mem_cons.mp h with h | h
        · apply h2
          rw [← h]
          exact ⟨rfl, rfl⟩
        · exact h1 h

/-- The loop of `DrawLine` is its sequence of `SetPixel` calls. -/
theorem DrawLineLoop_eq (steep : Bool) (absDy dx ystep : Int) (color : Color) (n : Nat) :
    ∀ (v : Int × Int × Int) (s : PixelDisplay),
      DrawLineLoop steep absDy dx ystep color n v s =
        drawPixels s (DrawLineLoopCalls steep absDy dx ystep n v) color := by
  induction n with
  | zero => intro v s; rfl
  | succ n ih =>
    intro v s
    unfold DrawLineLoop DrawLineLoopCalls
    rw [ih]
    cases steep <;> rfl

/-- Running `DrawLine` is calling `SetPixel` on each point of `DrawLineCalls`, in order. -/
theorem DrawLine_eq (s : PixelDisplay) (x1 y1 x2 y2 : Int) (color : Color) :
    DrawLine s x1 y1 x2 y2 color = drawPixels s (DrawLineCalls x1 y1 x2 y2) color := by
  unfold DrawLine DrawLineCalls
  exact DrawLineLoop_eq _ _ _ _ _ _ _ _

theorem DrawLineLoopCalls_length (steep : Bool) (absDy dx ystep : Int) (n : Nat) :
    ∀ v : Int × Int × Int, (DrawLineLoopCalls steep absDy dx ystep n v).length = n := by
  induction n with
  | zero => intro v; rfl
  | succ n ih => intro v; unfold DrawLineLoopCalls; rw [List.length_cons, ih]

theorem DrawLineStep_fst (absDy dx ystep : Int) (v : Int × Int × Int) :
    (DrawLineStep absDy dx ystep v).1 = v.1 + 1 := by
  unfold DrawLineStep
  simp only
  split <;> rfl

theorem DrawLineStep_snd (absDy dx ystep : Int) (v : Int × Int × Int) :
    (DrawLineStep absDy dx ystep v).2.1 = v.2.1 ∨
      (DrawLineStep absDy dx ystep v).2.1 = v.2.1 + ystep := by
  unfold DrawLineStep
  simp only
  split
  · right; rfl
  · left; rfl

/-- The `k`-th call of the loop has major coordinate `x + k`. -/
theorem DrawLineLoopCalls_major (steep : Bool) (absDy dx ystep : Int) (n : Nat) :
    ∀ (v : Int × Int × Int) (k : Nat) (p : Int × Int),
      (DrawLineLoopCalls steep absDy dx ystep n v)[k]? = some p →
      (if steep then p.2 else p.1) = v.1 + (k : Int) := by
  induction n with
  | zero => intro v k p h; simp [DrawLineLoopCalls] at h
  | succ n ih =>
    intro v k p h
    unfold DrawLineLoopCalls at h
    cases k with
    | zero =>
      simp only [List.getElem?_cons_zero, Option.some.injEq] at h
      rw [← h]
      cases steep <;> simp
    | succ k =>
      rw [List.getElem?_cons_succ] at h
      rw [ih _ k p h, DrawLineStep_fst]
      push_cast
      omega

/-- Two consecutive calls of the loop have minor coordinates that are equal or
differ by `ystep`. -/
theorem DrawLineLoopCalls_minor (steep : Bool) (absDy dx ystep : Int) (n : Nat) :
    ∀ (v : Int × Int × Int) (k : Nat) (p q : Int × Int),
      (DrawLineLoopCalls steep absDy dx ystep n v)[k]? = some p →
      (DrawLineLoopCalls steep absDy dx ystep n v)[k + 1]? = some q →
      (if steep then q.1 else q.2) = (if steep then p.1 else p.2) ∨
        (if steep then q.1 else q.2) = (if steep then p.1 else p.2) + ystep := by
  induction n with
  | zero => intro v k p q h; simp [DrawLineLoopCalls] at h
  | succ n ih =>
    intro v k p q hp hq
    unfold DrawLineLoopCalls at hp hq
    rw [List.getElem?_cons_succ] at hq
    cases k with
    | zero =>
      simp only [List.getElem?_cons_zero, Option.some.injEq] at hp
      cases n with
      | zero => simp [DrawLineLoopCalls] at hq
      | succ n =>
        unfold DrawLineLoopCalls at hq
        simp only [List.getElem?_cons_zero, Option.some.injEq] at hq
        rw [← hp, ← hq]
        have := DrawLineStep_snd absDy dx ystep v
        cases steep <;> simpa using this
    | succ k =>
      rw [List.getElem?_cons_succ] at hp
      exact ih _ k p q hp hq

/-- What `DrawLine` has set up when it enters its loop: whether the line is
steep, the start of the major axis, its length, and the step of the minor axis. -/
theorem DrawLineSetup_facts (x1 y1 x2 y2 : Int) :
    ((DrawLineSetup x1 y1 x2 y2).steep = true ↔ (y2 - y1).natAbs > (x2 - x1).natAbs) ∧
    (DrawLineSetup x1 y1 x2 y2).x1 =
      (if (y2 - y1).natAbs > (x2 - x1).natAbs then min y1 y2 else min x1 x2) ∧
    (DrawLineSetup x1 y1 x2 y2).x2 - (DrawLineSetup x1 y1 x2 y2).x1 =
      ((max (x2 - x1).natAbs (y2 - y1).natAbs : Nat) : Int) ∧
    ((DrawLineSetup x1 y1 x2 y2).ystep = 1 ∨ (DrawLineSetup x1 y1 x2 y2).ystep = -1) := by
  have hs : (DrawLineSetup x1 y1 x2 y2).steep = true ↔ (y2 - y1).natAbs > (x2 - x1).natAbs := by
    simp only [DrawLineSetup, decide_eq_true_eq]
    split_ifs <;> omega
  refine ⟨hs, ?_, ?_, ?_⟩
  · by_cases h : (y2 - y1).natAbs > (x2 - x1).natAbs
    · have h1 : (DrawLineSetup x1 y1 x2 y2).steep = true := hs.mpr h
      unfold DrawLineSetup at h1 ⊢
      simp only at h1 ⊢
      rw [h1, if_pos h]
      simp only [Swap, if_true]
      split_ifs <;> dsimp only <;> omega
    · have h1 : (DrawLineSetup x1 y1 x2 y2).steep = false := by
        cases e : (DrawLineSetup x1 y1 x2 y2).steep with
        | false => rfl
        | true => exact absurd (hs.mp e) h
      unfold DrawLineSetup at h1 ⊢
      simp only at h1 ⊢
      rw [h1, if_neg h]
      simp only [Bool.false_eq_true, if_false]
      split_ifs <;> dsimp only <;> omega
  · by_cases h : (y2 - y1).natAbs > (x2 - x1).natAbs
    · have h1 : (DrawLineSetup x1 y1 x2 y2).steep = true := hs.mpr h
      unfold DrawLineSetup at h1 ⊢
      simp only at h1 ⊢
      rw [h1]
      simp only [Swap, if_true]
      split_ifs <;> dsimp only <;> omega
    · have h1 : (DrawLineSetup x1 y1 x2 y2).steep = false := by
        cases e : (DrawLineSetup x1 y1 x2 y2).steep with
        | false => rfl
        | true => exact absurd (hs.mp e) h
      unfold DrawLineSetup at h1 ⊢
      simp only at h1 ⊢
      rw [h1]
      simp only [Bool.false_eq_true, if_false]
      split_ifs <;> dsimp only <;> omega
  · simp only [DrawLineSetup]
    split_ifs <;> simp

/-- The calls of the loop when the minor delta is 0: the error never goes
negative and the minor coordinate stays. -/
theorem DrawLineLoopCalls_flat (dx ystep : Int) (m : Nat) :
    ∀ (x y e : Int), 0 ≤ e →
      DrawLineLoopCalls false 0 dx ystep m (x, y, e) =
        (List.range m).map (fun (i : Nat) => (x + (i : Int), y)) := by
  induction m with
  | zero => intro x y e _; rfl
  | succ m ih =>
    intro x y e he
    have hs : DrawLineStep 0 dx ystep (x, y, e) = (x + 1, y, e - 0) := by
      unfold DrawLineStep
      simp only
      rw [if_neg (by omega)]
    unfold DrawLineLoopCalls
    rw [hs, ih (x + 1) y (e - 0) (by omega), List.range_succ_eq_map, List.map_cons, List.map_map]
    simp only [Bool.false_eq_true, if_false, Nat.cast_zero, add_zero]
    congr 1
    apply List.map_congr_left
    intro i _
    simp only [Function.comp, Nat.succ_eq_add_one, Nat.cast_add, Nat.cast_one]
    rw [show x + 1 + (i : Int) = x + ((i : Int) + 1) by omega]

/-- The calls of the loop when the minor delta equals the major delta: the
error goes negative in every pass and the minor coordinate steps every time. -/
theorem DrawLineLoopCalls_diag (dx ystep : Int) (hdx : 0 < dx) (m : Nat) :
    ∀ (x y : Int),
      DrawLineLoopCalls false dx dx ystep m (x, y, dx.tdiv 2) =
        (List.range m).map (fun (i : Nat) => (x + (i : Int), y + (i : Int) * ystep)) := by
  induction m with
  | zero => intro x y; rfl
  | succ m ih =>
    intro x y
    have h2 : dx.tdiv 2 = dx / 2 := tdiv_of_nonneg hdx.le (by decide)
    have hs : DrawLineStep dx dx ystep (x, y, dx.tdiv 2) = (x + 1, y + ystep, dx.tdiv 2) := by
      unfold DrawLineStep
      simp only
      rw [if_pos (by rw [h2]; omega)]
      rw [show dx.tdiv 2 - dx + dx = dx.tdiv 2 by omega]
    unfold DrawLineLoopCalls
    rw [hs, ih (x + 1) (y + ystep), List.range_succ_eq_map, List.map_cons, List.map_map]
    simp only [Bool.false_eq_true, if_false, Nat.cast_zero, add_zero, zero_mul]
    congr 1
    apply List.map_congr_left
    intro i _
    simp only [Function.comp, Nat.succ_eq_add_one, Nat.cast_add, Nat.cast_one]
    rw [show x + 1 + (i : Int) = x + ((i : Int) + 1) by omega, Int.add_mul, Int.one_mul]
    rw [show y + ystep + (i : Int) * ystep = y + ((i : Int) * ystep + ystep) by omega]

/-- The `SetPixel` calls of a horizontal line: the points of row `y` from the
smaller to the larger of the two end columns. -/
theorem DrawLineCalls_horizontal (x1 x2 y : Int) :
    DrawLineCalls x1 y x2 y =
      (List.range ((max x1 x2 - min x1 x2).toNat + 1)).map
        (fun (i : Nat) => (min x1 x2 + (i : Int), y)) := by
  unfold DrawLineCalls DrawLineSetup
  simp only [Swap]
  have hst : decide ((if y - y < 0 then -(y - y) else y - y) >
      if x2 - x1 < 0 then -(x2 - x1) else x2 - x1) = false := by
    rw [decide_eq_false_iff_not]; split_ifs <;> omega
  have hy : (if y - y < 0 then -(y - y) else y - y) = 0 := by split <;> omega
  simp only [hst, Bool.false_eq_true, if_false]
  by_cases h : x1 > x2
  · simp only [if_pos h, hy]
    rw [DrawLineLoopCalls_flat (x1 - x2) _ _ x2 y _ (Int.tdiv_nonneg (by omega) (by decide))]
    rw [show (x1 - x2 + 1).toNat = (max x1 x2 - min x1 x2).toNat + 1 by omega,
      show min x1 x2 = x2 by omega]
  · simp only [if_neg h, hy]
    rw [DrawLineLoopCalls_flat (x2 - x1) _ _ x1 y _ (Int.tdiv_nonneg (by omega) (by decide))]
    rw [show (x2 - x1 + 1).toNat = (max x1 x2 - min x1 x2).toNat + 1 by omega,
      show min x1 x2 = x1 by omega]

theorem mem_DrawLineCalls_horizontal (x1 x2 y xp yp : Int) :
    (xp, yp) ∈ DrawLineCalls x1 y x2 y ↔ (yp = y ∧ min x1 x2 ≤ xp ∧ xp ≤ max x1 x2) := by
  rw [DrawLineCalls_horizontal]
  simp only [List.mem_map, List.mem_range, Prod.mk.injEq]
  constructor
  · rintro ⟨i, hi, h1, h2⟩
    omega
  · rintro ⟨h1, h2, h3⟩
    exact ⟨(xp - min x1 x2).toNat, by omega, by omega, h1.symm⟩

theorem reverse_range_succ (n : Nat) :
    (List.range (n + 1)).reverse = (List.range (n + 1)).map (fun (i : Nat) => n - i) := by
  rw [List.range_eq_range', List.reverse_range', ← List.range_eq_range']
  apply List.map_congr_left
  intro i _
  omega

/-- The `SetPixel` calls of a line whose two deltas have the same absolute
value `n`: the `n + 1` points of the diagonal, from `(x1, y1)` when `x1 ≤ x2`
and from `(x2, y2)` otherwise. -/
theorem DrawLineCalls_diagonal (x1 y1 x2 y2 : Int) (n : Nat)
    (hx : (x2 - x1).natAbs = n) (hy : (y2 - y1).natAbs = n) :
    DrawLineCalls x1 y1 x2 y2 =
      if x1 ≤ x2 then
        (List.range (n + 1)).map
          (fun (i : Nat) => (x1 + (i : Int) * (x2 - x1).sign, y1 + (i : Int) * (y2 - y1).sign))
      else
        ((List.range (n + 1)).map
          (fun (i : Nat) =>
            (x1 + (i : Int) * (x2 - x1).sign, y1 + (i : Int) * (y2 - y1).sign))).reverse := by
  rcases Nat.eq_zero_or_pos n with h0 | hpos
  · subst h0
    have e1 : x2 = x1 := by omega
    have e2 : y2 = y1 := by omega
    subst e1 e2
    rw [DrawLineCalls_horizontal, if_pos (le_refl _)]
    simp [List.range_succ]
  · unfold DrawLineCalls DrawLineSetup
    simp only [Swap]
    have hst : decide ((if y2 - y1 < 0 then -(y2 - y1) else y2 - y1) >
        if x2 - x1 < 0 then -(x2 - x1) else x2 - x1) = false := by
      rw [decide_eq_false_iff_not]; split_ifs <;> omega
    simp only [hst, Bool.false_eq_true, if_false]
    by_cases h : x1 > x2
    · simp only [if_pos h]
      rw [if_neg (show ¬ x1 ≤ x2 by omega)]
      have habs : (if y1 - y2 < 0 then -(y1 - y2) else y1 - y2) = x1 - x2 := by
        split <;> omega
      rw [habs, DrawLineLoopCalls_diag (x1 - x2) _ (by omega) _ x2 y2,
        show (x1 - x2 + 1).toNat = n + 1 by omega, ← List.map_reverse, reverse_range_succ,
        List.map_map]
      apply List.map_congr_left
      intro i hi
      rw [List.mem_range] at hi
      have hsx : (x2 - x1).sign = -1 := Int.sign_eq_neg_one_of_neg (by omega)
      simp only [Function.comp, hsx]
      have hc : ((n - i : Nat) : Int) = (n : Int) - (i : Int) := by omega
      rw [hc]
      by_cases hyy : y2 < y1
      · rw [if_pos hyy, Int.sign_eq_neg_one_of_neg (show y2 - y1 < 0 by omega)]
        refine Prod.ext ?_ ?_ <;> simp only <;> omega
      · rw [if_neg hyy, Int.sign_eq_one_of_pos (show 0 < y2 - y1 by omega)]
        refine Prod.ext ?_ ?_ <;> simp only <;> omega
    · simp only [if_neg h]
      rw [if_pos (show x1 ≤ x2 by omega)]
      have habs : (if y2 - y1 < 0 then -(y2 - y1) else y2 - y1) = x2 - x1 := by
        split <;> omega
      rw [habs, DrawLineLoopCalls_diag (x2 - x1) _ (by omega) _ x1 y1,
        show (x2 - x1 + 1).toNat = n + 1 by omega]
      apply List.map_congr_left
      intro i _
      have hsx : (x2 - x1).sign = 1 := Int.sign_eq_one_of_pos (by omega)
      rw [hsx]
      by_cases hyy : y1 < y2
      · rw [if_pos hyy, Int.sign_eq_one_of_pos (show 0 < y2 - y1 by omega), Int.mul_one]
      · rw [if_neg hyy, Int.sign_eq_neg_one_of_neg (show y2 - y1 < 0 by omega), Int.mul_one]

/-! ## The tile range of `TileRangeWithin` at the edges of a rectangle, for any tile size -/

theorem ceilDiv_pos_of_pos {W w : Int} (hw : 0 < w) (hW : 0 < W) : 1 ≤ ceilDiv W w := by
  unfold ceilDiv
  rw [if_neg (by omega), tdiv_of_nonneg (by omega) hw]
  have := Int.ediv_nonneg (show 0 ≤ W - 1 by omega) hw.le
  omega

/-- A rectangle that starts at the origin and stops one pixel column short of
the right edge of tile `(0, 0)`: `TileRangeWithin` reports that tile as lying
within the rectangle. -/
theorem TileRangeWithin_short_by_one (s : PixelDisplay) (hw : WellFormed s)
    (htw : 2 ≤ s.tileWidth) (hth : 2 ≤ s.tileHeight) (hW : 0 < s.totalWidth)
    (hH : 0 < s.totalHeight) :
    TileRangeWithin s ⟨0, 0, s.tileWidth - 1, s.tileHeight⟩ =
      { ok := true, tileCol0 := 0, tileCol1 := 0, tileRow0 := 0, tileRow1 := 0 } := by
  have hC : 1 ≤ s.tileCols := by rw [hw.cols_eq]; exact ceilDiv_pos_of_pos (by omega) hW
  have hR : 1 ≤ s.tileRows := by rw [hw.rows_eq]; exact ceilDiv_pos_of_pos (by omega) hH
  have h0 : ∀ t : Int, ceilDiv 0 t = 0 := fun t => by unfold ceilDiv; rw [if_pos rfl]
  have hc1 : (0 + (s.tileWidth - 1) + 1).tdiv s.tileWidth - 1 = 0 := by
    rw [tdiv_of_nonneg (by omega) (by omega),
      ediv_eq_of_bounds (q := 1) (by omega) (by omega) (by omega)]
    rfl
  have hr1 : (0 + s.tileHeight + 1).tdiv s.tileHeight - 1 = 0 := by
    rw [tdiv_of_nonneg (by omega) (by omega),
      ediv_eq_of_bounds (q := 1) (by omega) (by omega) (by omega)]
    rfl
  unfold TileRangeWithin
  simp only [h0, hc1, hr1, lt_irrefl, if_false]
  rw [if_neg (show ¬ (0 : Int) > s.tileCols - 1 by omega),
    if_neg (show ¬ (0 : Int) > s.tileRows - 1 by omega)]
  simp only [if_true, decide_eq_true_eq, TileRange.mk.injEq, true_and, and_true]
  refine ⟨⟨?_, ?_⟩, ?_, ?_⟩ <;> split_ifs <;> omega

/-- The bulk phase over the single tile `(0, 0)`. -/
theorem FillRectBulk_single (s : PixelDisplay) (color : Color) :
    FillRectBulk s 0 0 0 0 color = setSolid s 0 color := by
  unfold FillRectBulk
  simp [List.range_succ]

/-- The over-fill of `FillRect`, for any tile size of at least 2 x 2: on a
rectangle that starts at the origin, is as high as a tile and one pixel
narrower, the pixel `(tileWidth - 1, 0)` is on the surface (when the surface is
at least one tile wide), lies outside the rectangle, and shows the fill colour
after the call, whatever it showed before. -/
theorem FillRect_overfill (s : PixelDisplay) (c : Color) (hw : WellFormed s)
    (htw : 2 ≤ s.tileWidth) (hth : 2 ≤ s.tileHeight) (hW : s.tileWidth ≤ s.totalWidth)
    (hH : 0 < s.totalHeight) :
    inBounds s (s.tileWidth - 1) 0 ∧
      ¬ ((0 : Int) ≤ s.tileWidth - 1 ∧ s.tileWidth - 1 < 0 + (s.tileWidth - 1)) ∧
      pixelAt (FillRect s 0 0 (s.tileWidth - 1) s.tileHeight c) (s.tileWidth - 1) 0 = some c := by
  have hb : inBounds s (s.tileWidth - 1) 0 := ⟨by omega, by omega, le_refl 0, hH⟩
  refine ⟨hb, by omega, ?_⟩
  rw [FillRect_pixelAt s 0 0 (s.tileWidth - 1) s.tileHeight c hw _ _ hb,
    if_neg (by omega), TileRangeWithin_short_by_one s hw htw hth (by omega) hH]
  simp only [if_true]
  rw [FillRectBulk_single]
  have e1 : (0 : Int).tdiv s.tileHeight = 0 := by
    rw [tdiv_of_nonneg (le_refl 0) (by omega)]; exact Int.zero_ediv _
  have e2 : (s.tileWidth - 1).tdiv s.tileWidth = 0 := by
    rw [tdiv_of_nonneg (by omega) (by omega)]
    exact Int.ediv_eq_zero_of_lt (by omega) (by omega)
  unfold pixelAt
  simp only [setSolid, e1, e2, Int.zero_mul, Int.add_zero, Function.update_same]
  rfl

/-- One pass of the loop of `SetPixelRun` over a tile whose colour is not the
colour drawn leaves that tile Materialized. -/
theorem SetPixelRunBody_materializes (s : PixelDisplay) (x1 row localY : Int) (color : Color)
    (x col : Int) (hc : s.tileColor (row * s.tileCols + col) ≠ color) :
    (SetPixelRunBody s x1 row localY color x col).textureInUse (row * s.tileCols + col) =
      true := by
  have hr : (EnsureTextureInUseUnless s (row * s.tileCols + col) color).2.textureInUse
      (row * s.tileCols + col) = true := by
    unfold EnsureTextureInUseUnless
    by_cases hin : s.textureInUse (row * s.tileCols + col) = true
    · rw [if_pos hin]; exact hin
    · rw [if_neg hin, if_neg hc]
      unfold EnsureTextureInUse
      rw [if_neg hin]
      show Function.update s.textureInUse _ true _ = true
      rw [Function.update_same]
  unfold SetPixelRunBody
  simp only
  split
  · split
    · exact hr
    · exact hr
  · exact hr

/-- The missed tile of `FillRect`, for any tile width of at least 3: the
rectangle `(-1, 0, tileWidth + 1, tileHeight)` covers tile `(0, 0)` entirely
(`-1 ≤ 0`, `tileWidth ≤ -1 + (tileWidth + 1)`), yet a tile `(0, 0)` whose colour
is not the fill colour ends Materialized. -/
theorem FillRect_negative_left (s : PixelDisplay) (c : Color) (hw : WellFormed s)
    (htw : 3 ≤ s.tileWidth) (hW : s.tileWidth ≤ s.totalWidth)
    (hH : s.tileHeight ≤ s.totalHeight) (hc : s.tileColor 0 ≠ c) :
    (FillRect s (-1) 0 (s.tileWidth + 1) s.tileHeight c).textureInUse 0 = true := by
  have hth := hw.tileHeight_pos
  have hok : (TileRangeWithin s ⟨-1, 0, s.tileWidth + 1, s.tileHeight⟩).ok = false := by
    cases h : (TileRangeWithin s ⟨-1, 0, s.tileWidth + 1, s.tileHeight⟩).ok with
    | false => rfl
    | true =>
      exfalso
      obtain ⟨⟨_, a2⟩, _⟩ := TileRangeWithin_ok s _ h
      have h1 : ceilDiv (-1) s.tileWidth = 1 := by
        unfold ceilDiv
        rw [if_neg (by decide)]
        have : ((-1 : Int) - 1).tdiv s.tileWidth = 0 := by
          rw [show ((-1 : Int) - 1) = -2 by decide, Int.neg_tdiv,
            tdiv_of_nonneg (by decide) (by omega), Int.ediv_eq_zero_of_lt (by decide) (by omega)]
          rfl
        rw [this]; rfl
      have h2 : (-1 + (s.tileWidth + 1) + 1).tdiv s.tileWidth - 1 = 0 := by
        rw [tdiv_of_nonneg (by omega) (by omega),
          ediv_eq_of_bounds (q := 1) (by omega) (by omega) (by omega)]
        rfl
      simp only [h1, h2] at a2
      rw [if_neg (by decide)] at a2
      omega
  rw [FillRect_eq, hok]
  simp only [Bool.false_eq_true, if_false]
  have hx0 : (if (-1 : Int) < 0 then 0
      else if (-1 : Int) ≥ s.totalWidth then s.totalWidth else -1) = 0 := by
    split_ifs <;> omega
  have hx1 : (if -1 + (s.tileWidth + 1) < 0 then 0
      else if -1 + (s.tileWidth + 1) ≥ s.totalWidth then s.totalWidth
      else -1 + (s.tileWidth + 1)) = s.tileWidth := by
    split_ifs <;> omega
  have hy0 : (if (0 : Int) < 0 then 0
      else if (0 : Int) ≥ s.totalHeight then s.totalHeight else 0) = 0 := by
    split_ifs <;> omega
  have hy1 : (if 0 + s.tileHeight < 0 then 0
      else if 0 + s.tileHeight ≥ s.totalHeight then s.totalHeight
      else 0 + s.tileHeight) = s.tileHeight := by
    split_ifs <;> omega
  rw [hx0, hx1, hy0, hy1, FillRectRows_first _ _ _ _ _ _ hth]
  apply FillRectRows_inUse_mono
  have e1 : (0 : Int).tdiv s.tileWidth = 0 := by
    rw [tdiv_of_nonneg (le_refl 0) (by omega)]; exact Int.zero_ediv _
  have e2 : (0 : Int).tdiv s.tileHeight = 0 := by
    rw [tdiv_of_nonneg (le_refl 0) (by omega)]; exact Int.zero_ediv _
  obtain ⟨n, hn⟩ : ∃ n : Nat, (s.tileWidth - 0).toNat = n + 1 :=
    ⟨(s.tileWidth - 0).toNat - 1, by omega⟩
  unfold SetPixelRun
  simp only [e1, e2, hn]
  unfold SetPixelRunLoop
  rw [if_pos (by omega)]
  apply SetPixelRunLoop_inUse_mono
  have h := SetPixelRunBody_materializes s s.tileWidth 0 (0 - 0 * s.tileHeight) c 0 0
    (by rw [Int.zero_mul, Int.zero_add]; exact hc)
  rw [Int.zero_mul s.tileCols, Int.zero_add] at h
  exact h

/-! ## The operations keep the display well formed -/

theorem DrawLine_wf (s : PixelDisplay) (x1 y1 x2 y2 : Int) (color : Color)
    (hw : WellFormed s) :
    SameGeom s (DrawLine s x1 y1 x2 y2 color) ∧ WellFormed (DrawLine s x1 y1 x2 y2 color) := by
  rw [DrawLine_eq]
  obtain ⟨g, w, _⟩ := drawPixels_spec color (DrawLineCalls x1 y1 x2 y2) s hw
  exact ⟨g, w⟩

theorem FillRect_wf (s : PixelDisplay) (left bottom width height : Int) (color : Color)
    (hw : WellFormed s) (hW : 0 ≤ s.totalWidth) (hH : 0 ≤ s.totalHeight) :
    SameGeom s (FillRect s left bottom width height color) ∧
      WellFormed (FillRect s left bottom width height color) := by
  rw [FillRect_eq]
  generalize hs1 : (if (TileRangeWithin s ⟨left, bottom, width, height⟩).ok then
          FillRectBulk s (TileRangeWithin s ⟨left, bottom, width, height⟩).tileCol0
            (TileRangeWithin s ⟨left, bottom, width, height⟩).tileCol1
            (TileRangeWithin s ⟨left, bottom, width, height⟩).tileRow0
            (TileRangeWithin s ⟨left, bottom, width, height⟩).tileRow1 color
        else s) = s1
  have h1 : SameGeom s s1 ∧ WellFormed s1 := by
    rw [← hs1]
    split
    · exact FillRectBulk_wf s _ _ _ _ color hw
    · exact ⟨SameGeom.refl s, hw⟩
  obtain ⟨g, w⟩ := h1
  obtain ⟨a, b, _⟩ := FillRectRows_spec s1
    (if left < 0 then 0 else if left ≥ s.totalWidth then s.totalWidth else left)
    (if left + width < 0 then 0
      else if left + width ≥ s.totalWidth then s.totalWidth else left + width)
    (if bottom < 0 then 0 else if bottom ≥ s.totalHeight then s.totalHeight else bottom)
    (if bottom + height < 0 then 0
      else if bottom + height ≥ s.totalHeight then s.totalHeight else bottom + height)
    color w (by split_ifs <;> omega) (by rw [g.1]; split_ifs <;> omega)
    (by split_ifs <;> omega) (by rw [g.2.1]; split_ifs <;> omega)
  exact ⟨g.trans a, b⟩

/-! ## `Render` -/

theorem RenderInv.init (s : PixelDisplay) (tex : Int → Int → Int → Color) :
    RenderInv s { disp := s, tex := tex, cmds := [], lockLog := [], i := 0 } :=
  ⟨SameGeom.refl s, rfl, rfl, rfl, fun _ h => (by simp at h), fun _ _ => rfl,
    fun _ _ h => (by simp at h)⟩

/-- A dirty flag that is set during a pass was set before the pass. -/
theorem RenderInv.dirty_before {s : PixelDisplay} {st : RenderState} (h : RenderInv s st)
    (t : Int) (hd : st.disp.tileNeedsUpdate t = true) : s.tileNeedsUpdate t = true := by
  by_cases hl : (t, true) ∈ st.lockLog
  · rw [h.synced t hl] at hd; cases hd
  · rw [← h.kept t hl]; exact hd

/-- One pass of the inner loop of `Render` keeps `RenderInv`. -/
theorem RenderTile_inv (s : PixelDisplay) (lock : Option Int) (destRect : SDL_Rect)
    (st : RenderState) (h : RenderInv s st) : RenderInv s (RenderTile lock destRect st) := by
  unfold RenderTile
  by_cases hin : st.disp.textureInUse st.i = true
  · rw [if_pos hin]
    by_cases hd : st.disp.tileNeedsUpdate st.i = true
    · rw [if_pos hd]
      have hs : s.textureInUse st.i = true ∧ s.tileNeedsUpdate st.i = true :=
        ⟨by rw [← h.inUse]; exact hin, h.dirty_before st.i hd⟩
      cases lock with
      | none =>
        refine ⟨h.geom, h.inUse, h.color, h.cache, ?_, ?_, ?_⟩
        · intro t ht
          have : (t, true) ∈ st.lockLog := by
            rcases List.mem_append.mp ht with h1 | h1
            · exact h1
            · simp at h1
          exact h.synced t this
        · intro t ht
          exact h.kept t (fun h1 => ht (List.mem_append.mpr (Or.inl h1)))
        · intro t ok ht
          rcases List.mem_append.mp ht with h1 | h1
          · exact h.tried t ok h1
          · simp only [List.mem_singleton, Prod.mk.injEq] at h1
            rw [h1.1]; exact hs
      | some pitch =>
        refine ⟨h.geom, h.inUse, h.color, h.cache, ?_, ?_, ?_⟩
        · intro t ht
          show Function.update st.disp.tileNeedsUpdate st.i false t = false
          by_cases e : t = st.i
          · rw [e, Function.update_same]
          · rw [Function.update_noteq e]
            have : (t, true) ∈ st.lockLog := by
              rcases List.mem_append.mp ht with h1 | h1
              · exact h1
              · simp only [List.mem_singleton, Prod.mk.injEq] at h1
                exact absurd h1.1 e
            exact h.synced t this
        · intro t ht
          show Function.update st.disp.tileNeedsUpdate st.i false t = s.tileNeedsUpdate t
          have e : t ≠ st.i := by
            intro e
            apply ht
            rw [e]
            exact List.mem_append.mpr (Or.inr (List.mem_singleton.mpr rfl))
          rw [Function.update_noteq e]
          exact h.kept t (fun h1 => ht (List.mem_append.mpr (Or.inl h1)))
        · intro t ok ht
          rcases List.mem_append.mp ht with h1 | h1
          · exact h.tried t ok h1
          · simp only [List.mem_singleton, Prod.mk.injEq] at h1
            rw [h1.1]; exact hs
    · rw [if_neg hd]
      exact ⟨h.geom, h.inUse, h.color, h.cache, h.synced, h.kept, h.tried⟩
  · rw [if_neg hin]
    split
    · exact ⟨h.geom, h.inUse, h.color, h.cache, h.synced, h.kept, h.tried⟩
    · exact ⟨h.geom, h.inUse, h.color, h.cache, h.synced, h.kept, h.tried⟩

theorem RenderRow_inv (s : PixelDisplay) (locks : Nat → Nat → Option Int) (row : Nat)
    (st : RenderState) (h : RenderInv s st) : RenderInv s (RenderRow s locks row st) := by
  unfold RenderRow
  exact foldl_invariant (RenderInv s) _ _ _ (fun d col hd => RenderTile_inv s _ _ d hd) h

/-- The invariant of the pass holds at its end. -/
theorem Render_inv (s : PixelDisplay) (tex : Int → Int → Int → Color)
    (locks : Nat → Nat → Option Int) : RenderInv s (Render s tex locks) := by
  unfold Render
  exact foldl_invariant (RenderInv s) _ _ _ (fun d row hd => RenderRow_inv s locks row d hd)
    (RenderInv.init s tex)

/-- One pass of the inner loop of `Render` on a Materialized, dirty tile whose
lock fails: the failed call is logged and nothing else changes; in particular
`i` stays, so the next pass of the loop deals with the same tile again, at the
next screen position. -/
theorem RenderTile_none (destRect : SDL_Rect) (st : RenderState)
    (hin : st.disp.textureInUse st.i = true) (hd : st.disp.tileNeedsUpdate st.i = true) :
    RenderTile none destRect st = { st with lockLog := st.lockLog ++ [(st.i, false)] } := by
  unfold RenderTile
  rw [if_pos hin, if_pos hd]

/-- One pass of the inner loop of `Render` in which the lock, if tried, succeeds:
`i` moves on, the tile gets its draw call, and a Materialized tile ends clean. -/
theorem RenderTile_some (pitch : Int) (destRect : SDL_Rect) (st : RenderState) :
    (RenderTile (some pitch) destRect st).i = st.i + 1 ∧
    (RenderTile (some pitch) destRect st).cmds = st.cmds ++
      (if st.disp.textureInUse st.i = true then [DrawCmd.renderCopy st.i destRect]
        else if (st.disp.tileColor st.i).a > 0 then
          [DrawCmd.renderFillRect (st.disp.tileColor st.i) destRect]
        else []) ∧
    (∀ t, (RenderTile (some pitch) destRect st).disp.tileNeedsUpdate t =
      if t = st.i ∧ st.disp.textureInUse st.i = true then false
      else st.disp.tileNeedsUpdate t) := by
  unfold RenderTile
  by_cases hin : st.disp.textureInUse st.i = true
  · rw [if_pos hin, if_pos hin]
    by_cases hd : st.disp.tileNeedsUpdate st.i = true
    · rw [if_pos hd]
      refine ⟨rfl, rfl, ?_⟩
      intro t
      show Function.update st.disp.tileNeedsUpdate st.i false t = _
      by_cases e : t = st.i
      · rw [if_pos ⟨e, hin⟩, e, Function.update_same]
      · rw [if_neg (fun h => e h.1), Function.update_noteq e]
    · rw [if_neg hd]
      refine ⟨rfl, rfl, ?_⟩
      intro t
      by_cases e : t = st.i
      · rw [if_pos ⟨e, hin⟩, e]
        simpa using hd
      · rw [if_neg (fun h => e h.1)]
  · rw [if_neg hin, if_neg hin]
    have hf : ∀ t, ¬ (t = st.i ∧ st.disp.textureInUse st.i = true) := fun t h => hin h.2
    by_cases ha : (st.disp.tileColor st.i).a > 0
    · rw [if_pos ha, if_pos ha]
      exact ⟨rfl, rfl, fun t => by rw [if_neg (hf t)]⟩
    · rw [if_neg ha, if_neg ha]
      exact ⟨rfl, by simp, fun t => by rw [if_neg (hf t)]⟩

/-- The first `n` passes of the inner loop of `Render` for tile row `row`, when
no lock fails in that row and the row is entered with `i = row * tileCols`:
`i` has moved on by `n`, the draw calls of the tiles `(row, 0 .. n - 1)` have
been made as the specification lists them, and of the dirty flags exactly those
of the Materialized tiles among them have been cleared. -/
theorem RenderRow_cols (s : PixelDisplay) (locks : Nat → Nat → Option Int) (row : Nat)
    (hok : ∀ col, locks row col ≠ none) (st : RenderState) (hinv : RenderInv s st)
    (hi : st.i = (row : Int) * s.tileCols) (n : Nat) :
    RenderInv s ((List.range n).foldl
        (fun (t : RenderState) (col : Nat) =>
          RenderTile (locks row col)
            { x := (col : Int) * s.tileWidth
              y := s.tileRows * s.tileHeight - ((row : Int) + 1) * s.tileHeight
              w := s.tileWidth
              h := s.tileHeight } t) st) ∧
      ((List.range n).foldl
        (fun (t : RenderState) (col : Nat) =>
          RenderTile (locks row col)
            { x := (col : Int) * s.tileWidth
              y := s.tileRows * s.tileHeight - ((row : Int) + 1) * s.tileHeight
              w := s.tileWidth
              h := s.tileHeight } t) st).i = st.i + (n : Int) ∧
      ((List.range n).foldl
        (fun (t : RenderState) (col : Nat) =>
          RenderTile (locks row col)
            { x := (col : Int) * s.tileWidth
              y := s.tileRows * s.tileHeight - ((row : Int) + 1) * s.tileHeight
              w := s.tileWidth
              h := s.tileHeight } t) st).cmds =
        st.cmds ++ (List.range n).flatMap (fun (col : Nat) => specTileDraw s row col) ∧
      ∀ t : Int,
        ((List.range n).foldl
          (fun (t : RenderState) (col : Nat) =>
            RenderTile (locks row col)
              { x := (col : Int) * s.tileWidth
                y := s.tileRows * s.tileHeight - ((row : Int) + 1) * s.tileHeight
                w := s.tileWidth
                h := s.tileHeight } t) st).disp.tileNeedsUpdate t =
          if (st.i ≤ t ∧ t < st.i + (n : Int)) ∧ s.textureInUse t = true then false
          else st.disp.tileNeedsUpdate t := by
  induction n with
  | zero =>
    refine ⟨hinv, by simp, by simp, ?_⟩
    intro t
    rw [if_neg (by omega)]
    rfl
  | succ n ih =>
    obtain ⟨a, b, c, d⟩ := ih
    rw [List.range_succ, List.foldl_append]
    simp only [List.foldl_cons, List.foldl_nil]
    generalize hst : (List.range n).foldl
        (fun (t : RenderState) (col : Nat) =>
          RenderTile (locks row col)
            { x := (col : Int) * s.tileWidth
              y := s.tileRows * s.tileHeight - ((row : Int) + 1) * s.tileHeight
              w := s.tileWidth
              h := s.tileHeight } t) st = sn at a b c d
    obtain ⟨pitch, hp⟩ : ∃ pitch, locks row n = some pitch := by
      cases hl : locks row n with
      | none => exact absurd hl (hok n)
      | some pitch => exact ⟨pitch, rfl⟩
    rw [hp]
    obtain ⟨e1, e2, e3⟩ := RenderTile_some pitch
      { x := (n : Int) * s.tileWidth
        y := s.tileRows * s.tileHeight - ((row : Int) + 1) * s.tileHeight
        w := s.tileWidth
        h := s.tileHeight } sn
    refine ⟨RenderTile_inv s _ _ sn a, ?_, ?_, ?_⟩
    · rw [e1, b]; push_cast; omega
    · rw [e2, c, List.flatMap_append, List.append_assoc]
      congr 1
      simp only [List.flatMap_cons, List.flatMap_nil, List.append_nil]
      have hy : s.tileRows * s.tileHeight - ((row : Int) + 1) * s.tileHeight =
          (s.tileRows - (row : Int) - 1) * s.tileHeight := by
        rw [Int.sub_mul, Int.sub_mul, Int.add_mul, Int.one_mul]; omega
      unfold specTileDraw
      rw [a.inUse, a.color, b, hi, hy]
    · intro t
      rw [e3 t, d t, a.inUse, b]
      by_cases f : t = st.i + (n : Int)
      · subst f
        by_cases hu : s.textureInUse (st.i + (n : Int)) = true
        · rw [if_pos ⟨rfl, hu⟩, if_pos ⟨by omega, hu⟩]
        · rw [if_neg (fun h => hu h.2), if_neg (fun h => hu h.2), if_neg (fun h => hu h.2)]
      · rw [if_neg (fun h => f h.1)]
        by_cases g : (st.i ≤ t ∧ t < st.i + (n : Int)) ∧ s.textureInUse t = true
        · rw [if_pos g, if_pos ⟨by omega, g.2⟩]
        · rw [if_neg g, if_neg (fun h => g ⟨by omega, h.2⟩)]

/-- The first `r` rows of a `Render` pass in which no lock fails, on a display
whose `tileCols` is not negative: `i` is at the start of row `r`, the draw
calls made are those the specification lists for the rows before `r`, and of
the dirty flags exactly those of the Materialized tiles before `i` are cleared. -/
theorem Render_rows (s : PixelDisplay) (tex : Int → Int → Int → Color)
    (locks : Nat → Nat → Option Int) (hok : ∀ row col, locks row col ≠ none)
    (hC : 0 ≤ s.tileCols) (r : Nat) :
    RenderInv s ((List.range r).foldl
        (fun (t : RenderState) (row : Nat) => RenderRow s locks row t)
        { disp := s, tex := tex, cmds := [], lockLog := [], i := 0 }) ∧
      ((List.range r).foldl
        (fun (t : RenderState) (row : Nat) => RenderRow s locks row t)
        { disp := s, tex := tex, cmds := [], lockLog := [], i := 0 }).i =
        (r : Int) * s.tileCols ∧
      ((List.range r).foldl
        (fun (t : RenderState) (row : Nat) => RenderRow s locks row t)
        { disp := s, tex := tex, cmds := [], lockLog := [], i := 0 }).cmds =
        (List.range r).flatMap
          (fun (row : Nat) =>
            (List.range s.tileCols.toNat).flatMap (fun (col : Nat) => specTileDraw s row col)) ∧
      ∀ t : Int,
        ((List.range r).foldl
          (fun (t : RenderState) (row : Nat) => RenderRow s locks row t)
          { disp := s, tex := tex, cmds := [], lockLog := [], i := 0 }).disp.tileNeedsUpdate t =
          if (0 ≤ t ∧ t < (r : Int) * s.tileCols) ∧ s.textureInUse t = true then false
          else s.tileNeedsUpdate t := by
  induction r with
  | zero =>
    refine ⟨RenderInv.init s tex, by simp, by simp, ?_⟩
    intro t
    rw [if_neg (by simp)]
    rfl
  | succ r ih =>
    obtain ⟨a, b, c, d⟩ := ih
    rw [List.range_succ, List.foldl_append]
    simp only [List.foldl_cons, List.foldl_nil]
    generalize (List.range r).foldl
        (fun (t : RenderState) (row : Nat) => RenderRow s locks row t)
        { disp := s, tex := tex, cmds := [], lockLog := [], i := 0 } = sr at a b c d
    obtain ⟨p, q, u, v⟩ := RenderRow_cols s locks r (hok r) sr a b s.tileCols.toNat
    have hcast : ((s.tileCols.toNat : Nat) : Int) = s.tileCols := Int.toNat_of_nonneg hC
    have hnext : ((r + 1 : Nat) : Int) * s.tileCols = (r : Int) * s.tileCols + s.tileCols := by
      push_cast; rw [Int.add_mul, Int.one_mul]
    refine ⟨p, ?_, ?_, ?_⟩
    · show (RenderRow s locks r sr).i = _
      unfold RenderRow
      rw [q, b, hcast, hnext]
    · show (RenderRow s locks r sr).cmds = _
      unfold RenderRow
      rw [u, c, List.flatMap_append]
      simp only [List.flatMap_cons, List.flatMap_nil, List.append_nil]
    · intro t
      show (RenderRow s locks r sr).disp.tileNeedsUpdate t = _
      unfold RenderRow
      rw [v t, d t, b, hcast, hnext]
      have h0 : 0 ≤ (r : Int) * s.tileCols := Int.mul_nonneg (Int.ofNat_nonneg r) hC
      by_cases g : (0 ≤ t ∧ t < (r : Int) * s.tileCols + s.tileCols) ∧ s.textureInUse t = true
      · rw [if_pos g]
        by_cases f : (r : Int) * s.tileCols ≤ t
        · rw [if_pos ⟨by omega, g.2⟩]
        · rw [if_neg (fun h => f h.1.1), if_pos ⟨by omega, g.2⟩]
      · rw [if_neg g, if_neg (fun h => g ⟨by omega, h.2⟩), if_neg (fun h => g ⟨by omega, h.2⟩)]

/-- The draw calls of a `Render` pass in which no lock fails are those the
specification lists. -/
theorem Render_cmds (s : PixelDisplay) (tex : Int → Int → Int → Color)
    (locks : Nat → Nat → Option Int) (hok : ∀ row col, locks row col ≠ none) :
    (Render s tex locks).cmds = specRenderDraws s := by
  by_cases hC : 0 ≤ s.tileCols
  · exact (Render_rows s tex locks hok hC s.tileRows.toNat).2.2.1
  · have h0 : s.tileCols.toNat = 0 := by omega
    have e1 : ∀ (row : Nat) (st : RenderState), RenderRow s locks row st = st := by
      intro row st
      unfold RenderRow
      rw [h0]
      rfl
    unfold Render specRenderDraws
    rw [foldl_fixed _ _ _ (fun d row => e1 row d), h0]
    simp

/-- The dirty flags after a `Render` pass in which no lock fails, on a display
whose tile counts are not negative: the flags of the Materialized tiles of the
grid are cleared, every other flag is as it was. -/
theorem Render_flags (s : PixelDisplay) (tex : Int → Int → Int → Color)
    (locks : Nat → Nat → Option Int) (hok : ∀ row col, locks row col ≠ none)
    (hC : 0 ≤ s.tileCols) (hR : 0 ≤ s.tileRows) (t : Int) :
    (Render s tex locks).disp.tileNeedsUpdate t =
      if (0 ≤ t ∧ t < s.tileCols * s.tileRows) ∧ s.textureInUse t = true then false
      else s.tileNeedsUpdate t := by
  have h := (Render_rows s tex locks hok hC s.tileRows.toNat).2.2.2 t
  rw [Int.toNat_of_nonneg hR, Int.mul_comm s.tileRows] at h
  exact h

/-! ## Reachable displays are well formed -/

theorem Render_wf (s : PixelDisplay) (tex : Int → Int → Int → Color)
    (locks : Nat → Nat → Option Int) (hw : WellFormed s) :
    SameGeom s (Render s tex locks).disp ∧ WellFormed (Render s tex locks).disp := by
  have h := Render_inv s tex locks
  obtain ⟨g1, g2, g3, g4, g5, g6⟩ := h.geom
  refine ⟨h.geom, ?_⟩
  refine ⟨by rw [g3]; exact hw.tileWidth_pos, by rw [g4]; exact hw.tileHeight_pos,
    by rw [g5, g1, g3]; exact hw.cols_eq, by rw [g6, g2, g4]; exact hw.rows_eq, ?_, ?_⟩
  · intro t ht
    rw [h.inUse] at ht
    rw [h.cache]
    exact hw.inUse_alloc t ht
  · intro t buf hb
    rw [h.cache] at hb
    rw [g3, g4]
    exact hw.alloc_size t buf hb

/-- Every reachable display is well formed and has positive width and height. -/
theorem Reachable.wf {s : PixelDisplay} {tex : Int → Int → Int → Color}
    (h : Reachable s tex) : WellFormed s ∧ 0 < s.totalWidth ∧ 0 < s.totalHeight := by
  induction h with
  | create w h tw th c tex hw hh htw hth =>
    obtain ⟨g1, g2, _⟩ := (Clear_spec (AllocArrays w h tw th) c).1
    refine ⟨create_wf w h tw th c htw hth, ?_, ?_⟩
    · show (Clear (AllocArrays w h tw th) c).totalWidth > 0
      rw [g1]; exact hw
    · show (Clear (AllocArrays w h tw th) c).totalHeight > 0
      rw [g2]; exact hh
  | clear c _ ih =>
    obtain ⟨g1, g2, _⟩ := (Clear_spec _ c).1
    exact ⟨Clear_wf _ c ih.1, by rw [g1]; exact ih.2.1, by rw [g2]; exact ih.2.2⟩
  | setPixel x y c _ ih =>
    obtain ⟨g1, g2, _⟩ := SetPixel_geom _ x y c ih.1
    exact ⟨SetPixel_wf _ x y c ih.1, by rw [g1]; exact ih.2.1, by rw [g2]; exact ih.2.2⟩
  | drawLine x1 y1 x2 y2 c _ ih =>
    obtain ⟨⟨g1, g2, _⟩, w⟩ := DrawLine_wf _ x1 y1 x2 y2 c ih.1
    exact ⟨w, by rw [g1]; exact ih.2.1, by rw [g2]; exact ih.2.2⟩
  | fillRect l b w h c _ ih =>
    obtain ⟨⟨g1, g2, _⟩, w⟩ := FillRect_wf _ l b w h c ih.1 ih.2.1.le ih.2.2.le
    exact ⟨w, by rw [g1]; exact ih.2.1, by rw [g2]; exact ih.2.2⟩
  | render locks _ _ ih =>
    obtain ⟨⟨g1, g2, _⟩, w⟩ := Render_wf _ _ locks ih.1
    exact ⟨w, by rw [g1]; exact ih.2.1, by rw [g2]; exact ih.2.2⟩

/-! ## Writing a colour a pixel already shows -/

/-- A call of `SetPixel` with the colour the pixel already shows returns the
state it was given. -/
theorem SetPixel_of_reads (s : PixelDisplay) (x y : Int) (c : Color)
    (h : pixelAt s x y = some c) : SetPixel s x y c = s := by
  unfold SetPixel
  split
  · rfl
  · unfold pixelAt at h
    simp only at h ⊢
    unfold EnsureTextureInUseUnless
    by_cases hin : s.textureInUse (y.tdiv s.tileHeight * s.tileCols + x.tdiv s.tileWidth) = true
    · rw [if_pos hin] at h ⊢
      simp only [Bool.true_eq_false, if_false]
      cases hc : s.pixelCache (y.tdiv s.tileHeight * s.tileCols + x.tdiv s.tileWidth) with
      | none => rfl
      | some buf =>
        rw [hc] at h
        simp only at h ⊢
        rw [if_pos h]
    · rw [if_neg hin] at h ⊢
      have hc : s.tileColor (y.tdiv s.tileHeight * s.tileCols + x.tdiv s.tileWidth) = c := by
        simpa using h
      rw [if_pos hc]
      simp

/-- After `SetPixel` at an in-bounds pixel of a Solid tile of another colour,
the tile is Materialized. -/
theorem SetPixel_materializes (s : PixelDisplay) (x y : Int) (c : Color)
    (hb : inBounds s x y)
    (hc : s.tileColor (y.tdiv s.tileHeight * s.tileCols + x.tdiv s.tileWidth) ≠ c) :
    (SetPixel s x y c).textureInUse
      (y.tdiv s.tileHeight * s.tileCols + x.tdiv s.tileWidth) = true := by
  have hr : (EnsureTextureInUseUnless s
      (y.tdiv s.tileHeight * s.tileCols + x.tdiv s.tileWidth) c).1 = true ∧
      (EnsureTextureInUseUnless s
        (y.tdiv s.tileHeight * s.tileCols + x.tdiv s.tileWidth) c).2.textureInUse
        (y.tdiv s.tileHeight * s.tileCols + x.tdiv s.tileWidth) = true := by
    unfold EnsureTextureInUseUnless
    by_cases hin : s.textureInUse (y.tdiv s.tileHeight * s.tileCols + x.tdiv s.tileWidth) = true
    · rw [if_pos hin]; exact ⟨rfl, hin⟩
    · rw [if_neg hin, if_neg hc]
      refine ⟨rfl, ?_⟩
      unfold EnsureTextureInUse
      rw [if_neg hin]
      show Function.update s.textureInUse _ true _ = true
      rw [Function.update_same]
  obtain ⟨hx0, hx1, hy0, hy1⟩ := hb
  unfold SetPixel
  rw [if_neg (by omega)]
  simp only
  rw [if_neg (by rw [hr.1]; decide)]
  split
  · exact hr.2
  · split
    · exact hr.2
    · exact hr.2

/-! ## Ceiling division -/

/-- For `w ≥ 0` and `t > 0`, `ceilDiv w t` is the least `n` with `n * t ≥ w`. -/
theorem ceilDiv_least (w t : Int) (hw : 0 ≤ w) (ht : 0 < t) :
    w ≤ ceilDiv w t * t ∧ ∀ n : Int, w ≤ n * t → ceilDiv w t ≤ n := by
  unfold ceilDiv
  by_cases h0 : w = 0
  · rw [if_pos h0]
    refine ⟨by omega, ?_⟩
    intro n hn
    by_contra hc
    have := Int.mul_le_mul_of_nonneg_right (show n + 1 ≤ 0 by omega) ht.le
    rw [Int.add_mul] at this
    omega
  · rw [if_neg h0, tdiv_of_nonneg (by omega) ht]
    obtain ⟨e, r0, r1⟩ := divmod_spec (w - 1) t ht
    refine ⟨by rw [Int.add_mul]; omega, ?_⟩
    intro n hn
    by_contra hc
    have := Int.mul_le_mul_of_nonneg_right (show n ≤ (w - 1) / t by omega) ht.le
    omega

/-! ## `DrawLine`: the error term, and the two orders of the endpoints -/

/-- The error term of the loop of `DrawLine` stays in `[0, dx)` and counts the
minor steps: the `k`-th call has minor coordinate `y + ystep * j`, where
`error - k * absDy + j * dx` is the error term before that call. -/
theorem DrawLineLoopCalls_error (steep : Bool) (absDy dx ystep : Int) (hA : 0 ≤ absDy)
    (hD : absDy ≤ dx) (n : Nat) :
    ∀ (v : Int × Int × Int) (k : Nat) (p : Int × Int), 0 ≤ v.2.2 → v.2.2 < dx →
      (DrawLineLoopCalls steep absDy dx ystep n v)[k]? = some p →
      ∃ j : Int, (if steep then p.1 else p.2) = v.2.1 + ystep * j ∧
        0 ≤ v.2.2 - (k : Int) * absDy + j * dx ∧ v.2.2 - (k : Int) * absDy + j * dx < dx := by
  induction n with
  | zero => intro v k p _ _ h; simp [DrawLineLoopCalls] at h
  | succ n ih =>
    intro v k p h0 h1 h
    unfold DrawLineLoopCalls at h
    cases k with
    | zero =>
      simp only [List.getElem?_cons_zero, Option.some.injEq] at h
      refine ⟨0, ?_, ?_, ?_⟩
      · rw [← h]; cases steep <;> simp
      · simpa using h0
      · simpa using h1
    | succ k =>
      rw [List.getElem?_cons_succ] at h
      have hk : (((k + 1 : Nat) : Int)) * absDy = (k : Int) * absDy + absDy := by
        push_cast; ring
      by_cases he : v.2.2 - absDy < 0
      · have hv : DrawLineStep absDy dx ystep v = (v.1 + 1, v.2.1 + ystep, v.2.2 - absDy + dx) := by
          unfold DrawLineStep; simp only; rw [if_pos he]
        rw [hv] at h
        obtain ⟨j, hj, ha, hb⟩ := ih _ k p (by show 0 ≤ v.2.2 - absDy + dx; omega)
          (by show v.2.2 - absDy + dx < dx; omega) h
        refine ⟨j + 1, ?_, ?_, ?_⟩
        · rw [hj]; show v.2.1 + ystep + ystep * j = v.2.1 + ystep * (j + 1); ring
        · have e : (j + 1) * dx = j * dx + dx := by ring
          rw [hk, e]
          change 0 ≤ v.2.2 - absDy + dx - (k : Int) * absDy + j * dx at ha
          omega
        · have e : (j + 1) * dx = j * dx + dx := by ring
          rw [hk, e]
          change v.2.2 - absDy + dx - (k : Int) * absDy + j * dx < dx at hb
          omega
      · have hv : DrawLineStep absDy dx ystep v = (v.1 + 1, v.2.1, v.2.2 - absDy) := by
          unfold DrawLineStep; simp only; rw [if_neg he]
        rw [hv] at h
        obtain ⟨j, hj, ha, hb⟩ := ih _ k p (by show 0 ≤ v.2.2 - absDy; omega)
          (by show v.2.2 - absDy < dx; omega) h
        refine ⟨j, hj, ?_, ?_⟩
        · rw [hk]
          change 0 ≤ v.2.2 - absDy - (k : Int) * absDy + j * dx at ha
          omega
        · rw [hk]
          change v.2.2 - absDy - (k : Int) * absDy + j * dx < dx at hb
          omega
/-- The fields of the setup of `DrawLine` in terms of each other. -/
theorem DrawLineSetup_fields (x1 y1 x2 y2 : Int) :
    (DrawLineSetup x1 y1 x2 y2).dx =
        (DrawLineSetup x1 y1 x2 y2).x2 - (DrawLineSetup x1 y1 x2 y2).x1 ∧
      (DrawLineSetup x1 y1 x2 y2).absDy =
        (if (DrawLineSetup x1 y1 x2 y2).y2 - (DrawLineSetup x1 y1 x2 y2).y1 < 0
          then -((DrawLineSetup x1 y1 x2 y2).y2 - (DrawLineSetup x1 y1 x2 y2).y1)
          else (DrawLineSetup x1 y1 x2 y2).y2 - (DrawLineSetup x1 y1 x2 y2).y1) ∧
      (DrawLineSetup x1 y1 x2 y2).error = ((DrawLineSetup x1 y1 x2 y2).dx).tdiv 2 ∧
      (DrawLineSetup x1 y1 x2 y2).ystep =
        (if (DrawLineSetup x1 y1 x2 y2).y1 < (DrawLineSetup x1 y1 x2 y2).y2 then 1 else -1) :=
  ⟨rfl, rfl, rfl, rfl⟩

/-- The normalised endpoints of `DrawLine`: the two endpoints in one of the two
orders, with their coordinates exchanged when the line is steep. -/
theorem DrawLineSetup_ends (x1 y1 x2 y2 : Int) :
    ∃ a b : Int × Int,
      ((a = (x1, y1) ∧ b = (x2, y2)) ∨ (a = (x2, y2) ∧ b = (x1, y1))) ∧
      (DrawLineSetup x1 y1 x2 y2).steep = decide ((x2 - x1).natAbs < (y2 - y1).natAbs) ∧
      (DrawLineSetup x1 y1 x2 y2).x1 =
        (if (x2 - x1).natAbs < (y2 - y1).natAbs then a.2 else a.1) ∧
      (DrawLineSetup x1 y1 x2 y2).y1 =
        (if (x2 - x1).natAbs < (y2 - y1).natAbs then a.1 else a.2) ∧
      (DrawLineSetup x1 y1 x2 y2).x2 =
        (if (x2 - x1).natAbs < (y2 - y1).natAbs then b.2 else b.1) ∧
      (DrawLineSetup x1 y1 x2 y2).y2 =
        (if (x2 - x1).natAbs < (y2 - y1).natAbs then b.1 else b.2) := by
  have hs : (DrawLineSetup x1 y1 x2 y2).steep = decide ((x2 - x1).natAbs < (y2 - y1).natAbs) := by
    simp only [DrawLineSetup]
    congr 1
    apply propext
    split_ifs <;> omega
  by_cases h : (x2 - x1).natAbs < (y2 - y1).natAbs
  · have h1 : (DrawLineSetup x1 y1 x2 y2).steep = true := by rw [hs]; simpa using h
    simp only [if_pos h]
    by_cases hgt : y1 > y2
    · refine ⟨(x2, y2), (x1, y1), Or.inr ⟨rfl, rfl⟩, hs, ?_, ?_, ?_, ?_⟩ <;>
      · unfold DrawLineSetup at h1 ⊢
        simp only at h1 ⊢
        rw [h1]
        simp only [Swap, if_true]
        rw [if_pos hgt]
    · refine ⟨(x1, y1), (x2, y2), Or.inl ⟨rfl, rfl⟩, hs, ?_, ?_, ?_, ?_⟩ <;>
      · unfold DrawLineSetup at h1 ⊢
        simp only at h1 ⊢
        rw [h1]
        simp only [Swap, if_true]
        rw [if_neg hgt]
  · have h1 : (DrawLineSetup x1 y1 x2 y2).steep = false := by rw [hs]; simpa using h
    simp only [if_neg h]
    by_cases hgt : x1 > x2
    · refine ⟨(x2, y2), (x1, y1), Or.inr ⟨rfl, rfl⟩, hs, ?_, ?_, ?_, ?_⟩ <;>
      · unfold DrawLineSetup at h1 ⊢
        simp only at h1 ⊢
        rw [h1]
        simp only [Bool.false_eq_true, if_false]
        rw [if_pos hgt]
    · refine ⟨(x1, y1), (x2, y2), Or.inl ⟨rfl, rfl⟩, hs, ?_, ?_, ?_, ?_⟩ <;>
      · unfold DrawLineSetup at h1 ⊢
        simp only at h1 ⊢
        rw [h1]
        simp only [Bool.false_eq_true, if_false]
        rw [if_neg hgt]


theorem half_pixel_zero {z D : Int} (hD : 0 < D) (h : 2 * |z * D| ≤ D) : z = 0 := by
  by_contra hz
  have h1 : 1 ≤ |z| := Int.one_le_abs hz
  have h2 : |z * D| = |z| * D := by rw [abs_mul, abs_of_pos hD]
  rw [h2] at h
  nlinarith

/-- The setup of `DrawLine` does not depend on the order of the two endpoints. -/
theorem DrawLineSetup_symm (x1 y1 x2 y2 : Int) :
    DrawLineSetup x1 y1 x2 y2 = DrawLineSetup x2 y2 x1 y1 := by
  unfold DrawLineSetup
  simp only [Swap]
  by_cases hs : (if y2 - y1 < 0 then -(y2 - y1) else y2 - y1) >
      (if x2 - x1 < 0 then -(x2 - x1) else x2 - x1)
  · have hs' : (if y1 - y2 < 0 then -(y1 - y2) else y1 - y2) >
        (if x1 - x2 < 0 then -(x1 - x2) else x1 - x2) := by
      split_ifs at hs ⊢ <;> omega
    simp only [hs, hs', decide_True, if_true]
    rcases lt_trichotomy y1 y2 with h | h | h
    · rw [if_neg (show ¬ y1 > y2 by omega), if_pos (show y2 > y1 by omega)]
    · exfalso; subst h; simp at hs; split_ifs at hs <;> omega
    · rw [if_pos (show y1 > y2 by omega), if_neg (show ¬ y2 > y1 by omega)]
  · have hs' : ¬ (if y1 - y2 < 0 then -(y1 - y2) else y1 - y2) >
        (if x1 - x2 < 0 then -(x1 - x2) else x1 - x2) := by
      split_ifs at hs ⊢ <;> omega
    simp only [hs, hs', decide_False, Bool.false_eq_true, if_false]
    rcases lt_trichotomy x1 x2 with h | h | h
    · rw [if_neg (show ¬ x1 > x2 by omega), if_pos (show x2 > x1 by omega)]
    · subst h
      have : y1 = y2 := by split_ifs at hs <;> omega
      subst this
      rfl
    · rw [if_pos (show x1 > x2 by omega), if_neg (show ¬ x2 > x1 by omega)]

/-! ## The copy of a pixel buffer into a locked texture -/

/-- The bytes after `memcpy(dest + d, src + k, n)`: byte `a` of the destination is
channel `(a - d) % 4` of colour `k + (a - d) / 4` of the source when
`d ≤ a < d + n`, and is as before elsewhere. -/
theorem memcpyColors_apply (dest : Int → Nat) (d : Int) (src : List Color) (k n a : Int) :
    memcpyColors dest d src k n a =
      if d ≤ a ∧ a < d + (n.toNat : Int) then
        colorByte ((readBuf src (k + (((a - d).toNat / 4 : Nat) : Int))).getD (Color.mk 0 0 0 0))
          ((a - d).toNat % 4)
      else dest a := by
  unfold memcpyColors
  induction n.toNat with
  | zero =>
    rw [List.range_zero, List.foldl_nil, if_neg]
    push_cast; omega
  | succ m ih =>
    rw [List.range_succ, List.foldl_append, List.foldl_cons, List.foldl_nil]
    by_cases e : a = d + (m : Int)
    · rw [e, Function.update_same, if_pos (by push_cast; omega)]
      rw [show (d + (m : Int) - d).toNat = m by omega]
    · rw [Function.update_noteq e, ih]
      by_cases h : d ≤ a ∧ a < d + (m : Int)
      · rw [if_pos h, if_pos (by push_cast; omega)]
      · rw [if_neg h, if_neg (by push_cast; omega)]

/-- The second loop of the copy in `Render`, which moves the two pointers row by
row, performs the `memcpy` calls of the first loop, whatever the row stride. -/
theorem RenderCopyRows_eq (s : PixelDisplay) (buf : List Color) (pitch : Int)
    (pixels : Int → Nat) :
    RenderCopyRows s buf pitch pixels =
      (List.range s.tileHeight.toNat).foldl
        (fun (m : Int → Nat) (y : Nat) =>
          memcpyColors m ((y : Int) * pitch) buf
            ((s.tileHeight - 1) * s.tileWidth - (y : Int) * s.tileWidth) (s.tileWidth * 4))
        pixels := by
  unfold RenderCopyRows
  simp only
  split
  · rfl
  · have key : ∀ r : Nat,
        (List.range r).foldl
          (fun (v : (Int → Nat) × Int × Int) (_ : Nat) =>
            (memcpyColors v.1 v.2.2 buf v.2.1 (s.tileWidth * 4), v.2.1 - s.tileWidth,
              v.2.2 + pitch))
          (pixels, (s.tileHeight - 1) * s.tileWidth, 0) =
        ((List.range r).foldl
          (fun (m : Int → Nat) (y : Nat) =>
            memcpyColors m ((y : Int) * pitch) buf
              ((s.tileHeight - 1) * s.tileWidth - (y : Int) * s.tileWidth) (s.tileWidth * 4))
          pixels,
          (s.tileHeight - 1) * s.tileWidth - (r : Int) * s.tileWidth, (r : Int) * pitch) := by
      intro r
      induction r with
      | zero => simp
      | succ r ih =>
        rw [List.range_succ, List.foldl_append, List.foldl_append, ih]
        simp only [List.foldl_cons, List.foldl_nil]
        refine Prod.ext rfl (Prod.ext ?_ ?_)
        · show (s.tileHeight - 1) * s.tileWidth - (r : Int) * s.tileWidth - s.tileWidth =
            (s.tileHeight - 1) * s.tileWidth - ((r + 1 : Nat) : Int) * s.tileWidth
          push_cast; ring
        · show (r : Int) * pitch + pitch = ((r + 1 : Nat) : Int) * pitch
          push_cast; ring
    rw [key]

/-- After the first `r` passes of the copy loop of `Render`, with a row stride of
at least `4 * tileWidth` bytes, the bytes of texel `(x, y)` for `y < r` are the
channels of entry `(tileHeight - 1 - y) * tileWidth + x` of the pixel buffer. -/
theorem copy_rows_byte (tw th pitch : Int) (buf : List Color) (pixels : Int → Nat)
    (htw : 0 < tw) (hp : 4 * tw ≤ pitch) (r : Nat) :
    ∀ (x y : Int) (c : Nat), 0 ≤ x → x < tw → 0 ≤ y → y < (r : Int) → c < 4 →
      (List.range r).foldl
        (fun (m : Int → Nat) (y : Nat) =>
          memcpyColors m ((y : Int) * pitch) buf ((th - 1) * tw - (y : Int) * tw) (tw * 4))
        pixels (y * pitch + 4 * x + (c : Int)) =
      colorByte ((readBuf buf ((th - 1 - y) * tw + x)).getD (Color.mk 0 0 0 0)) c := by
  induction r with
  | zero => intro x y c _ _ h0 h1; exfalso; simp at h1; omega
  | succ r ih =>
    intro x y c hx0 hx1 hy0 hy1 hc
    rw [List.range_succ, List.foldl_append, List.foldl_cons, List.foldl_nil, memcpyColors_apply]
    have hn : (((tw * 4).toNat : Nat) : Int) = tw * 4 := Int.toNat_of_nonneg (by omega)
    rw [hn]
    by_cases e : y = (r : Int)
    · subst e
      rw [if_pos (by omega)]
      have h1 : ((r : Int) * pitch + 4 * x + (c : Int) - (r : Int) * pitch).toNat / 4 = x.toNat := by
        omega
      have h2 : ((r : Int) * pitch + 4 * x + (c : Int) - (r : Int) * pitch).toNat % 4 = c := by
        omega
      rw [h1, h2, Int.toNat_of_nonneg hx0]
      congr 3
      ring
    · have hlt : y + 1 ≤ (r : Int) := by push_cast at hy1; omega
      have hmul : (y + 1) * pitch ≤ (r : Int) * pitch :=
        Int.mul_le_mul_of_nonneg_right hlt (by omega)
      rw [Int.add_mul] at hmul
      rw [if_neg (by omega)]
      exact ih x y c hx0 hx1 hy0 (by omega) hc

/-- The texels uploaded after the copy of `Render`: with a row stride of at
least `4 * tileWidth` bytes, texel `(x, y)` is entry
`(tileHeight - 1 - y) * tileWidth + x` of the pixel buffer. -/
theorem RenderCopyRows_texel (s : PixelDisplay) (buf : List Color) (pitch : Int)
    (pixels : Int → Nat) (htw : 0 < s.tileWidth) (hth : 0 < s.tileHeight)
    (hlen : buf.length = (s.tileWidth * s.tileHeight).toNat) (hp : 4 * s.tileWidth ≤ pitch)
    (x y : Int) (hx0 : 0 ≤ x) (hx1 : x < s.tileWidth) (hy0 : 0 ≤ y) (hy1 : y < s.tileHeight) :
    readBuf buf ((s.tileHeight - 1 - y) * s.tileWidth + x) =
      some (unlockTexels (RenderCopyRows s buf pitch pixels) pitch x y) := by
  have hb := copy_rows_byte s.tileWidth s.tileHeight pitch buf pixels htw hp s.tileHeight.toNat
    x y
  have hyr : y < ((s.tileHeight.toNat : Nat) : Int) := by omega
  have hoff0 : 0 ≤ (s.tileHeight - 1 - y) * s.tileWidth + x :=
    Int.add_nonneg (Int.mul_nonneg (by omega) htw.le) hx0
  have hoff1 : (s.tileHeight - 1 - y) * s.tileWidth + x < s.tileWidth * s.tileHeight := by
    have h : (s.tileHeight - 1 - y + 1) * s.tileWidth ≤ s.tileHeight * s.tileWidth :=
      Int.mul_le_mul_of_nonneg_right (by omega) htw.le
    rw [Int.add_mul, Int.mul_comm s.tileHeight] at h
    omega
  have hpos : 0 < s.tileWidth * s.tileHeight := Int.mul_pos htw hth
  obtain ⟨c, hc⟩ : ∃ c, readBuf buf ((s.tileHeight - 1 - y) * s.tileWidth + x) = some c := by
    unfold readBuf
    rw [if_neg (by omega)]
    cases h : buf[((s.tileHeight - 1 - y) * s.tileWidth + x).toNat]? with
    | none => rw [List.getElem?_eq_none_iff, hlen] at h; omega
    | some c => exact ⟨c, rfl⟩
  rw [hc]
  unfold unlockTexels
  rw [RenderCopyRows_eq]
  have b0 := hb 0 hx0 hx1 hy0 hyr (by decide)
  have b1 := hb 1 hx0 hx1 hy0 hyr (by decide)
  have b2 := hb 2 hx0 hx1 hy0 hyr (by decide)
  have b3 := hb 3 hx0 hx1 hy0 hyr (by decide)
  rw [hc] at b0 b1 b2 b3
  simp only [Nat.cast_zero, add_zero, Nat.cast_one, Nat.cast_ofNat, Option.getD_some] at b0 b1 b2 b3
  rw [b0, b1, b2, b3]
  rfl

/-! ## Buffers stay allocated, and clean tiles stay as they are -/

theorem Kept.same (s : PixelDisplay) : Kept s s :=
  ⟨fun _ h => h, fun _ h1 h2 => ⟨h1, h2, rfl⟩⟩

theorem Kept.then {s s1 s2 : PixelDisplay} (h1 : Kept s s1) (h2 : Kept s1 s2) : Kept s s2 := by
  refine ⟨fun t h => h2.alloc t (h1.alloc t h), ?_⟩
  intro t ha hb
  obtain ⟨a1, b1, c1⟩ := h2.clean t ha hb
  obtain ⟨a0, b0, c0⟩ := h1.clean t a1 b1
  exact ⟨a0, b0, c1.trans c0⟩

/-- A loop whose passes each keep buffers and clean tiles keeps them. -/
theorem Kept.foldl {β : Type} (f : PixelDisplay → β → PixelDisplay) (l : List β)
    (hf : ∀ d b, Kept d (f d b)) (s : PixelDisplay) : Kept s (l.foldl f s) :=
  foldl_invariant (fun d => Kept s d) f l s (fun d b hd => hd.then (hf d b)) (Kept.same s)

/-- An operation that leaves one tile dirty over an allocated buffer, and every
other tile as it was, keeps buffers and clean tiles. -/
theorem Kept.of_touch (s s1 : PixelDisplay) (ti : Int) (hd : s1.tileNeedsUpdate ti = true)
    (ha : s1.pixelCache ti ≠ none)
    (ho : ∀ t, t ≠ ti → s1.textureInUse t = s.textureInUse t ∧
      s1.tileNeedsUpdate t = s.tileNeedsUpdate t ∧ s1.pixelCache t = s.pixelCache t) :
    Kept s s1 := by
  constructor
  · intro t h
    by_cases e : t = ti
    · rw [e]; exact ha
    · rw [(ho t e).2.2]; exact h
  · intro t h1 h2
    by_cases e : t = ti
    · rw [e, hd] at h2; cases h2
    · obtain ⟨a, b, c⟩ := ho t e
      exact ⟨a ▸ h1, b ▸ h2, c⟩

/-- The cells of `EnsureTextureInUse(t)` on a Solid tile `t`. -/
theorem EnsureTextureInUse_solid (s : PixelDisplay) (t : Int) (h : s.textureInUse t = false) :
    (EnsureTextureInUse s t).tileNeedsUpdate = s.tileNeedsUpdate ∧
      (EnsureTextureInUse s t).pixelCache t ≠ none ∧
      ∀ t1, t1 ≠ t → (EnsureTextureInUse s t).textureInUse t1 = s.textureInUse t1 ∧
        (EnsureTextureInUse s t).pixelCache t1 = s.pixelCache t1 := by
  unfold EnsureTextureInUse
  rw [if_neg (by rw [h]; decide)]
  refine ⟨rfl, ?_, ?_⟩
  · show Function.update s.pixelCache t _ t ≠ none
    rw [Function.update_same]; exact Option.some_ne_none _
  · intro t1 e
    exact ⟨Function.update_noteq e _ _, Function.update_noteq e _ _⟩

theorem setSolid_kept (s : PixelDisplay) (t : Int) (color : Color) :
    Kept s (setSolid s t color) := by
  refine ⟨fun _ h => h, ?_⟩
  intro t1 h1 h2
  change Function.update s.textureInUse t false t1 = true at h1
  by_cases e : t1 = t
  · subst e; simp at h1
  · rw [Function.update_noteq e] at h1; exact ⟨h1, h2, rfl⟩

theorem Clear_kept (s : PixelDisplay) (color : Color) : Kept s (Clear s color) :=
  Kept.foldl _ _ (fun d _ => setSolid_kept d _ color) s

theorem FillRectBulk_kept (s : PixelDisplay) (c0 c1 r0 r1 : Int) (color : Color) :
    Kept s (FillRectBulk s c0 c1 r0 r1 color) :=
  Kept.foldl _ _ (fun d _ => Kept.foldl _ _ (fun e _ => setSolid_kept e _ color) d) s

theorem SetPixelRunBody_kept (s : PixelDisplay) (x1 row localY : Int) (color : Color)
    (x col : Int) : Kept s (SetPixelRunBody s x1 row localY color x col) := by
  unfold SetPixelRunBody EnsureTextureInUseUnless
  simp only
  by_cases hin : s.textureInUse (row * s.tileCols + col) = true
  · rw [if_pos hin, if_pos rfl]
    cases hc : s.pixelCache (row * s.tileCols + col) with
    | none => exact Kept.same s
    | some buf =>
      refine Kept.of_touch s _ (row * s.tileCols + col) ?_ ?_ ?_
      · simp only [Function.update_same]
      · simp only [Function.update_same]; exact Option.some_ne_none _
      · intro t e
        exact ⟨rfl, Function.update_noteq e _ _, Function.update_noteq e _ _⟩
  · rw [if_neg hin]
    by_cases hcol : s.tileColor (row * s.tileCols + col) = color
    · rw [if_pos hcol, if_neg (by simp)]
      exact Kept.same s
    · rw [if_neg hcol, if_pos rfl]
      dsimp only
      obtain ⟨hd, ha, ho⟩ := EnsureTextureInUse_solid s (row * s.tileCols + col)
        (by simpa using hin)
      cases hc : (EnsureTextureInUse s (row * s.tileCols + col)).pixelCache
          (row * s.tileCols + col) with
      | none => exact absurd hc ha
      | some buf =>
        dsimp only
        refine Kept.of_touch s _ (row * s.tileCols + col) ?_ ?_ ?_
        · simp only [Function.update_same]
        · simp only [Function.update_same]; exact Option.some_ne_none _
        · intro t e
          refine ⟨(ho t e).1, ?_, ?_⟩
          · simp only [Function.update_noteq e, hd]
          · simp only [Function.update_noteq e]; exact (ho t e).2

theorem SetPixelRunLoop_kept (x1 row localY : Int) (color : Color) (fuel : Nat) :
    ∀ (x col : Int) (s : PixelDisplay),
      Kept s (SetPixelRunLoop x1 row localY color fuel x col s) := by
  induction fuel with
  | zero => intro x col s; exact Kept.same s
  | succ fuel ih =>
    intro x col s
    unfold SetPixelRunLoop
    split
    · exact (SetPixelRunBody_kept s x1 row localY color x col).then (ih _ _ _)
    · exact Kept.same s

theorem SetPixelRun_kept (s : PixelDisplay) (x0 x1 y : Int) (color : Color) :
    Kept s (SetPixelRun s x0 x1 y color) :=
  SetPixelRunLoop_kept _ _ _ _ _ _ _ _

theorem FillRect_kept (s : PixelDisplay) (left bottom width height : Int) (color : Color) :
    Kept s (FillRect s left bottom width height color) := by
  unfold FillRect FillRectRows
  simp only
  refine Kept.then ?_ (Kept.foldl _ _ (fun d _ => SetPixelRun_kept d _ _ _ color) _)
  split
  · exact FillRectBulk_kept s _ _ _ _ color
  · exact Kept.same s

theorem SetPixel_kept (s : PixelDisplay) (x y : Int) (color : Color) (hw : WellFormed s) :
    Kept s (SetPixel s x y color) := by
  unfold SetPixel
  split
  · exact Kept.same s
  · simp only
    generalize hti : y.tdiv s.tileHeight * s.tileCols + x.tdiv s.tileWidth = ti
    generalize hoff : y.tmod s.tileHeight * s.tileWidth + x.tmod s.tileWidth = off
    unfold EnsureTextureInUseUnless
    by_cases hin : s.textureInUse ti = true
    · rw [if_pos hin, if_neg (by simp)]
      dsimp only
      cases hc : s.pixelCache ti with
      | none => exact Kept.same s
      | some buf =>
        dsimp only
        split
        · exact Kept.same s
        · refine Kept.of_touch s _ ti ?_ ?_ ?_
          · simp only [Function.update_same]
          · simp only [Function.update_same]; exact Option.some_ne_none _
          · intro t e
            exact ⟨rfl, Function.update_noteq e _ _, Function.update_noteq e _ _⟩
    · rw [if_neg hin]
      by_cases hcol : s.tileColor ti = color
      · rw [if_pos hcol, if_pos rfl]
        exact Kept.same s
      · rw [if_neg hcol, if_neg (by simp)]
        dsimp only
        have hin' : s.textureInUse ti = false := by simpa using hin
        obtain ⟨hd, ha, ho⟩ := EnsureTextureInUse_solid s ti hin'
        have hcache : (EnsureTextureInUse s ti).pixelCache ti =
            some (writeRun
              (match s.pixelCache ti with
                | none => List.replicate (s.tileWidth * s.tileHeight).toNat (Color.mk 0 0 0 0)
                | some buf => buf) 0 (s.tileWidth * s.tileHeight).toNat (s.tileColor ti)) := by
          unfold EnsureTextureInUse
          rw [if_neg hin]
          exact Function.update_same _ _ _
        have hpix : (match s.pixelCache ti with
            | none => List.replicate (s.tileWidth * s.tileHeight).toNat (Color.mk 0 0 0 0)
            | some buf => buf).length = (s.tileWidth * s.tileHeight).toNat := by
          cases hc : s.pixelCache ti with
          | none => simp
          | some buf => exact hw.alloc_size ti buf hc
        rw [hcache]
        dsimp only
        have hne : ¬ readBuf (writeRun
              (match s.pixelCache ti with
                | none => List.replicate (s.tileWidth * s.tileHeight).toNat (Color.mk 0 0 0 0)
                | some buf => buf) 0 (s.tileWidth * s.tileHeight).toNat (s.tileColor ti)) off =
            some color := by
          rw [readBuf_writeRun _ _ _ _ _ (le_refl 0) (by rw [hpix]; omega)]
          split
          · intro h; exact hcol (Option.some.inj h)
          · rename_i hr
            unfold readBuf
            split
            · exact fun h => by cases h
            · rw [List.getElem?_eq_none_iff.mpr (by rw [hpix]; omega)]
              exact fun h => by cases h
        rw [if_neg hne]
        refine Kept.of_touch s _ ti ?_ ?_ ?_
        · simp only [Function.update_same]
        · simp only [Function.update_same]; exact Option.some_ne_none _
        · intro t e
          refine ⟨(ho t e).1, ?_, ?_⟩
          · simp only [Function.update_noteq e, hd]
          · simp only [Function.update_noteq e]; exact (ho t e).2

theorem drawPixels_kept (color : Color) (pts : List (Int × Int)) (s : PixelDisplay)
    (hw : WellFormed s) : Kept s (drawPixels s pts color) := by
  unfold drawPixels
  exact (foldl_invariant (fun d => WellFormed d ∧ Kept s d) _ pts s
    (fun d p hd => ⟨SetPixel_wf d p.1 p.2 color hd.1,
      hd.2.then (SetPixel_kept d p.1 p.2 color hd.1)⟩) ⟨hw, Kept.same s⟩).2

theorem DrawLine_kept (s : PixelDisplay) (x1 y1 x2 y2 : Int) (color : Color)
    (hw : WellFormed s) : Kept s (DrawLine s x1 y1 x2 y2 color) := by
  rw [DrawLine_eq]
  exact drawPixels_kept color _ s hw

/-- A call of an operation on a well-formed display with a positive width and
height leaves such a display, with allocated buffers still allocated. -/
theorem Step.keeps {s s1 : PixelDisplay} (h : Step s s1)
    (hw : WellFormed s ∧ 0 < s.totalWidth ∧ 0 < s.totalHeight) :
    (WellFormed s1 ∧ 0 < s1.totalWidth ∧ 0 < s1.totalHeight) ∧ SameGeom s s1 ∧
      ∀ t, s.pixelCache t ≠ none → s1.pixelCache t ≠ none := by
  cases h with
  | clear c =>
    obtain ⟨g, _⟩ := Clear_spec s c
    exact ⟨⟨Clear_wf s c hw.1, by rw [g.1]; exact hw.2.1, by rw [g.2.1]; exact hw.2.2⟩, g,
      (Clear_kept s c).alloc⟩
  | setPixel x y c =>
    have g := SetPixel_geom s x y c hw.1
    exact ⟨⟨SetPixel_wf s x y c hw.1, by rw [g.1]; exact hw.2.1, by rw [g.2.1]; exact hw.2.2⟩, g,
      (SetPixel_kept s x y c hw.1).alloc⟩
  | drawLine x1 y1 x2 y2 c =>
    obtain ⟨g, w⟩ := DrawLine_wf s x1 y1 x2 y2 c hw.1
    exact ⟨⟨w, by rw [g.1]; exact hw.2.1, by rw [g.2.1]; exact hw.2.2⟩, g,
      (DrawLine_kept s x1 y1 x2 y2 c hw.1).alloc⟩
  | fillRect l b w h c =>
    obtain ⟨g, w1⟩ := FillRect_wf s l b w h c hw.1 hw.2.1.le hw.2.2.le
    exact ⟨⟨w1, by rw [g.1]; exact hw.2.1, by rw [g.2.1]; exact hw.2.2⟩, g,
      (FillRect_kept s l b w h c).alloc⟩
  | render tex locks =>
    obtain ⟨g, w⟩ := Render_wf s tex locks hw.1
    refine ⟨⟨w, by rw [g.1]; exact hw.2.1, by rw [g.2.1]; exact hw.2.2⟩, g, ?_⟩
    intro t ht
    rw [(Render_inv s tex locks).cache]
    exact ht

/-- After any number of calls, the allocated buffers are still allocated. -/
theorem Step.keeps_star {s s1 : PixelDisplay} (h : Relation.ReflTransGen Step s s1)
    (hw : WellFormed s ∧ 0 < s.totalWidth ∧ 0 < s.totalHeight) :
    (WellFormed s1 ∧ 0 < s1.totalWidth ∧ 0 < s1.totalHeight) ∧ SameGeom s s1 ∧
      ∀ t, s.pixelCache t ≠ none → s1.pixelCache t ≠ none := by
  induction h with
  | refl => exact ⟨hw, SameGeom.refl s, fun _ h => h⟩
  | tail _ hstep ih =>
    obtain ⟨w1, g1, a1⟩ := ih
    obtain ⟨w2, g2, a2⟩ := hstep.keeps w1
    exact ⟨w2, g1.trans g2, fun t h => a2 t (a1 t h)⟩

/-! ## The textures of clean tiles -/

/-- One pass of the inner loop of `Render`, when a successful lock reports a
row stride of at least `4 * tileWidth` bytes: the texture of a tile whose lock
has succeeded in the pass shows the buffer of the tile, and the texture of any
other tile is as it was before the pass. -/
theorem RenderTile_tex (s : PixelDisplay) (tex : Int → Int → Int → Color) (lock : Option Int)
    (destRect : SDL_Rect) (st : RenderState) (hw : WellFormed s)
    (hp : ∀ pitch, lock = some pitch → 4 * s.tileWidth ≤ pitch)
    (h : RenderInv s st ∧ (∀ t, (t, true) ∈ st.lockLog → TexMatches s st.tex t) ∧
      ∀ t, (t, true) ∉ st.lockLog → st.tex t = tex t) :
    RenderInv s (RenderTile lock destRect st) ∧
      (∀ t, (t, true) ∈ (RenderTile lock destRect st).lockLog →
        TexMatches s (RenderTile lock destRect st).tex t) ∧
      ∀ t, (t, true) ∉ (RenderTile lock destRect st).lockLog →
        (RenderTile lock destRect st).tex t = tex t := by
  obtain ⟨hi, hm, hk⟩ := h
  refine ⟨RenderTile_inv s lock destRect st hi, ?_⟩
  unfold RenderTile
  by_cases hin : st.disp.textureInUse st.i = true
  · rw [if_pos hin]
    by_cases hd : st.disp.tileNeedsUpdate st.i = true
    · rw [if_pos hd]
      cases lock with
      | none =>
        dsimp only
        constructor
        · intro t ht
          rcases List.mem_append.mp ht with h1 | h1
          · exact hm t h1
          · simp at h1
        · intro t ht
          exact hk t (fun h1 => ht (List.mem_append.mpr (Or.inl h1)))
      | some pitch =>
        dsimp only
        obtain ⟨g1, g2, g3, g4, g5, g6⟩ := hi.geom
        constructor
        · intro t ht
          by_cases e : t = st.i
          · intro buf hb x y hx0 hx1 hy0 hy1
            rw [e] at hb ⊢
            rw [Function.update_same]
            have hc : st.disp.pixelCache st.i = some buf := by rw [hi.cache]; exact hb
            rw [hc, Option.getD_some]
            have := RenderCopyRows_texel st.disp buf pitch (fun _ => 0)
              (by rw [g3]; exact hw.tileWidth_pos) (by rw [g4]; exact hw.tileHeight_pos)
              (by rw [g3, g4]; exact hw.alloc_size st.i buf hb)
              (by rw [g3]; exact hp pitch rfl) x y hx0 (by rw [g3]; exact hx1) hy0
              (by rw [g4]; exact hy1)
            rw [g3, g4] at this
            exact this
          · have hl : (t, true) ∈ st.lockLog := by
              rcases List.mem_append.mp ht with h1 | h1
              · exact h1
              · simp only [List.mem_singleton, Prod.mk.injEq] at h1
                exact absurd h1.1 e
            intro buf hb x y hx0 hx1 hy0 hy1
            rw [Function.update_noteq e]
            exact hm t hl buf hb x y hx0 hx1 hy0 hy1
        · intro t ht
          have e : t ≠ st.i := by
            intro e
            apply ht
            rw [e]
            exact List.mem_append.mpr (Or.inr (List.mem_singleton.mpr rfl))
          rw [Function.update_noteq e]
          exact hk t (fun h1 => ht (List.mem_append.mpr (Or.inl h1)))
    · rw [if_neg hd]
      exact ⟨hm, hk⟩
  · rw [if_neg hin]
    split
    · exact ⟨hm, hk⟩
    · exact ⟨hm, hk⟩

/-- At the end of a `Render` pass whose successful locks report a row stride of
at least `4 * tileWidth` bytes: the texture of a tile whose lock succeeded shows
the buffer of the tile, and the texture of any other tile is as before. -/
theorem Render_tex (s : PixelDisplay) (tex : Int → Int → Int → Color)
    (locks : Nat → Nat → Option Int) (hw : WellFormed s)
    (hp : ∀ row col pitch, locks row col = some pitch → 4 * s.tileWidth ≤ pitch) :
    (∀ t, (t, true) ∈ (Render s tex locks).lockLog → TexMatches s (Render s tex locks).tex t) ∧
      ∀ t, (t, true) ∉ (Render s tex locks).lockLog → (Render s tex locks).tex t = tex t := by
  have key : RenderInv s (Render s tex locks) ∧
      (∀ t, (t, true) ∈ (Render s tex locks).lockLog →
        TexMatches s (Render s tex locks).tex t) ∧
      ∀ t, (t, true) ∉ (Render s tex locks).lockLog → (Render s tex locks).tex t = tex t := by
    unfold Render
    refine foldl_invariant
      (fun st => RenderInv s st ∧ (∀ t, (t, true) ∈ st.lockLog → TexMatches s st.tex t) ∧
        ∀ t, (t, true) ∉ st.lockLog → st.tex t = tex t) _ _ _ ?_ ?_
    · intro d row hd
      unfold RenderRow
      exact foldl_invariant
        (fun st => RenderInv s st ∧ (∀ t, (t, true) ∈ st.lockLog → TexMatches s st.tex t) ∧
          ∀ t, (t, true) ∉ st.lockLog → st.tex t = tex t) _ _ _
        (fun e col he => RenderTile_tex s tex _ _ e hw (hp row col) he) hd
    · exact ⟨RenderInv.init s tex, fun t h => by simp at h, fun _ _ => rfl⟩
  exact key.2

/-- In every reachable state, the texture of a Materialized, clean tile shows
the pixel buffer of the tile. -/
theorem Reachable.clean_matches {s : PixelDisplay} {tex : Int → Int → Int → Color}
    (h : Reachable s tex) :
    ∀ t, s.textureInUse t = true → s.tileNeedsUpdate t = false → TexMatches s tex t := by
  have step : ∀ (s s1 : PixelDisplay) (tex : Int → Int → Int → Color), SameGeom s s1 →
      Kept s s1 →
      (∀ t, s.textureInUse t = true → s.tileNeedsUpdate t = false → TexMatches s tex t) →
      ∀ t, s1.textureInUse t = true → s1.tileNeedsUpdate t = false → TexMatches s1 tex t := by
    intro s s1 tex g k ih t h1 h2
    obtain ⟨a, b, c⟩ := k.clean t h1 h2
    intro buf hb x y hx0 hx1 hy0 hy1
    rw [g.2.2.1] at hx1
    rw [g.2.2.2.1] at hy1
    rw [g.2.2.1, g.2.2.2.1]
    rw [c] at hb
    exact ih t a b buf hb x y hx0 hx1 hy0 hy1
  induction h with
  | create w h tw th c tex hw hh htw hth =>
    intro t h1
    exfalso
    have := ((Clear_spec (AllocArrays w h tw th) c).2.2.2 t).1
    change (Clear (AllocArrays w h tw th) c).textureInUse t = true at h1
    rw [this] at h1
    split at h1
    · cases h1
    · cases h1
  | @clear s tex c hr ih =>
    exact step s _ tex (Clear_spec s c).1 (Clear_kept s c) ih
  | @setPixel s tex x y c hr ih =>
    have hw := (Reachable.wf hr).1
    exact step s _ tex (SetPixel_geom s x y c hw) (SetPixel_kept s x y c hw) ih
  | @drawLine s tex x1 y1 x2 y2 c hr ih =>
    have hw := (Reachable.wf hr).1
    exact step s _ tex (DrawLine_wf s x1 y1 x2 y2 c hw).1 (DrawLine_kept s x1 y1 x2 y2 c hw) ih
  | @fillRect s tex l b w h c hr ih =>
    have hw := Reachable.wf hr
    exact step s _ tex (FillRect_wf s l b w h c hw.1 hw.2.1.le hw.2.2.le).1
      (FillRect_kept s l b w h c) ih
  | @render s tex locks hp hr ih =>
    have hw := (Reachable.wf hr).1
    have hi := Render_inv s tex locks
    obtain ⟨hm, hk⟩ := Render_tex s tex locks hw hp
    obtain ⟨g1, g2, g3, g4, g5, g6⟩ := hi.geom
    intro t h1 h2 buf hb x y hx0 hx1 hy0 hy1
    rw [hi.inUse] at h1
    rw [hi.cache] at hb
    rw [g3] at hx1
    rw [g4] at hy1
    rw [g3, g4]
    by_cases hl : (t, true) ∈ (Render s tex locks).lockLog
    · exact hm t hl buf hb x y hx0 hx1 hy0 hy1
    · rw [hi.kept t hl] at h2
      rw [hk t hl]
      exact ih t h1 h2 buf hb x y hx0 hx1 hy0 hy1

/-- The drawn 8 x 8 display is reachable. -/
theorem demoDrawn_reachable : Reachable demoDrawn demoTex :=
  Reachable.setPixel 7 7 demoRed (Reachable.setPixel 0 0 demoRed
    (Reachable.create 8 8 4 4 demoBlack demoTex (by decide) (by decide) (by decide) (by decide)))

/-- The drawn 8 x 8 display after a `Render` pass is reachable. -/
theorem demoRendered_reachable : Reachable demoRendered.disp demoRendered.tex :=
  Reachable.render demoLocksOk
    (fun _ _ pitch h => by
      have e : pitch = 16 := (Option.some.inj h).symm
      rw [e]
      decide)
    demoDrawn_reachable

/-! ## The array accesses of `FillRect` are within the arrays -/

/-- A row-major index of a cell of the grid is within the grid. -/
theorem rowMajor_range {C R r c : Int} (hr0 : 0 ≤ r) (hr1 : r < R) (hc0 : 0 ≤ c)
    (hc1 : c < C) : 0 ≤ r * C + c ∧ r * C + c < C * R := by
  have hC : 0 < C := by omega
  have h1 := Int.mul_nonneg hr0 hC.le
  have h2 : (r + 1) * C ≤ R * C := Int.mul_le_mul_of_nonneg_right (by omega) hC.le
  rw [Int.add_mul, Int.mul_comm R] at h2
  omega

theorem InArrays.of_geom {s s1 : PixelDisplay} (g : SameGeom s s1) (w : Int × List Int)
    (h : InArrays s1 w) : InArrays s w := by
  obtain ⟨_, _, g3, g4, g5, g6⟩ := g
  unfold InArrays at h ⊢
  rw [g3, g4, g5, g6] at h
  exact h

/-- The tile range that `TileRangeWithin` reports with `true` is within the grid. -/
theorem TileRangeWithin_bounds (s : PixelDisplay) (rect : SDL_Rect)
    (h : (TileRangeWithin s rect).ok = true) :
    (0 ≤ (TileRangeWithin s rect).tileCol0 ∧
      (TileRangeWithin s rect).tileCol1 ≤ s.tileCols - 1) ∧
    (0 ≤ (TileRangeWithin s rect).tileRow0 ∧
      (TileRangeWithin s rect).tileRow1 ≤ s.tileRows - 1) := by
  unfold TileRangeWithin at h ⊢
  simp only at h ⊢
  generalize ceilDiv rect.x s.tileWidth = c0 at h ⊢
  generalize (rect.x + rect.w + 1).tdiv s.tileWidth - 1 = c1 at h ⊢
  generalize ceilDiv rect.y s.tileHeight = r0 at h ⊢
  generalize (rect.y + rect.h + 1).tdiv s.tileHeight - 1 = r1 at h ⊢
  generalize s.tileCols - 1 = mc at h ⊢
  generalize s.tileRows - 1 = mr at h ⊢
  split_ifs at h ⊢ <;> first | contradiction | (simp at h; omega)

theorem FillRectBulkWrites_in (s : PixelDisplay) (c0 c1 r0 r1 : Int) (hc0 : 0 ≤ c0)
    (hc1 : c1 ≤ s.tileCols - 1) (hr0 : 0 ≤ r0) (hr1 : r1 ≤ s.tileRows - 1) :
    ∀ w ∈ FillRectBulkWrites s c0 c1 r0 r1, InArrays s w := by
  intro w hw
  unfold FillRectBulkWrites at hw
  simp only [List.mem_flatMap, List.mem_map, List.mem_range] at hw
  obtain ⟨i, hi, j, hj, rfl⟩ := hw
  refine ⟨rowMajor_range (by omega) (by omega) (by omega) (by omega), ?_⟩
  intro off hoff
  simp at hoff

/-- The accesses of one pass of the loop of `SetPixelRun`, entered with `x` in
tile column `col` and `x < x1 ≤ totalWidth`, are within the arrays. -/
theorem SetPixelRunBodyWrites_in (s : PixelDisplay) (x1 row localY : Int) (color : Color)
    (x col : Int) (hw : WellFormed s) (hrow0 : 0 ≤ row) (hrow1 : row < s.tileRows)
    (hly0 : 0 ≤ localY) (hly1 : localY < s.tileHeight) (hcol : 0 ≤ col)
    (hx0 : col * s.tileWidth ≤ x) (hx1 : x < (col + 1) * s.tileWidth) (hx : x < x1)
    (hW : x1 ≤ s.totalWidth) :
    InArrays s (SetPixelRunBodyWrites s x1 row localY color x col) := by
  have htw := hw.tileWidth_pos
  have hth := hw.tileHeight_pos
  have hcw : 0 ≤ col * s.tileWidth := Int.mul_nonneg hcol htw.le
  have hxn : 0 ≤ x := by omega
  have hq : x / s.tileWidth = col := ediv_eq_of_bounds htw hx0 hx1
  have hcC : col < s.tileCols := by
    rw [hw.cols_eq, ← hq]
    exact ediv_lt_ceilDiv htw hxn (by omega)
  have hm : x.tmod s.tileWidth = x - col * s.tileWidth := by
    have hlx := divmod_spec x s.tileWidth htw
    rw [hq] at hlx
    rw [tmod_of_nonneg hxn htw]; omega
  have hend1 : (if (col + 1) * s.tileWidth > x1 then x1 else (col + 1) * s.tileWidth) ≤
      (col + 1) * s.tileWidth := by
    split <;> omega
  have hcw1 : (col + 1) * s.tileWidth = col * s.tileWidth + s.tileWidth := by ring
  have hrows : (localY + 1) * s.tileWidth ≤ s.tileHeight * s.tileWidth :=
    Int.mul_le_mul_of_nonneg_right (by omega) htw.le
  have hrows1 : (localY + 1) * s.tileWidth = localY * s.tileWidth + s.tileWidth := by ring
  have hcomm : s.tileHeight * s.tileWidth = s.tileWidth * s.tileHeight := Int.mul_comm _ _
  have hly : 0 ≤ localY * s.tileWidth := Int.mul_nonneg hly0 htw.le
  unfold SetPixelRunBodyWrites
  simp only
  generalize (if (col + 1) * s.tileWidth > x1 then x1 else (col + 1) * s.tileWidth) = endX
    at hend1 ⊢
  refine ⟨rowMajor_range hrow0 hrow1 hcol hcC, ?_⟩
  intro off hoff
  rcases List.mem_append.mp hoff with h | h
  · unfold EnsureTextureInUseOffsets at h
    split_ifs at h
    · simp at h
    · simp at h
    · simp only [List.mem_map, List.mem_range] at h
      obtain ⟨i, hi, rfl⟩ := h
      omega
  · split_ifs at h
    · simp only [List.mem_map, List.mem_range] at h
      obtain ⟨j, hj, rfl⟩ := h
      rw [hm]
      omega
    · simp at h

theorem SetPixelRunLoopWrites_in (x1 row localY : Int) (color : Color) (fuel : Nat) :
    ∀ (x col : Int) (s : PixelDisplay), WellFormed s → 0 ≤ row → row < s.tileRows →
      0 ≤ localY → localY < s.tileHeight → x1 ≤ s.totalWidth → 0 ≤ col →
      col * s.tileWidth ≤ x → x < (col + 1) * s.tileWidth →
      ∀ w ∈ SetPixelRunLoopWrites x1 row localY color fuel x col s, InArrays s w := by
  induction fuel with
  | zero => intro x col s _ _ _ _ _ _ _ _ _ w h; simp [SetPixelRunLoopWrites] at h
  | succ fuel ih =>
    intro x col s hw hrow0 hrow1 hly0 hly1 hW hcol hx0 hx1 w h
    unfold SetPixelRunLoopWrites at h
    by_cases hx : x < x1
    · rw [if_pos hx] at h
      rcases List.mem_cons.mp h with h | h
      · rw [h]
        exact SetPixelRunBodyWrites_in s x1 row localY color x col hw hrow0 hrow1 hly0 hly1
          hcol hx0 hx1 hx hW
      · have hstep := SetPixelRunBody_step s x1 row localY color x col hw hly0 hly1 hcol hx0 hx1 hx
        obtain ⟨g1, g2, g3, g4, g5, g6⟩ := hstep.geom
        refine InArrays.of_geom hstep.geom w ?_
        refine ih ((col + 1) * s.tileWidth) (col + 1)
          (SetPixelRunBody s x1 row localY color x col) hstep.wf hrow0 (by rw [g6]; exact hrow1) hly0 (by rw [g4]; exact hly1)
          (by rw [g1]; exact hW) (by omega) ?_ ?_ w ?_
        · rw [g3]
        · rw [g3, Int.add_mul (col + 1)]; have := hw.tileWidth_pos; omega
        · exact h
    · rw [if_neg hx] at h
      simp at h

theorem SetPixelRunWrites_in (s : PixelDisplay) (x0 x1 y : Int) (color : Color)
    (hw : WellFormed s) (hy0 : 0 ≤ y) (hy1 : y < s.totalHeight) (hx0 : 0 ≤ x0)
    (hx1 : x1 ≤ s.totalWidth) :
    ∀ w ∈ SetPixelRunWrites s x0 x1 y color, InArrays s w := by
  have htw := hw.tileWidth_pos
  have hth := hw.tileHeight_pos
  have hlx := divmod_spec x0 s.tileWidth htw
  have hly := divmod_spec y s.tileHeight hth
  unfold SetPixelRunWrites
  simp only [tdiv_of_nonneg hx0 htw, tdiv_of_nonneg hy0 hth]
  refine SetPixelRunLoopWrites_in x1 _ _ color _ x0 _ s hw (Int.ediv_nonneg hy0 hth.le) ?_
    (by omega) (by omega) hx1 (Int.ediv_nonneg hx0 htw.le) (by omega)
    (by rw [Int.add_mul]; omega)
  rw [hw.rows_eq]
  exact ediv_lt_ceilDiv hth hy0 hy1

theorem FillRectRowsWrites_in (s : PixelDisplay) (x0 x1 y0 y1 : Int) (color : Color)
    (hw : WellFormed s) (hx0 : 0 ≤ x0) (hx1 : x1 ≤ s.totalWidth) (hy0 : 0 ≤ y0)
    (hy1 : y1 ≤ s.totalHeight) :
    ∀ w ∈ FillRectRowsWrites s x0 x1 y0 y1 color, InArrays s w := by
  unfold FillRectRowsWrites
  have key : ∀ n : Nat, n ≤ (y1 - y0).toNat →
      SameGeom s ((List.range n).foldl
        (fun (v : PixelDisplay × List (Int × List Int)) (i : Nat) =>
          (SetPixelRun v.1 x0 x1 (y0 + (i : Int)) color,
            v.2 ++ SetPixelRunWrites v.1 x0 x1 (y0 + (i : Int)) color)) (s, [])).1 ∧
      WellFormed ((List.range n).foldl
        (fun (v : PixelDisplay × List (Int × List Int)) (i : Nat) =>
          (SetPixelRun v.1 x0 x1 (y0 + (i : Int)) color,
            v.2 ++ SetPixelRunWrites v.1 x0 x1 (y0 + (i : Int)) color)) (s, [])).1 ∧
      ∀ w ∈ ((List.range n).foldl
        (fun (v : PixelDisplay × List (Int × List Int)) (i : Nat) =>
          (SetPixelRun v.1 x0 x1 (y0 + (i : Int)) color,
            v.2 ++ SetPixelRunWrites v.1 x0 x1 (y0 + (i : Int)) color)) (s, [])).2,
        InArrays s w := by
    intro n
    induction n with
    | zero => intro _; exact ⟨SameGeom.refl s, hw, fun w h => by simp at h⟩
    | succ n ih =>
      intro hn
      obtain ⟨g, w1, a⟩ := ih (by omega)
      rw [List.range_succ, List.foldl_append, List.foldl_cons, List.foldl_nil]
      generalize (List.range n).foldl
        (fun (v : PixelDisplay × List (Int × List Int)) (i : Nat) =>
          (SetPixelRun v.1 x0 x1 (y0 + (i : Int)) color,
            v.2 ++ SetPixelRunWrites v.1 x0 x1 (y0 + (i : Int)) color)) (s, []) = v at g w1 a ⊢
      have hy : y0 + (n : Int) < v.1.totalHeight := by rw [g.2.1]; omega
      obtain ⟨g2, w2, _⟩ := SetPixelRun_spec v.1 x0 x1 (y0 + (n : Int)) color w1 (by omega) hy
        hx0 (by rw [g.1]; exact hx1)
      refine ⟨g.trans g2, w2, ?_⟩
      intro w hmem
      rcases List.mem_append.mp hmem with h | h
      · exact a w h
      · exact InArrays.of_geom g w
          (SetPixelRunWrites_in v.1 x0 x1 (y0 + (n : Int)) color w1 (by omega) hy hx0
            (by rw [g.1]; exact hx1) w h)
  exact (key _ (le_refl _)).2.2

/-- The fuel of the loop of `SetPixelRun` does not cut its accesses short: from
the state in which `SetPixelRun` enters the loop, any larger amount of fuel
gives the same accesses. -/
theorem SetPixelRunLoopWrites_fuel (x1 row localY : Int) (color : Color) (fuel : Nat) :
    ∀ (x col : Int) (s : PixelDisplay), 0 < s.tileWidth → x < (col + 1) * s.tileWidth →
      (x1 - x).toNat ≤ fuel → ∀ k : Nat,
      SetPixelRunLoopWrites x1 row localY color (fuel + k) x col s =
        SetPixelRunLoopWrites x1 row localY color fuel x col s := by
  induction fuel with
  | zero =>
    intro x col s _ _ hf k
    cases k with
    | zero => rfl
    | succ k =>
      rw [show 0 + (k + 1) = k + 1 by omega]
      unfold SetPixelRunLoopWrites
      rw [if_neg (by omega)]
  | succ fuel ih =>
    intro x col s htw hx1 hf k
    rw [show fuel + 1 + k = (fuel + k) + 1 by omega]
    unfold SetPixelRunLoopWrites
    by_cases hx : x < x1
    · rw [if_pos hx, if_pos hx]
      have hg : (SetPixelRunBody s x1 row localY color x col).tileWidth = s.tileWidth := by
        unfold SetPixelRunBody EnsureTextureInUseUnless EnsureTextureInUse
        simp only
        split_ifs <;> first | rfl | (split <;> rfl)
      rw [ih ((col + 1) * s.tileWidth) (col + 1) _ (by rw [hg]; exact htw)
        (by rw [hg, Int.add_mul (col + 1)]; omega) (by omega) k]
    · rw [if_neg hx, if_neg hx]

/-! ## The point-in-ellipse test on arguments where `float` arithmetic is exact -/

/-- A rational `m / 2 ^ j` with `|m| < 2 ^ 24` and `j ≤ 100` is a value of `float32`. -/
theorem float32_eq_some (q : ℚ) (m : Int) (j : Nat) (hq : q = (m : ℚ) / ((2 ^ j : Nat) : ℚ))
    (hm : m.natAbs < 2 ^ 24) (hj : j ≤ 100) : float32 q = some q := by
  unfold float32
  rw [if_pos]
  have hq' : q = Rat.divInt m ((2 ^ j : Nat) : Int) := by
    rw [hq, Rat.divInt_eq_div]; norm_cast
  have hne : (((2 ^ j : Nat) : Int)) ≠ 0 := by positivity
  constructor
  · have h1 : ((q.den : Int)) ∣ ((2 ^ j : Nat) : Int) := by rw [hq']; exact Rat.den_dvd m _
    have h2 : q.den ∣ 2 ^ j := Int.natCast_dvd_natCast.mp h1
    exact h2.trans (Nat.pow_dvd_pow 2 hj)
  · by_cases h0 : m = 0
    · rw [hq, h0]; simp
    · have h1 : q.num ∣ m := by
        rw [hq']
        exact Rat.num_dvd m hne
      have h2 : q.num.natAbs ∣ m.natAbs := Int.natAbs_dvd_natAbs.mpr h1
      have h3 : q.num.natAbs ≤ m.natAbs := Nat.le_of_dvd (by omega) h2
      omega

/-- An integer below `2 ^ 24` in absolute value is converted to `float` exactly. -/
theorem float32_int (n : Int) (hn : n.natAbs < 2 ^ 24) : float32 (n : ℚ) = some (n : ℚ) :=
  float32_eq_some _ n 0 (by simp) hn (by decide)

/-- A term of `IsPointWithinEllipse` is computed exactly when the half extent is a
power of two `h ≤ 2 ^ 11`, the coordinates are below `2 ^ 24` in absolute value
and the distance to the centre is below `2 ^ 12`. -/
theorem ellipseTerm_exact (p origin extent : Int) (k : Nat) (hk : k ≤ 11)
    (he : extent.tdiv 2 = ((2 ^ k : Nat) : Int)) (hp : p.natAbs < 2 ^ 24)
    (ho : origin.natAbs < 2 ^ 24) (hc : (origin + ((2 ^ k : Nat) : Int)).natAbs < 2 ^ 24)
    (hd : (p - (origin + ((2 ^ k : Nat) : Int))).natAbs < 2 ^ 12) :
    ellipseTerm p origin extent =
      some ((((p - (origin + ((2 ^ k : Nat) : Int))) ^ 2 : Int) : ℚ) /
        ((2 ^ (2 * k) : Nat) : ℚ)) := by
  have hpow : (2 : Nat) ^ k ≤ 2 ^ 11 := Nat.pow_le_pow_right (by decide) hk
  have hk2 : (2 : Nat) ^ (2 * k) ≤ 2 ^ 22 := Nat.pow_le_pow_right (by decide) (by omega)
  generalize hH : ((2 ^ k : Nat) : Int) = H at he hc hd ⊢
  have hHabs : H.natAbs < 2 ^ 24 := by
    rw [← hH, Int.natAbs_ofNat]
    calc 2 ^ k ≤ 2 ^ 11 := hpow
      _ < 2 ^ 24 := by decide
  have f1 := float32_int p hp
  have f2 : float32 ((extent.tdiv 2 : Int) : ℚ) = some (H : ℚ) := by
    rw [he]; exact float32_int H hHabs
  have f3 := float32_int origin ho
  have f4 : float32 ((origin : ℚ) + (H : ℚ)) = some ((origin + H : Int) : ℚ) := by
    rw [← Int.cast_add]; exact float32_int _ hc
  have f5 : float32 ((p : ℚ) - ((origin + H : Int) : ℚ)) =
      some ((p - (origin + H) : Int) : ℚ) := by
    rw [← Int.cast_sub]
    exact float32_int _ (lt_trans hd (by decide))
  have hsq : ((p - (origin + H)) ^ 2).natAbs < 2 ^ 24 := by
    rw [Int.natAbs_pow]
    exact Nat.pow_lt_pow_left hd (by decide)
  have f6 : float32 (((p - (origin + H) : Int) : ℚ) * ((p - (origin + H) : Int) : ℚ)) =
      some (((p - (origin + H)) ^ 2 : Int) : ℚ) := by
    rw [← Int.cast_mul, ← pow_two]
    exact float32_int _ hsq
  have e7 : (H : ℚ) * (H : ℚ) = (((2 ^ (2 * k) : Nat) : Int) : ℚ) := by
    rw [← hH]; push_cast; ring
  have f7 : float32 ((H : ℚ) * (H : ℚ)) = some ((2 ^ (2 * k) : Nat) : ℚ) := by
    rw [e7]
    have := float32_int ((2 ^ (2 * k) : Nat) : Int)
      (by rw [Int.natAbs_ofNat]; exact lt_of_le_of_lt hk2 (by decide))
    rw [this]
    norm_cast
  have hne : ((2 ^ (2 * k) : Nat) : ℚ) ≠ 0 := by positivity
  have f8 : float32 ((((p - (origin + H)) ^ 2 : Int) : ℚ) / ((2 ^ (2 * k) : Nat) : ℚ)) =
      some ((((p - (origin + H)) ^ 2 : Int) : ℚ) / ((2 ^ (2 * k) : Nat) : ℚ)) :=
    float32_eq_some _ _ (2 * k) rfl hsq (by omega)
  unfold ellipseTerm
  rw [f1, Option.some_bind, f2, Option.some_bind, f3, Option.some_bind, f4, Option.some_bind,
    f5, Option.some_bind, f6, Option.some_bind, f7, Option.some_bind, if_neg hne, f8]

/-- On a rectangle whose half width and half height, as `IsPointWithinEllipse`
computes them, are the same power of two `2 ^ k`, and at a point at a moderate
distance from the centre, every `float` operation of the test is exact and the
test is the comparison of integers `dx ^ 2 + dy ^ 2 ≤ (2 ^ k) ^ 2`, where
`dx = x - (ellipse->x + 2 ^ k)` and `dy = y - (ellipse->y + 2 ^ k)`. -/
theorem IsPointWithinEllipse_exact (x y : Int) (ellipse : SDL_Rect) (k : Nat) (hk : k ≤ 11)
    (hw : ellipse.w.tdiv 2 = ((2 ^ k : Nat) : Int))
    (hh : ellipse.h.tdiv 2 = ((2 ^ k : Nat) : Int))
    (hx : x.natAbs < 2 ^ 24) (hy : y.natAbs < 2 ^ 24)
    (hox : ellipse.x.natAbs < 2 ^ 24) (hoy : ellipse.y.natAbs < 2 ^ 24)
    (hcx : (ellipse.x + ((2 ^ k : Nat) : Int)).natAbs < 2 ^ 24)
    (hcy : (ellipse.y + ((2 ^ k : Nat) : Int)).natAbs < 2 ^ 24)
    (hdx : (x - (ellipse.x + ((2 ^ k : Nat) : Int))).natAbs < 2 ^ 11)
    (hdy : (y - (ellipse.y + ((2 ^ k : Nat) : Int))).natAbs < 2 ^ 11) :
    IsPointWithinEllipse x y ellipse =
      some (decide ((x - (ellipse.x + ((2 ^ k : Nat) : Int))) ^ 2 +
        (y - (ellipse.y + ((2 ^ k : Nat) : Int))) ^ 2 ≤ ((2 ^ (2 * k) : Nat) : Int))) := by
  have t1 := ellipseTerm_exact x ellipse.x ellipse.w k hk hw hx hox hcx
    (lt_trans hdx (by decide))
  have t2 := ellipseTerm_exact y ellipse.y ellipse.h k hk hh hy hoy hcy
    (lt_trans hdy (by decide))
  generalize x - (ellipse.x + ((2 ^ k : Nat) : Int)) = dx at hdx t1 ⊢
  generalize y - (ellipse.y + ((2 ^ k : Nat) : Int)) = dy at hdy t2 ⊢
  have hpos : (0 : ℚ) < ((2 ^ (2 * k) : Nat) : ℚ) := by positivity
  have hsum : (dx ^ 2 + dy ^ 2).natAbs < 2 ^ 24 := by
    have h1 : dx.natAbs ^ 2 < (2 ^ 11) ^ 2 := Nat.pow_lt_pow_left hdx (by decide)
    have h2 : dy.natAbs ^ 2 < (2 ^ 11) ^ 2 := Nat.pow_lt_pow_left hdy (by decide)
    have h3 : (dx ^ 2 + dy ^ 2).natAbs ≤ (dx ^ 2).natAbs + (dy ^ 2).natAbs :=
      Int.natAbs_add_le _ _
    rw [Int.natAbs_pow, Int.natAbs_pow] at h3
    have h4 : ((2 : Nat) ^ 11) ^ 2 + (2 ^ 11) ^ 2 ≤ 2 ^ 24 := by decide
    omega
  have e : ((dx ^ 2 : Int) : ℚ) / ((2 ^ (2 * k) : Nat) : ℚ) +
      ((dy ^ 2 : Int) : ℚ) / ((2 ^ (2 * k) : Nat) : ℚ) =
      ((dx ^ 2 + dy ^ 2 : Int) : ℚ) / ((2 ^ (2 * k) : Nat) : ℚ) := by
    rw [← add_div, ← Int.cast_add]
  have f : float32 (((dx ^ 2 + dy ^ 2 : Int) : ℚ) / ((2 ^ (2 * k) : Nat) : ℚ)) =
      some (((dx ^ 2 + dy ^ 2 : Int) : ℚ) / ((2 ^ (2 * k) : Nat) : ℚ)) :=
    float32_eq_some _ _ (2 * k) rfl hsum (by omega)
  unfold IsPointWithinEllipse
  rw [t1, Option.some_bind, t2, Option.some_bind, e, f, Option.some_bind]
  congr 1
  rw [decide_eq_decide, div_le_one hpos]
  constructor
  · intro h; exact_mod_cast h
  · intro h; exact_mod_cast h

/-! ### A tile that is Solid in the colour drawn stays so in `SetPixelRun` -/

theorem SetPixelRunBody_solid (s : PixelDisplay) (x1 row localY : Int) (color : Color)
    (x col t : Int) (h1 : s.textureInUse t = false) (h2 : s.tileColor t = color) :
    (SetPixelRunBody s x1 row localY color x col).textureInUse t = false ∧
      (SetPixelRunBody s x1 row localY color x col).tileColor t = color := by
  unfold SetPixelRunBody EnsureTextureInUseUnless
  simp only
  by_cases hin : s.textureInUse (row * s.tileCols + col) = true
  · rw [if_pos hin, if_pos rfl]
    dsimp only
    split
    · exact ⟨h1, h2⟩
    · exact ⟨h1, h2⟩
  · rw [if_neg hin]
    by_cases hcol : s.tileColor (row * s.tileCols + col) = color
    · rw [if_pos hcol, if_neg (by simp)]
      exact ⟨h1, h2⟩
    · rw [if_neg hcol, if_pos rfl]
      dsimp only
      have e : t ≠ row * s.tileCols + col := by
        intro e; rw [e] at h2; exact hcol h2
      have k1 : (EnsureTextureInUse s (row * s.tileCols + col)).textureInUse t = false := by
        rw [((EnsureTextureInUse_solid s _ (by simpa using hin)).2.2 t e).1]; exact h1
      have k2 : (EnsureTextureInUse s (row * s.tileCols + col)).tileColor t = color := by
        unfold EnsureTextureInUse
        rw [if_neg hin]
        exact h2
      split
      · exact ⟨k1, k2⟩
      · exact ⟨k1, k2⟩

theorem SetPixelRunLoop_solid (x1 row localY : Int) (color : Color) (t : Int) (fuel : Nat) :
    ∀ (x col : Int) (s : PixelDisplay), s.textureInUse t = false → s.tileColor t = color →
      (SetPixelRunLoop x1 row localY color fuel x col s).textureInUse t = false ∧
        (SetPixelRunLoop x1 row localY color fuel x col s).tileColor t = color := by
  induction fuel with
  | zero => intro x col s h1 h2; exact ⟨h1, h2⟩
  | succ fuel ih =>
    intro x col s h1 h2
    unfold SetPixelRunLoop
    split
    · obtain ⟨a, b⟩ := SetPixelRunBody_solid s x1 row localY color x col t h1 h2
      exact ih _ _ _ a b
    · exact ⟨h1, h2⟩

/-- The row loop of `FillEllipse` leaves a tile that is Solid in the colour
drawn as it is, whatever chords it draws. -/
theorem FillEllipseRows_solid (F : EllipseFloat) (s : PixelDisplay) (rect : SDL_Rect)
    (y0 y1 : Int) (color : Color) (t : Int) (h1 : s.textureInUse t = false)
    (h2 : s.tileColor t = color) :
    (FillEllipseRows F s rect y0 y1 color).textureInUse t = false ∧
      (FillEllipseRows F s rect y0 y1 color).tileColor t = color := by
  unfold FillEllipseRows
  exact foldl_invariant (fun d => d.textureInUse t = false ∧ d.tileColor t = color) _ _ _
    (fun d i hd => SetPixelRunLoop_solid _ _ _ color t _ _ _ d hd.1 hd.2) ⟨h1, h2⟩

/-- The bulk phase of `FillEllipse` over a range of one tile. -/
theorem FillEllipseBulk_single (F : EllipseFloat) (s : PixelDisplay) (rect : SDL_Rect)
    (c r : Int) (color : Color) :
    FillEllipseBulk F s rect c c r r color =
      if IsTileWithinEllipse F s c r rect then setSolid s (r * s.tileCols + c) color else s := by
  unfold FillEllipseBulk
  simp [List.range_succ]

/-! ### The ellipse in the rectangle `(41, 49, 129, 129)` and the tile `(1, 1)` of `demoSurface` -/

/-- The `float` test accepts each of the four corners `(64, 64)`, `(128, 64)`,
`(128, 128)`, `(64, 128)` of tile `(1, 1)`, every operation being exact: the
integer divisions `129 / 2` give the half extents 64 and the centre `(105, 113)`. -/
theorem demoCorners_within :
    IsPointWithinEllipse 64 64 (SDL_Rect.mk 41 49 129 129) = some true ∧
      IsPointWithinEllipse 128 64 (SDL_Rect.mk 41 49 129 129) = some true ∧
      IsPointWithinEllipse 128 128 (SDL_Rect.mk 41 49 129 129) = some true ∧
      IsPointWithinEllipse 64 128 (SDL_Rect.mk 41 49 129 129) = some true :=
  ⟨IsPointWithinEllipse_exact 64 64 (SDL_Rect.mk 41 49 129 129) 6 (by decide) (by decide)
      (by decide) (by decide) (by decide) (by decide) (by decide) (by decide) (by decide)
      (by decide) (by decide),
    IsPointWithinEllipse_exact 128 64 (SDL_Rect.mk 41 49 129 129) 6 (by decide) (by decide)
      (by decide) (by decide) (by decide) (by decide) (by decide) (by decide) (by decide)
      (by decide) (by decide),
    IsPointWithinEllipse_exact 128 128 (SDL_Rect.mk 41 49 129 129) 6 (by decide) (by decide)
      (by decide) (by decide) (by decide) (by decide) (by decide) (by decide) (by decide)
      (by decide) (by decide),
    IsPointWithinEllipse_exact 64 128 (SDL_Rect.mk 41 49 129 129) 6 (by decide) (by decide)
      (by decide) (by decide) (by decide) (by decide) (by decide) (by decide) (by decide)
      (by decide) (by decide)⟩

/-- With the `float` results of the four corner tests, `IsTileWithinEllipse`
accepts tile `(1, 1)` of `demoSurface`. -/
theorem demoTile_within (X0 X1 : SDL_Rect → Int → Int) :
    IsTileWithinEllipse
      { IsPointWithinEllipse := demoExactFloat.IsPointWithinEllipse, chordX0 := X0, chordX1 := X1 }
      demoSurface 1 1 (SDL_Rect.mk 41 49 129 129) = true := by
  obtain ⟨c1, c2, c3, c4⟩ := demoCorners_within
  have hw : demoSurface.tileWidth = 64 := by decide
  have hh : demoSurface.tileHeight = 64 := by decide
  unfold IsTileWithinEllipse demoExactFloat
  simp only [hw, hh]
  norm_num [c1, c2, c3, c4]

/-! ## Claims C1 to C3: `SetPixel` and `Clear` -/

/-- C1. For every well-formed surface state, every in-bounds `(x, y)` and every
colour `c`, the logical pixel at `(x, y)` reads `c` after `SetPixel(x, y, c)`; the
logical pixel (`pixelAt`) is the buffer entry
`pixelCache[t][(y % tileHeight) * tileWidth + x % tileWidth]` of tile
`t = (y / tileHeight) * tileCols + x / tileWidth` when `textureInUse[t]`, and
`tileColor[t]` otherwise. -/
theorem setPixel_reads_back (s : PixelDisplay) (x y : Int) (c : Color)
    (hw : WellFormed s) (hb : inBounds s x y) :
    pixelAt (SetPixel s x y c) x y = some c := by
  rw [SetPixel_pixelAt s x y c hw x y hb, if_pos ⟨rfl, rfl⟩]

/-- An instance of C1 on the 8 x 8 display: pixel `(5, 6)` set to red. -/
theorem setPixel_reads_back_witness :
    WellFormed demoDisplay ∧ inBounds demoDisplay 5 6 ∧
      pixelAt (SetPixel demoDisplay 5 6 demoRed) 5 6 = some demoRed :=
  ⟨create_wf 8 8 4 4 demoBlack (by decide) (by decide), by decide,
    setPixel_reads_back demoDisplay 5 6 demoRed
      (create_wf 8 8 4 4 demoBlack (by decide) (by decide)) (by decide)⟩

/-- C2. For every `(x, y)` with `x < 0`, `y < 0`, `x >= totalWidth` or
`y >= totalHeight` and every colour, `SetPixel` returns the state it was given:
no flag, tile colour or pixel buffer is modified. -/
theorem setPixel_out_of_bounds_unchanged (s : PixelDisplay) (x y : Int) (c : Color)
    (h : x < 0 ∨ y < 0 ∨ x ≥ s.totalWidth ∨ y ≥ s.totalHeight) :
    SetPixel s x y c = s := by
  unfold SetPixel
  rw [if_pos h]

/-- An instance of C2 on the 8 x 8 display: `x = 8` is one past the last column. -/
theorem setPixel_out_of_bounds_unchanged_witness :
    SetPixel demoDisplay 8 3 demoRed = demoDisplay :=
  setPixel_out_of_bounds_unchanged demoDisplay 8 3 demoRed (by decide)

/-- C3. For every well-formed surface state and colour `c`, after `Clear(c)` every
tile (index `0 ≤ t < tileCols * tileRows`) is Solid (`textureInUse` false) with
tile colour `c`, and every in-bounds logical pixel reads `c`. -/
theorem clear_makes_all_solid (s : PixelDisplay) (c : Color) (hw : WellFormed s) :
    (∀ t : Int, 0 ≤ t → t < s.tileCols * s.tileRows →
      (Clear s c).textureInUse t = false ∧ (Clear s c).tileColor t = c) ∧
    (∀ x y : Int, inBounds s x y → pixelAt (Clear s c) x y = some c) := by
  obtain ⟨⟨g1, g2, g3, g4, g5, g6⟩, _, _, ht⟩ := Clear_spec s c
  have key : ∀ t : Int, 0 ≤ t → t < s.tileCols * s.tileRows →
      (Clear s c).textureInUse t = false ∧ (Clear s c).tileColor t = c := by
    intro t h0 h1
    obtain ⟨a, b⟩ := ht t
    rw [a, b, if_pos ⟨h0, h1⟩, if_pos ⟨h0, h1⟩]
    exact ⟨rfl, rfl⟩
  refine ⟨key, ?_⟩
  intro x y hb
  obtain ⟨r0, r1⟩ := tileIndex_range s x y hw hb
  obtain ⟨a, b⟩ := key _ r0 r1
  unfold pixelAt
  simp only [g3, g4, g5, a, b]
  rfl

/-- An instance of C3: clearing the 8 x 8 display, one pixel of which was drawn, to red. -/
theorem clear_makes_all_solid_witness :
    WellFormed (SetPixel demoDisplay 1 1 demoRed) ∧
      (∀ t : Int, 0 ≤ t → t < 2 * 2 →
        (Clear (SetPixel demoDisplay 1 1 demoRed) demoRed).textureInUse t = false ∧
        (Clear (SetPixel demoDisplay 1 1 demoRed) demoRed).tileColor t = demoRed) ∧
      pixelAt (Clear (SetPixel demoDisplay 1 1 demoRed) demoRed) 6 3 = some demoRed :=
  ⟨SetPixel_wf _ 1 1 demoRed (create_wf 8 8 4 4 demoBlack (by decide) (by decide)),
    (clear_makes_all_solid (SetPixel demoDisplay 1 1 demoRed) demoRed
      (SetPixel_wf _ 1 1 demoRed (create_wf 8 8 4 4 demoBlack (by decide) (by decide)))).1,
    (clear_makes_all_solid (SetPixel demoDisplay 1 1 demoRed) demoRed
      (SetPixel_wf _ 1 1 demoRed (create_wf 8 8 4 4 demoBlack (by decide) (by decide)))).2
      6 3 (by decide)⟩

/-! ## Claims C4 to C7: `FillRect` -/

/-- C4. For every well-formed surface state, every rectangle
`(left, bottom, width, height)` and colour `c`, after `FillRect` every in-bounds
pixel `(x, y)` with `left <= x < left + width` and `bottom <= y < bottom + height`
reads `c`: the rectangle is clamped to the surface, never rejected. -/
theorem fillRect_fills_rectangle (s : PixelDisplay) (left bottom width height : Int)
    (c : Color) (hw : WellFormed s) (x y : Int) (hb : inBounds s x y)
    (hx : left ≤ x ∧ x < left + width) (hy : bottom ≤ y ∧ y < bottom + height) :
    pixelAt (FillRect s left bottom width height c) x y = some c := by
  rw [FillRect_pixelAt s left bottom width height c hw x y hb, if_pos ⟨hy, hx⟩]

/-- An instance of C4: the rectangle `(-2, 3, 5, 9)` hangs over the left and the
top edge of the 8 x 8 display; its pixel `(2, 7)` is on the surface. -/
theorem fillRect_fills_rectangle_witness :
    WellFormed demoDisplay ∧ inBounds demoDisplay 2 7 ∧
      pixelAt (FillRect demoDisplay (-2) 3 5 9 demoRed) 2 7 = some demoRed :=
  ⟨create_wf 8 8 4 4 demoBlack (by decide) (by decide), by decide,
    fillRect_fills_rectangle demoDisplay (-2) 3 5 9 demoRed
      (create_wf 8 8 4 4 demoBlack (by decide) (by decide)) 2 7 (by decide)
      (by decide) (by decide)⟩

/-- C5, evaluated on the 8 x 8 display of 4 x 4 tiles cleared to black:
`FillRect(0, 0, 3, 4, red)` covers the columns 0..2 of tile 0 only, yet
`TileRangeWithin` reports tile column 0 as lying within the rectangle
(`(0 + 3 + 1) / 4 - 1 = 0`), the bulk phase turns the whole tile red, and the
pixel `(3, 0)`, outside the rectangle, changes from black to red. -/
theorem fillRect_overfills_partial_tile :
    TileRangeWithin demoDisplay ⟨0, 0, 3, 4⟩ =
        { ok := true, tileCol0 := 0, tileCol1 := 0, tileRow0 := 0, tileRow1 := 0 } ∧
      inBounds demoDisplay 3 0 ∧ ¬ ((0 : Int) ≤ 3 ∧ (3 : Int) < 0 + 3) ∧
      pixelAt demoDisplay 3 0 = some demoBlack ∧
      pixelAt (FillRect demoDisplay 0 0 3 4 demoRed) 3 0 = some demoRed := by
  refine ⟨by decide, by decide, by decide, by decide, ?_⟩
  rw [FillRect_pixelAt demoDisplay 0 0 3 4 demoRed
    (create_wf 8 8 4 4 demoBlack (by decide) (by decide)) 3 0 (by decide)]
  decide

/-- C6, evaluated on the 8 x 8 display of 4 x 4 tiles cleared to black:
`FillRect(-1, 0, 9, 4, red)` covers tile `(0, 0)` entirely (`-1 ≤ 0`, `4 ≤ 8`,
`0 ≤ 0`, `4 ≤ 4`), but `ceilDiv(-1, 4)` is `1 + (-2) / 4 = 1`, so
`TileRangeWithin` reports the columns `1 .. 1` only; tile 0 is left to the
row loop and ends Materialized, not Solid. -/
theorem fillRect_negative_left_misses_tile :
    ceilDiv (-1) 4 = 1 ∧
      TileRangeWithin demoDisplay ⟨-1, 0, 9, 4⟩ =
        { ok := true, tileCol0 := 1, tileCol1 := 1, tileRow0 := 0, tileRow1 := 0 } ∧
      ((-1 : Int) ≤ 0 * 4 ∧ ((0 : Int) + 1) * 4 ≤ -1 + 9 ∧
        (0 : Int) ≤ 0 * 4 ∧ ((0 : Int) + 1) * 4 ≤ 0 + 4) ∧
      (FillRect demoDisplay (-1) 0 9 4 demoRed).textureInUse (0 * 2 + 0) = true := by
  have ht : TileRangeWithin demoDisplay ⟨-1, 0, 9, 4⟩ =
      { ok := true, tileCol0 := 1, tileCol1 := 1, tileRow0 := 0, tileRow1 := 0 } := by decide
  have hW : demoDisplay.totalWidth = 8 := by decide
  have hH : demoDisplay.totalHeight = 8 := by decide
  refine ⟨by decide, ht, by decide, ?_⟩
  rw [FillRect_eq, ht, hW, hH]
  simp only [if_true]
  rw [FillRectRows_first _ _ _ _ _ _ (by decide)]
  apply FillRectRows_inUse_mono
  decide

/-- C7. For every surface state with non-negative surface dimensions and tile
dimensions greater than 1, every `left` and `bottom` and every colour,
`FillRect` with `width <= 0` or `height <= 0` returns the state it was given:
no tile is bulk-filled and no pixel is written. -/
theorem fillRect_empty_unchanged (s : PixelDisplay) (left bottom width height : Int)
    (c : Color) (htw : 1 < s.tileWidth) (hth : 1 < s.tileHeight)
    (hW : 0 ≤ s.totalWidth) (hH : 0 ≤ s.totalHeight) (h : width ≤ 0 ∨ height ≤ 0) :
    FillRect s left bottom width height c = s := by
  rw [FillRect_eq, TileRangeWithin_empty s ⟨left, bottom, width, height⟩ htw hth h]
  simp only [Bool.false_eq_true, if_false]
  apply FillRectRows_empty
  rcases h with h | h
  · left; split_ifs <;> omega
  · right; split_ifs <;> omega

/-- An instance of C7: a rectangle of width 0 and one of height `-3` on the
8 x 8 display, one pixel of which was drawn. -/
theorem fillRect_empty_unchanged_witness :
    FillRect (SetPixel demoDisplay 1 1 demoRed) 3 2 0 5 demoRed =
        SetPixel demoDisplay 1 1 demoRed ∧
      FillRect (SetPixel demoDisplay 1 1 demoRed) 3 6 4 (-3) demoRed =
        SetPixel demoDisplay 1 1 demoRed :=
  ⟨fillRect_empty_unchanged (SetPixel demoDisplay 1 1 demoRed) 3 2 0 5 demoRed
      (by decide) (by decide) (by decide) (by decide) (by decide),
    fillRect_empty_unchanged (SetPixel demoDisplay 1 1 demoRed) 3 6 4 (-3) demoRed
      (by decide) (by decide) (by decide) (by decide) (by decide)⟩

/-! ## Claims C8 to C10: `DrawLine` -/

/-- C8. For every well-formed surface state and every horizontal line
(`y1 = y2 = y`), `DrawLine(x1, y, x2, y, c)` sets exactly the pixels `(x, y)` with
`min(x1, x2) <= x <= max(x1, x2)` to `c` and leaves every other pixel of the
surface as it was (whether or not the endpoints are in bounds); and the calls of
`DrawLine(0, 0, 10, 0, c)` are the 11 pixels `(0,0) .. (10,0)`. -/
theorem drawLine_horizontal_exact (s : PixelDisplay) (x1 x2 y : Int) (c : Color)
    (hw : WellFormed s) :
    (∀ xp yp : Int, inBounds s xp yp →
      pixelAt (DrawLine s x1 y x2 y c) xp yp =
        if yp = y ∧ min x1 x2 ≤ xp ∧ xp ≤ max x1 x2 then some c else pixelAt s xp yp) ∧
    DrawLineCalls 0 0 10 0 =
      [(0, 0), (1, 0), (2, 0), (3, 0), (4, 0), (5, 0), (6, 0), (7, 0), (8, 0), (9, 0), (10, 0)] := by
  refine ⟨?_, by decide⟩
  intro xp yp hb
  rw [DrawLine_eq, (drawPixels_spec c (DrawLineCalls x1 y x2 y) s hw).2.2 xp yp hb]
  by_cases e : yp = y ∧ min x1 x2 ≤ xp ∧ xp ≤ max x1 x2
  · rw [if_pos e, if_pos ((mem_DrawLineCalls_horizontal x1 x2 y xp yp).mpr e)]
  · rw [if_neg e, if_neg (fun h => e ((mem_DrawLineCalls_horizontal x1 x2 y xp yp).mp h))]

/-- An instance of C8 on the 8 x 8 display: the line from `(6, 2)` to `(1, 2)`
turns `(3, 2)` red and leaves `(3, 3)` and `(7, 2)` black. -/
theorem drawLine_horizontal_exact_witness :
    WellFormed demoDisplay ∧
      pixelAt (DrawLine demoDisplay 6 2 1 2 demoRed) 3 2 = some demoRed ∧
      pixelAt (DrawLine demoDisplay 6 2 1 2 demoRed) 3 3 = some demoBlack ∧
      pixelAt (DrawLine demoDisplay 6 2 1 2 demoRed) 7 2 = some demoBlack :=
  ⟨create_wf 8 8 4 4 demoBlack (by decide) (by decide),
    ((drawLine_horizontal_exact demoDisplay 6 1 2 demoRed
      (create_wf 8 8 4 4 demoBlack (by decide) (by decide))).1 3 2 (by decide)).trans
      (by decide),
    ((drawLine_horizontal_exact demoDisplay 6 1 2 demoRed
      (create_wf 8 8 4 4 demoBlack (by decide) (by decide))).1 3 3 (by decide)).trans
      (by decide),
    ((drawLine_horizontal_exact demoDisplay 6 1 2 demoRed
      (create_wf 8 8 4 4 demoBlack (by decide) (by decide))).1 7 2 (by decide)).trans
      (by decide)⟩

/-- C9. For every line with `|x2 - x1| = |y2 - y1| = n`, `DrawLine` is `SetPixel`
on the points of `DrawLineCalls`, and these are exactly the `n + 1` diagonal
points `(x1 + i * sx, y1 + i * sy)`, `i = 0 .. n`, with `sx = sign(x2 - x1)` and
`sy = sign(y2 - y1)`: in this order when `x1 <= x2`, in the reverse order
otherwise.  In particular `DrawLine(0, 0, 5, 5, c)` draws
`(0,0), (1,1), (2,2), (3,3), (4,4), (5,5)`. -/
theorem drawLine_diagonal_points (x1 y1 x2 y2 : Int) (n : Nat)
    (hx : (x2 - x1).natAbs = n) (hy : (y2 - y1).natAbs = n) :
    (∀ (s : PixelDisplay) (c : Color),
      DrawLine s x1 y1 x2 y2 c = drawPixels s (DrawLineCalls x1 y1 x2 y2) c) ∧
    (DrawLineCalls x1 y1 x2 y2).Perm
      ((List.range (n + 1)).map
        (fun (i : Nat) => (x1 + (i : Int) * (x2 - x1).sign, y1 + (i : Int) * (y2 - y1).sign))) ∧
    DrawLineCalls x1 y1 x2 y2 =
      (if x1 ≤ x2 then
        (List.range (n + 1)).map
          (fun (i : Nat) => (x1 + (i : Int) * (x2 - x1).sign, y1 + (i : Int) * (y2 - y1).sign))
      else
        ((List.range (n + 1)).map
          (fun (i : Nat) =>
            (x1 + (i : Int) * (x2 - x1).sign, y1 + (i : Int) * (y2 - y1).sign))).reverse) ∧
    DrawLineCalls 0 0 5 5 = [(0, 0), (1, 1), (2, 2), (3, 3), (4, 4), (5, 5)] := by
  have h := DrawLineCalls_diagonal x1 y1 x2 y2 n hx hy
  refine ⟨fun s c => DrawLine_eq s x1 y1 x2 y2 c, ?_, h, by decide⟩
  rw [h]
  split
  · exact List.Perm.refl _
  · exact List.reverse_perm _

/-- An instance of C9: the line from `(4, 1)` to `(1, 4)`, drawn from its second
endpoint. -/
theorem drawLine_diagonal_points_witness :
    (4 - 1 : Int).natAbs = 3 ∧ (1 - 4 : Int).natAbs = 3 ∧
      DrawLineCalls 4 1 1 4 = [(1, 4), (2, 3), (3, 2), (4, 1)] :=
  ⟨by decide, by decide,
    (drawLine_diagonal_points 4 1 1 4 3 (by decide) (by decide)).2.2.1.trans (by decide)⟩

/-- C10. For all integer endpoints, `DrawLine` is `SetPixel` on the points of
`DrawLineCalls`, of which there are exactly `max(|x2 - x1|, |y2 - y1|) + 1`; the
`k`-th call has major-axis coordinate `k` above the smaller end of the major
axis (`y` when `|y2 - y1| > |x2 - x1|`, `x` otherwise); and consecutive calls
differ by exactly 1 in the major and by at most 1 in the minor coordinate. -/
theorem drawLine_one_call_per_major_step (x1 y1 x2 y2 : Int) :
    (∀ (s : PixelDisplay) (c : Color),
      DrawLine s x1 y1 x2 y2 c = drawPixels s (DrawLineCalls x1 y1 x2 y2) c) ∧
    (DrawLineCalls x1 y1 x2 y2).length = max (x2 - x1).natAbs (y2 - y1).natAbs + 1 ∧
    (∀ (k : Nat) (p : Int × Int), (DrawLineCalls x1 y1 x2 y2)[k]? = some p →
      if (y2 - y1).natAbs > (x2 - x1).natAbs then p.2 = min y1 y2 + (k : Int)
      else p.1 = min x1 x2 + (k : Int)) ∧
    (∀ (k : Nat) (p q : Int × Int), (DrawLineCalls x1 y1 x2 y2)[k]? = some p →
      (DrawLineCalls x1 y1 x2 y2)[k + 1]? = some q →
      if (y2 - y1).natAbs > (x2 - x1).natAbs then q.2 = p.2 + 1 ∧ (q.1 - p.1).natAbs ≤ 1
      else q.1 = p.1 + 1 ∧ (q.2 - p.2).natAbs ≤ 1) := by
  obtain ⟨f1, f2, f3, f4⟩ := DrawLineSetup_facts x1 y1 x2 y2
  have hmajor : ∀ (k : Nat) (p : Int × Int), (DrawLineCalls x1 y1 x2 y2)[k]? = some p →
      (if (DrawLineSetup x1 y1 x2 y2).steep = true then p.2 else p.1) =
        (DrawLineSetup x1 y1 x2 y2).x1 + (k : Int) := by
    intro k p hp
    exact DrawLineLoopCalls_major _ _ _ _ _ _ k p hp
  have hminor : ∀ (k : Nat) (p q : Int × Int), (DrawLineCalls x1 y1 x2 y2)[k]? = some p →
      (DrawLineCalls x1 y1 x2 y2)[k + 1]? = some q →
      (if (DrawLineSetup x1 y1 x2 y2).steep = true then q.1 else q.2) =
          (if (DrawLineSetup x1 y1 x2 y2).steep = true then p.1 else p.2) ∨
        (if (DrawLineSetup x1 y1 x2 y2).steep = true then q.1 else q.2) =
          (if (DrawLineSetup x1 y1 x2 y2).steep = true then p.1 else p.2) +
            (DrawLineSetup x1 y1 x2 y2).ystep := by
    intro k p q hp hq
    exact DrawLineLoopCalls_minor _ _ _ _ _ _ k p q hp hq
  refine ⟨fun s c => DrawLine_eq s x1 y1 x2 y2 c, ?_, ?_, ?_⟩
  · unfold DrawLineCalls
    simp only
    rw [DrawLineLoopCalls_length, f3]
    omega
  · intro k p hp
    have h := hmajor k p hp
    by_cases hs : (y2 - y1).natAbs > (x2 - x1).natAbs
    · rw [if_pos (f1.mpr hs), f2, if_pos hs] at h
      rw [if_pos hs]; exact h
    · rw [if_neg (fun e => hs (f1.mp e)), f2, if_neg hs] at h
      rw [if_neg hs]; exact h
  · intro k p q hp hq
    have h1 := hmajor k p hp
    have h2 := hmajor (k + 1) q hq
    have h3 := hminor k p q hp hq
    by_cases hs : (y2 - y1).natAbs > (x2 - x1).natAbs
    · rw [if_pos (f1.mpr hs)] at h1 h2
      rw [if_pos (f1.mpr hs), if_pos (f1.mpr hs)] at h3
      rw [if_pos hs]
      push_cast at h2
      omega
    · rw [if_neg (fun e => hs (f1.mp e))] at h1 h2
      rw [if_neg (fun e => hs (f1.mp e)), if_neg (fun e => hs (f1.mp e))] at h3
      rw [if_neg hs]
      push_cast at h2
      omega

/-! ## Claims C11 to C15: idempotence of `SetPixel`, and `Render` -/

/-- C11. The call `SetPixel(x, y, c)` is idempotent and never marks dirty
redundantly: in every state in which the pixel `(x, y)` already reads `c` (a
Solid tile of colour `c`, or a Materialized tile whose buffer entry is `c`) it
returns the whole state unchanged; so, on a well-formed display, applying it
twice equals applying it once, and so does applying it again after the dirty
flags have been changed in any way in between (cleared, for one): the flags
stay as they were set. -/
theorem setPixel_idempotent (s : PixelDisplay) (x y : Int) (c : Color) (hw : WellFormed s) :
    (pixelAt s x y = some c → SetPixel s x y c = s) ∧
    SetPixel (SetPixel s x y c) x y c = SetPixel s x y c ∧
    (∀ flags : Int → Bool,
      SetPixel { SetPixel s x y c with tileNeedsUpdate := flags } x y c =
        { SetPixel s x y c with tileNeedsUpdate := flags }) := by
  refine ⟨SetPixel_of_reads s x y c, ?_, ?_⟩
  · by_cases hb : inBounds s x y
    · apply SetPixel_of_reads
      rw [SetPixel_pixelAt s x y c hw x y hb, if_pos ⟨rfl, rfl⟩]
    · rw [SetPixel_of_not_inBounds s x y c hb, SetPixel_of_not_inBounds s x y c hb]
  · intro flags
    by_cases hb : inBounds s x y
    · apply SetPixel_of_reads
      have h : pixelAt (SetPixel s x y c) x y = some c := by
        rw [SetPixel_pixelAt s x y c hw x y hb, if_pos ⟨rfl, rfl⟩]
      exact h
    · rw [SetPixel_of_not_inBounds s x y c hb]
      exact SetPixel_of_not_inBounds _ x y c hb

/-- An instance of C11 on the 8 x 8 display: pixel `(5, 6)` set to red twice, and
set again after the dirty flags were all cleared. -/
theorem setPixel_idempotent_witness :
    WellFormed demoDisplay ∧
      SetPixel (SetPixel demoDisplay 5 6 demoRed) 5 6 demoRed =
        SetPixel demoDisplay 5 6 demoRed ∧
      (SetPixel { SetPixel demoDisplay 5 6 demoRed with tileNeedsUpdate := fun _ => false }
        5 6 demoRed).tileNeedsUpdate 3 = false :=
  ⟨create_wf 8 8 4 4 demoBlack (by decide) (by decide),
    (setPixel_idempotent demoDisplay 5 6 demoRed
      (create_wf 8 8 4 4 demoBlack (by decide) (by decide))).2.1,
    congrArg (fun d => d.tileNeedsUpdate 3)
      ((setPixel_idempotent demoDisplay 5 6 demoRed
        (create_wf 8 8 4 4 demoBlack (by decide) (by decide))).2.2 (fun _ => false))⟩

/-- C12, as stated, fails on a reachable state: after `SetPixel(0, 0, red)` and
`Clear(black)` on the 8 x 8 display, tile 0 is Solid and its dirty flag is
still set; a `Render` pass in which every lock would succeed tries no lock at
all, so none fails, and leaves the flag of tile 0 set. -/
theorem render_leaves_solid_tile_dirty :
    Reachable (Clear (SetPixel demoDisplay 0 0 demoRed) demoBlack) demoTex ∧
      (Clear (SetPixel demoDisplay 0 0 demoRed) demoBlack).textureInUse 0 = false ∧
      (Clear (SetPixel demoDisplay 0 0 demoRed) demoBlack).tileNeedsUpdate 0 = true ∧
      (Render (Clear (SetPixel demoDisplay 0 0 demoRed) demoBlack) demoTex
        demoLocksOk).lockLog = [] ∧
      (Render (Clear (SetPixel demoDisplay 0 0 demoRed) demoBlack) demoTex
        demoLocksOk).disp.tileNeedsUpdate 0 = true :=
  ⟨Reachable.clear demoBlack (Reachable.setPixel 0 0 demoRed
      (Reachable.create 8 8 4 4 demoBlack demoTex (by decide) (by decide) (by decide)
        (by decide))),
    by decide, by decide, by decide, by decide⟩

/-- C12, amended.  After `Render`, with any outcomes of the locks, every tile
whose texture lock was tried and succeeded has its dirty flag false; in a pass
in which no lock fails, on a grid with non-negative tile counts, that is every
Materialized tile of the grid; and the dirty flag of a Solid tile is left as it
was. -/
theorem render_cleans_synced_tiles (s : PixelDisplay) (tex : Int → Int → Int → Color)
    (locks : Nat → Nat → Option Int) (t : Int) :
    ((t, true) ∈ (Render s tex locks).lockLog →
      (Render s tex locks).disp.tileNeedsUpdate t = false) ∧
    ((∀ row col, locks row col ≠ none) → 0 ≤ s.tileCols → 0 ≤ s.tileRows →
      0 ≤ t → t < s.tileCols * s.tileRows → s.textureInUse t = true →
      (Render s tex locks).disp.tileNeedsUpdate t = false) ∧
    (s.textureInUse t = false →
      (Render s tex locks).disp.tileNeedsUpdate t = s.tileNeedsUpdate t) := by
  have h := Render_inv s tex locks
  refine ⟨h.synced t, ?_, ?_⟩
  · intro hok hC hR h0 h1 hin
    rw [Render_flags s tex locks hok hC hR t, if_pos ⟨⟨h0, h1⟩, hin⟩]
  · intro hin
    apply h.kept
    intro hl
    have := (h.tried t true hl).1
    rw [hin] at this
    cases this

/-- An instance of the amended C12 on the 8 x 8 display with tiles 0 and 3
Materialized and dirty: when only the first lock fails, the lock of tile 0
succeeds at the second try and tile 0 ends clean; when no lock fails, tile 3
ends clean. -/
theorem render_cleans_synced_tiles_witness :
    (0, true) ∈ (Render demoDrawn demoTex demoLocksFailFirst).lockLog ∧
      (Render demoDrawn demoTex demoLocksFailFirst).disp.tileNeedsUpdate 0 = false ∧
      demoDrawn.tileNeedsUpdate 3 = true ∧
      (Render demoDrawn demoTex demoLocksOk).disp.tileNeedsUpdate 3 = false :=
  ⟨by decide,
    (render_cleans_synced_tiles demoDrawn demoTex demoLocksFailFirst 0).1 (by decide),
    by decide,
    (render_cleans_synced_tiles demoDrawn demoTex demoLocksOk 3).2.1
      (fun _ _ h => (by cases h)) (by decide) (by decide) (by decide) (by decide) (by decide)⟩

/-- C13, evaluated on the 8 x 8 display of 2 x 2 tiles with tiles 0 and 3
Materialized and dirty and tiles 1 and 2 Solid black.  When no lock fails, the
pass copies tile 0 to `(0, 4)`, fills `(4, 4)` and `(0, 0)` for tiles 1 and 2, and
copies tile 3 to `(4, 0)`.  When the lock of tile 0 fails in the first pass of
the loop, `continue` skips `i++`: the next pass locks tile 0 again and copies it
to `(4, 4)`, the place of tile 1; tiles 1 and 2 are filled at `(0, 0)` and
`(4, 0)`, the places of tiles 2 and 3; the loop ends with `i = 3`, and tile 3 is
neither drawn nor synced. -/
theorem render_lock_failure_shifts_tiles :
    (Render demoDrawn demoTex demoLocksOk).cmds =
        [DrawCmd.renderCopy 0 ⟨0, 4, 4, 4⟩, DrawCmd.renderFillRect demoBlack ⟨4, 4, 4, 4⟩,
          DrawCmd.renderFillRect demoBlack ⟨0, 0, 4, 4⟩, DrawCmd.renderCopy 3 ⟨4, 0, 4, 4⟩] ∧
      (Render demoDrawn demoTex demoLocksFailFirst).cmds =
        [DrawCmd.renderCopy 0 ⟨4, 4, 4, 4⟩, DrawCmd.renderFillRect demoBlack ⟨0, 0, 4, 4⟩,
          DrawCmd.renderFillRect demoBlack ⟨4, 0, 4, 4⟩] ∧
      (Render demoDrawn demoTex demoLocksFailFirst).lockLog = [(0, false), (0, true)] ∧
      (Render demoDrawn demoTex demoLocksFailFirst).i = 3 ∧
      (Render demoDrawn demoTex demoLocksOk).disp.tileNeedsUpdate 3 = false ∧
      (Render demoDrawn demoTex demoLocksFailFirst).disp.tileNeedsUpdate 3 = true := by
  refine ⟨by decide, by decide, by decide, by decide, by decide, by decide⟩

/-- When every texture lock tried on a Materialized, dirty tile `t` during a
`Render` pass fails, the tile is still dirty after the pass and its pixel
buffer, tile colour and Materialized state are unchanged. -/
theorem Render_failed_lock_unchanged (s : PixelDisplay) (tex : Int → Int → Int → Color)
    (locks : Nat → Nat → Option Int) (t : Int)
    (hin : s.textureInUse t = true) (hd : s.tileNeedsUpdate t = true)
    (hfail : ∀ ok, (t, ok) ∈ (Render s tex locks).lockLog → ok = false) :
    (Render s tex locks).disp.tileNeedsUpdate t = true ∧
    (Render s tex locks).disp.pixelCache t = s.pixelCache t ∧
    (Render s tex locks).disp.tileColor t = s.tileColor t ∧
    (Render s tex locks).disp.textureInUse t = true := by
  have h := Render_inv s tex locks
  have hk : (Render s tex locks).disp.tileNeedsUpdate t = true := by
    rw [h.kept t (fun hl => by cases hfail true hl)]
    exact hd
  have hu : (Render s tex locks).disp.textureInUse t = true := by rw [h.inUse]; exact hin
  exact ⟨hk, by rw [h.cache], by rw [h.color], hu⟩

/-- C14, evaluated on the 8 x 8 display of 2 x 2 tiles with tiles 0 and 3
Materialized and dirty.  In a first `Render` pass the lock of tile 0 succeeds
and the lock of tile 3, tried once, fails: tile 3 is still dirty and
Materialized, with its buffer and colour unchanged.  `SetPixel(1, 1, red)` then
makes tile 0 dirty again.  In the next `Render` pass the first lock, on tile 0,
fails, and `continue` skips `i++`: the pass locks tile 0 again and ends with
`i = 3` before it deals with tile 3, so `SDL_LockTexture` is not called on
tile 3, which is neither synced nor drawn and stays dirty.  When no lock fails
in that pass, the lock of tile 3 is tried. -/
theorem render_failed_lock_not_retried :
    (demoDrawn.textureInUse 3 = true ∧ demoDrawn.tileNeedsUpdate 3 = true) ∧
      demoFailedPass.lockLog = [(0, true), (3, false)] ∧
      (demoFailedPass.disp.tileNeedsUpdate 3 = true ∧
        demoFailedPass.disp.textureInUse 3 = true ∧
        demoFailedPass.disp.pixelCache 3 = demoDrawn.pixelCache 3 ∧
        demoFailedPass.disp.tileColor 3 = demoDrawn.tileColor 3) ∧
      (demoRedrawn.tileNeedsUpdate 0 = true ∧ demoRedrawn.textureInUse 3 = true ∧
        demoRedrawn.tileNeedsUpdate 3 = true) ∧
      (Render demoRedrawn demoFailedPass.tex demoLocksFailFirst).lockLog =
        [(0, false), (0, true)] ∧
      (Render demoRedrawn demoFailedPass.tex demoLocksFailFirst).cmds =
        [DrawCmd.renderCopy 0 ⟨4, 4, 4, 4⟩, DrawCmd.renderFillRect demoBlack ⟨0, 0, 4, 4⟩,
          DrawCmd.renderFillRect demoBlack ⟨4, 0, 4, 4⟩] ∧
      (Render demoRedrawn demoFailedPass.tex demoLocksFailFirst).i = 3 ∧
      (Render demoRedrawn demoFailedPass.tex demoLocksFailFirst).disp.tileNeedsUpdate 3 = true ∧
      (Render demoRedrawn demoFailedPass.tex demoLocksOk).lockLog = [(0, true), (3, true)] := by
  refine ⟨⟨by decide, by decide⟩, by decide, ⟨by decide, by decide, by decide, by decide⟩,
    ⟨by decide, by decide, by decide⟩, by decide, by decide, by decide, by decide, by decide⟩

/-- C15. In a `Render` pass in which no texture lock fails, the draw calls made
are those of `specRenderDraws`: for each tile `(col, row)` in row-major order,
nothing if the tile is Solid with alpha 0, one flat fill in the tile colour if
it is Solid with alpha above 0, one texture copy if it is Materialized, each of
size `tileWidth x tileHeight` at `(col * tileWidth, (tileRows - row - 1) * tileHeight)`. -/
theorem render_draws_as_specified (s : PixelDisplay) (tex : Int → Int → Int → Color)
    (locks : Nat → Nat → Option Int) (hok : ∀ row col, locks row col ≠ none) :
    (Render s tex locks).cmds = specRenderDraws s :=
  Render_cmds s tex locks hok

/-- An instance of C15: the 8 x 8 display after `SetPixel(5, 1, red)`, which
makes tile 1 Materialized. -/
theorem render_draws_as_specified_witness :
    (Render (SetPixel demoDisplay 5 1 demoRed) demoTex demoLocksOk).cmds =
      [DrawCmd.renderFillRect demoBlack ⟨0, 4, 4, 4⟩, DrawCmd.renderCopy 1 ⟨4, 4, 4, 4⟩,
        DrawCmd.renderFillRect demoBlack ⟨0, 0, 4, 4⟩,
        DrawCmd.renderFillRect demoBlack ⟨4, 0, 4, 4⟩] :=
  (render_draws_as_specified (SetPixel demoDisplay 5 1 demoRed) demoTex demoLocksOk
    (fun _ _ h => (by cases h))).trans (by decide)

/-! ## Claims C16 to C20: tile counts, `FillEllipse`, `TileRangeWithin`, `SetPixelRun`, `SetPixel` -/

/-- C16. For every surface width `w >= 0` and tile width `t > 0`, the tile-column
count of the constructed display is the ceiling of `w / t`: `tileCols * t >= w`,
and `tileCols <= n` for every `n` with `n * t >= w`; likewise for the rows; and
for `w = 257`, `t = 256` the count is 2. -/
theorem tileCols_is_ceiling (w h tw th : Int) (c : Color) (hw : 0 ≤ w) (htw : 0 < tw)
    (hh : 0 ≤ h) (hth : 0 < th) :
    (w ≤ (PixelDisplay.create w h tw th c).tileCols * tw ∧
      ∀ n : Int, w ≤ n * tw → (PixelDisplay.create w h tw th c).tileCols ≤ n) ∧
    (h ≤ (PixelDisplay.create w h tw th c).tileRows * th ∧
      ∀ n : Int, h ≤ n * th → (PixelDisplay.create w h tw th c).tileRows ≤ n) ∧
    (PixelDisplay.create 257 h 256 th c).tileCols = 2 := by
  have g : ∀ a b u v : Int, (PixelDisplay.create a b u v c).tileCols = ceilDiv a u ∧
      (PixelDisplay.create a b u v c).tileRows = ceilDiv b v := by
    intro a b u v
    obtain ⟨_, _, _, _, g5, g6⟩ := (Clear_spec (AllocArrays a b u v) c).1
    exact ⟨g5, g6⟩
  rw [(g w h tw th).1, (g w h tw th).2, (g 257 h 256 th).1]
  exact ⟨ceilDiv_least w tw hw htw, ceilDiv_least h th hh hth, by decide⟩

/-- An instance of C16: a 257 x 100 surface with 256 x 64 tiles has 2 tile columns
and 2 tile rows. -/
theorem tileCols_is_ceiling_witness :
    (PixelDisplay.create 257 100 256 64 demoBlack).tileCols = 2 ∧
      (100 : Int) ≤ (PixelDisplay.create 257 100 256 64 demoBlack).tileRows * 64 ∧
      (PixelDisplay.create 257 100 256 64 demoBlack).tileRows ≤ 2 :=
  ⟨(tileCols_is_ceiling 257 100 256 64 demoBlack (by decide) (by decide) (by decide)
      (by decide)).2.2,
    (tileCols_is_ceiling 257 100 256 64 demoBlack (by decide) (by decide) (by decide)
      (by decide)).2.1.1,
    (tileCols_is_ceiling 257 100 256 64 demoBlack (by decide) (by decide) (by decide)
      (by decide)).2.1.2 2 (by decide)⟩

/-- C17. For every surface state, `left`, `bottom` and colour, every `width` and
`height` with `width <= 2` or `height <= 2`, and whatever the floating-point
computations would yield, `FillEllipse(left, bottom, width, height, c)` gives
exactly the state that `FillRect(left, bottom, width, height, c)` gives. -/
theorem fillEllipse_degenerate_is_fillRect (F : EllipseFloat) (s : PixelDisplay)
    (left bottom width height : Int) (c : Color) (h : width ≤ 2 ∨ height ≤ 2) :
    FillEllipse F s left bottom width height c = FillRect s left bottom width height c := by
  unfold FillEllipse
  simp only
  rw [if_pos h]

/-- An instance of C17: an ellipse of height 2 on the 8 x 8 display. -/
theorem fillEllipse_degenerate_is_fillRect_witness :
    FillEllipse demoEllipseFloat demoDisplay 1 3 6 2 demoRed =
      FillRect demoDisplay 1 3 6 2 demoRed :=
  fillEllipse_degenerate_is_fillRect demoEllipseFloat demoDisplay 1 3 6 2 demoRed
    (Or.inr (by decide))

/-- C18, evaluated on the 8 x 8 display of 4 x 4 tiles.  For the rectangle
`(1, 0, 6, 7)`, which spans the columns 1..6 and the rows 0..6,
`TileRangeWithin` reports success with the tile columns `1 .. 1` and the tile
rows `0 .. 1`; but tile column 1 ends at `(1 + 1) * 4 = 8 > 1 + 6` and tile row 1
ends at `(1 + 1) * 4 = 8 > 0 + 7`.  For the rectangle `(0, 0, 3, 3)`, narrower
and lower than a tile, it reports success with tile `(0, 0)`. -/
theorem tileRangeWithin_reports_partial_tiles :
    TileRangeWithin demoDisplay ⟨1, 0, 6, 7⟩ =
        { ok := true, tileCol0 := 1, tileCol1 := 1, tileRow0 := 0, tileRow1 := 1 } ∧
      ¬ (((1 : Int) + 1) * demoDisplay.tileWidth ≤ 1 + 6) ∧
      ¬ (((1 : Int) + 1) * demoDisplay.tileHeight ≤ 0 + 7) ∧
      TileRangeWithin demoDisplay ⟨0, 0, 3, 3⟩ =
        { ok := true, tileCol0 := 0, tileCol1 := 0, tileRow0 := 0, tileRow1 := 0 } ∧
      (3 : Int) < demoDisplay.tileWidth ∧ (3 : Int) < demoDisplay.tileHeight := by
  refine ⟨by decide, by decide, by decide, by decide, by decide, by decide⟩

/-- C19. For every well-formed surface state, every row `0 <= y < totalHeight` and
every `0 <= x0 <= x1 <= totalWidth`, after `SetPixelRun(x0, x1, y, c)` every pixel
`(x, y)` with `x0 <= x < x1` reads `c` and every other in-bounds pixel reads the
value it had before. -/
theorem setPixelRun_sets_exactly_the_run (s : PixelDisplay) (x0 x1 y : Int) (c : Color)
    (hw : WellFormed s) (hy : 0 ≤ y ∧ y < s.totalHeight)
    (hx : 0 ≤ x0 ∧ x0 ≤ x1 ∧ x1 ≤ s.totalWidth) (xp yp : Int) (hb : inBounds s xp yp) :
    pixelAt (SetPixelRun s x0 x1 y c) xp yp =
      if yp = y ∧ x0 ≤ xp ∧ xp < x1 then some c else pixelAt s xp yp :=
  (SetPixelRun_spec s x0 x1 y c hw hy.1 hy.2 hx.1 hx.2.2).2.2 xp yp hb

/-- An instance of C19 on the 8 x 8 display: the run `1 <= x < 6` of row 2, which
crosses from tile 0 into tile 1, turns `(5, 2)` red and leaves `(6, 2)` and
`(5, 3)` black. -/
theorem setPixelRun_sets_exactly_the_run_witness :
    WellFormed demoDisplay ∧
      pixelAt (SetPixelRun demoDisplay 1 6 2 demoRed) 5 2 = some demoRed ∧
      pixelAt (SetPixelRun demoDisplay 1 6 2 demoRed) 6 2 = some demoBlack ∧
      pixelAt (SetPixelRun demoDisplay 1 6 2 demoRed) 5 3 = some demoBlack :=
  ⟨create_wf 8 8 4 4 demoBlack (by decide) (by decide),
    (setPixelRun_sets_exactly_the_run demoDisplay 1 6 2 demoRed
      (create_wf 8 8 4 4 demoBlack (by decide) (by decide)) (by decide) (by decide)
      5 2 (by decide)).trans (by decide),
    (setPixelRun_sets_exactly_the_run demoDisplay 1 6 2 demoRed
      (create_wf 8 8 4 4 demoBlack (by decide) (by decide)) (by decide) (by decide)
      6 2 (by decide)).trans (by decide),
    (setPixelRun_sets_exactly_the_run demoDisplay 1 6 2 demoRed
      (create_wf 8 8 4 4 demoBlack (by decide) (by decide)) (by decide) (by decide)
      5 3 (by decide)).trans (by decide)⟩

/-- C20. Materializing a tile preserves what it shows: on a well-formed display,
for every in-bounds `(x, y)`, colour `c` and every in-bounds `(x', y')` other than
`(x, y)`, the logical pixel at `(x', y')` reads the same value after
`SetPixel(x, y, c)` as before; also when the call converts the tile of `(x, y)`
from Solid to Materialized, which it does when the tile colour is not `c`. -/
theorem setPixel_preserves_other_pixels (s : PixelDisplay) (x y : Int) (c : Color)
    (hw : WellFormed s) (hb : inBounds s x y) (xp yp : Int) (hbp : inBounds s xp yp)
    (hne : ¬ (xp = x ∧ yp = y)) :
    pixelAt (SetPixel s x y c) xp yp = pixelAt s xp yp ∧
    (s.tileColor (y.tdiv s.tileHeight * s.tileCols + x.tdiv s.tileWidth) ≠ c →
      (SetPixel s x y c).textureInUse
        (y.tdiv s.tileHeight * s.tileCols + x.tdiv s.tileWidth) = true) := by
  refine ⟨?_, SetPixel_materializes s x y c hb⟩
  rw [SetPixel_pixelAt s x y c hw xp yp hbp, if_neg hne]

/-- An instance of C20 on the 8 x 8 display: `SetPixel(5, 6, red)` turns the Solid
black tile 3 into a Materialized one, and its pixel `(6, 6)` still reads black. -/
theorem setPixel_preserves_other_pixels_witness :
    WellFormed demoDisplay ∧ demoDisplay.textureInUse 3 = false ∧
      (SetPixel demoDisplay 5 6 demoRed).textureInUse 3 = true ∧
      pixelAt demoDisplay 6 6 = some demoBlack ∧
      pixelAt (SetPixel demoDisplay 5 6 demoRed) 6 6 = some demoBlack :=
  ⟨create_wf 8 8 4 4 demoBlack (by decide) (by decide), by decide,
    (setPixel_preserves_other_pixels demoDisplay 5 6 demoRed
      (create_wf 8 8 4 4 demoBlack (by decide) (by decide)) (by decide) 6 6 (by decide)
      (by decide)).2 (by decide),
    by decide,
    (setPixel_preserves_other_pixels demoDisplay 5 6 demoRed
      (create_wf 8 8 4 4 demoBlack (by decide) (by decide)) (by decide) 6 6 (by decide)
      (by decide)).1.trans (by decide)⟩

/-! ## Claims C21 to C29: materialising, the texture copy, invariants of reachable displays, `DrawLine`, index safety -/

/-- C21: the two-argument `EnsureTextureInUse(tileIndex, colour)` returns `false`
exactly when the tile is Solid and its tile colour equals the colour asked
about; when it returns `false` the state is the state before the call, and
when it returns `true` the tile is Materialized after the call. -/
theorem ensureTextureInUse_unless_outcomes (s : PixelDisplay) (tileIndex : Int) (c : Color) :
    ((EnsureTextureInUseUnless s tileIndex c).1 = false ↔
        (s.textureInUse tileIndex = false ∧ s.tileColor tileIndex = c)) ∧
      ((EnsureTextureInUseUnless s tileIndex c).1 = false →
        (EnsureTextureInUseUnless s tileIndex c).2 = s) ∧
      ((EnsureTextureInUseUnless s tileIndex c).1 = true →
        (EnsureTextureInUseUnless s tileIndex c).2.textureInUse tileIndex = true) := by
  unfold EnsureTextureInUseUnless
  by_cases hin : s.textureInUse tileIndex = true
  · rw [if_pos hin]
    simp [hin]
  · rw [if_neg hin]
    have hin' : s.textureInUse tileIndex = false := by simpa using hin
    by_cases hc : s.tileColor tileIndex = c
    · rw [if_pos hc]
      simp [hin', hc]
    · rw [if_neg hc]
      refine ⟨by simp [hc], by simp, fun _ => ?_⟩
      show (EnsureTextureInUse s tileIndex).textureInUse tileIndex = true
      unfold EnsureTextureInUse
      rw [if_neg hin]
      show Function.update s.textureInUse tileIndex true tileIndex = true
      simp

/-- C22, counterexample: on the 8 x 8 display, `SetPixel(0, 0, red)` makes
tile 0 Materialized and dirty and `Clear(black)` turns it Solid without
resetting the flag; in this reachable state tile 0 is Solid, and
`EnsureTextureInUse(0)` leaves it Materialized with its dirty flag `true`. -/
theorem ensureTextureInUse_keeps_stale_dirty_flag :
    Reachable (Clear (SetPixel demoDisplay 0 0 demoRed) demoBlack) demoTex ∧
      (Clear (SetPixel demoDisplay 0 0 demoRed) demoBlack).textureInUse 0 = false ∧
      (EnsureTextureInUse (Clear (SetPixel demoDisplay 0 0 demoRed) demoBlack) 0).textureInUse 0
        = true ∧
      (EnsureTextureInUse (Clear (SetPixel demoDisplay 0 0 demoRed) demoBlack) 0).tileNeedsUpdate 0
        = true :=
  ⟨Reachable.clear demoBlack (Reachable.setPixel 0 0 demoRed
      (Reachable.create 8 8 4 4 demoBlack demoTex (by decide) (by decide) (by decide)
        (by decide))),
    by decide, by decide, by decide⟩

/-- C22, amended: in every reachable state and for every Solid tile,
`EnsureTextureInUse(tileIndex)` leaves the tile Materialized over a buffer of
`tileWidth * tileHeight` entries that all hold the tile colour, and leaves every
dirty flag as it was (so the flag of the tile is `false` after the call exactly
when it was `false` before). -/
theorem ensureTextureInUse_materializes_keeps_flags (s : PixelDisplay)
    (tex : Int → Int → Int → Color) (tileIndex : Int) (hr : Reachable s tex)
    (hs : s.textureInUse tileIndex = false) :
    (EnsureTextureInUse s tileIndex).textureInUse tileIndex = true ∧
      (∃ buf, (EnsureTextureInUse s tileIndex).pixelCache tileIndex = some buf ∧
        buf.length = (s.tileWidth * s.tileHeight).toNat ∧
        ∀ off, 0 ≤ off → off < s.tileWidth * s.tileHeight →
          readBuf buf off = some (s.tileColor tileIndex)) ∧
      (EnsureTextureInUse s tileIndex).tileNeedsUpdate = s.tileNeedsUpdate := by
  obtain ⟨hw, -, -⟩ := Reachable.wf hr
  obtain ⟨hg, hw1, hin1, hread⟩ := EnsureTextureInUse_spec s tileIndex hw
  refine ⟨hin1, ?_, ?_⟩
  · cases hc : (EnsureTextureInUse s tileIndex).pixelCache tileIndex with
    | none => exact absurd hc (hw1.inUse_alloc tileIndex hin1)
    | some buf =>
      refine ⟨buf, rfl, ?_, ?_⟩
      · rw [hw1.alloc_size tileIndex buf hc, hg.2.2.1, hg.2.2.2.1]
      · intro off h0 h1
        have := hread tileIndex off h0 h1
        unfold tileRead at this
        rw [if_pos hin1, hc, if_neg (by rw [hs]; decide)] at this
        exact this
  · unfold EnsureTextureInUse
    rw [if_neg (by rw [hs]; decide)]

/-- An instance of the amended C22: tile 1 of the 8 x 8 display after
`SetPixel(0, 0, red)` and `Clear(black)`, a Solid tile whose flag is `false`. -/
theorem ensureTextureInUse_materializes_keeps_flags_witness :
    Reachable (Clear (SetPixel demoDisplay 0 0 demoRed) demoBlack) demoTex ∧
    (Clear (SetPixel demoDisplay 0 0 demoRed) demoBlack).textureInUse 1 = false ∧
    ((EnsureTextureInUse (Clear (SetPixel demoDisplay 0 0 demoRed) demoBlack) 1).textureInUse 1
        = true ∧
      (∃ buf, (EnsureTextureInUse (Clear (SetPixel demoDisplay 0 0 demoRed) demoBlack) 1).pixelCache
          1 = some buf ∧
        buf.length = ((Clear (SetPixel demoDisplay 0 0 demoRed) demoBlack).tileWidth *
          (Clear (SetPixel demoDisplay 0 0 demoRed) demoBlack).tileHeight).toNat ∧
        ∀ off, 0 ≤ off → off < (Clear (SetPixel demoDisplay 0 0 demoRed) demoBlack).tileWidth *
            (Clear (SetPixel demoDisplay 0 0 demoRed) demoBlack).tileHeight →
          readBuf buf off =
            some ((Clear (SetPixel demoDisplay 0 0 demoRed) demoBlack).tileColor 1)) ∧
      (EnsureTextureInUse (Clear (SetPixel demoDisplay 0 0 demoRed) demoBlack) 1).tileNeedsUpdate =
        (Clear (SetPixel demoDisplay 0 0 demoRed) demoBlack).tileNeedsUpdate) :=
  ⟨Reachable.clear demoBlack (Reachable.setPixel 0 0 demoRed
      (Reachable.create 8 8 4 4 demoBlack demoTex (by decide) (by decide) (by decide)
        (by decide))),
    by decide,
    ensureTextureInUse_materializes_keeps_flags _ demoTex 1
      (Reachable.clear demoBlack (Reachable.setPixel 0 0 demoRed
        (Reachable.create 8 8 4 4 demoBlack demoTex (by decide) (by decide) (by decide)
          (by decide))))
      (by decide)⟩

/-- C23: when the body of the loop of `Render` finds a Materialized, dirty tile
and the lock succeeds with a row stride `pitch` of at least `4 * tileWidth`
bytes, every texel `(x, y)` of the tile texture (row 0 at the top) receives
entry `(tileHeight - 1 - y) * tileWidth + x` of the pixel buffer, that is, texture
row `y` receives buffer row `tileHeight - 1 - y`; and the texture is the one the
loop for the tight stride `tileWidth * 4` produces. -/
theorem render_copies_rows_flipped (st : RenderState) (destRect : SDL_Rect) (pitch : Int)
    (hw : WellFormed st.disp) (hin : st.disp.textureInUse st.i = true)
    (hd : st.disp.tileNeedsUpdate st.i = true) (hp : 4 * st.disp.tileWidth ≤ pitch) :
    ∃ buf, st.disp.pixelCache st.i = some buf ∧
      ∀ x y : Int, 0 ≤ x → x < st.disp.tileWidth → 0 ≤ y → y < st.disp.tileHeight →
        readBuf buf ((st.disp.tileHeight - 1 - y) * st.disp.tileWidth + x) =
            some ((RenderTile (some pitch) destRect st).tex st.i x y) ∧
          (RenderTile (some pitch) destRect st).tex st.i x y =
            (RenderTile (some (st.disp.tileWidth * 4)) destRect st).tex st.i x y := by
  cases hc : st.disp.pixelCache st.i with
  | none => exact absurd hc (hw.inUse_alloc st.i hin)
  | some buf =>
    refine ⟨buf, rfl, ?_⟩
    intro x y hx0 hx1 hy0 hy1
    have hlen := hw.alloc_size st.i buf hc
    have htex : ∀ q : Int, (RenderTile (some q) destRect st).tex st.i x y =
        unlockTexels (RenderCopyRows st.disp buf q (fun _ => 0)) q x y := by
      intro q
      unfold RenderTile
      rw [if_pos hin, if_pos hd]
      simp only [Function.update_same, hc, Option.getD_some]
    have h1 := RenderCopyRows_texel st.disp buf pitch (fun _ => 0) hw.tileWidth_pos
      hw.tileHeight_pos hlen hp x y hx0 hx1 hy0 hy1
    have h2 := RenderCopyRows_texel st.disp buf (st.disp.tileWidth * 4) (fun _ => 0)
      hw.tileWidth_pos hw.tileHeight_pos hlen (by omega) x y hx0 hx1 hy0 hy1
    rw [htex, htex]
    refine ⟨h1, ?_⟩
    rw [h1] at h2
    exact Option.some.inj h2

/-- An instance of C23: tile 0 of the drawn 8 x 8 display, locked with a row
stride of 20 bytes, 4 more than the 16 bytes of a row. -/
theorem render_copies_rows_flipped_witness :
    WellFormed demoRenderState.disp ∧
    demoRenderState.disp.textureInUse demoRenderState.i = true ∧
    demoRenderState.disp.tileNeedsUpdate demoRenderState.i = true ∧
    4 * demoRenderState.disp.tileWidth ≤ 20 ∧
    ∃ buf, demoRenderState.disp.pixelCache demoRenderState.i = some buf ∧
      ∀ x y : Int, 0 ≤ x → x < demoRenderState.disp.tileWidth → 0 ≤ y →
        y < demoRenderState.disp.tileHeight →
        readBuf buf ((demoRenderState.disp.tileHeight - 1 - y) *
              demoRenderState.disp.tileWidth + x) =
            some ((RenderTile (some 20) (SDL_Rect.mk 0 4 4 4) demoRenderState).tex
              demoRenderState.i x y) ∧
          (RenderTile (some 20) (SDL_Rect.mk 0 4 4 4) demoRenderState).tex
              demoRenderState.i x y =
            (RenderTile (some (demoRenderState.disp.tileWidth * 4)) (SDL_Rect.mk 0 4 4 4)
              demoRenderState).tex demoRenderState.i x y :=
  ⟨SetPixel_wf _ 7 7 demoRed
      (SetPixel_wf _ 0 0 demoRed (create_wf 8 8 4 4 demoBlack (by decide) (by decide))),
    by decide, by decide, by decide,
    render_copies_rows_flipped demoRenderState (SDL_Rect.mk 0 4 4 4) 20
      (SetPixel_wf _ 7 7 demoRed
        (SetPixel_wf _ 0 0 demoRed (create_wf 8 8 4 4 demoBlack (by decide) (by decide))))
      (by decide) (by decide) (by decide)⟩

/-- C24: in every state reachable from a freshly constructed surface by `Clear`,
`SetPixel`, `DrawLine`, `FillRect` and `Render`, every Materialized tile has an
allocated pixel buffer of `tileWidth * tileHeight` entries; after any further
calls of these operations a buffer that is allocated is still allocated, with
the same number of entries (the embedding allocates, by `List.replicate`, only
where the buffer pointer is null); and `Clear` turns every tile of the grid
Solid while its buffer, content included, stays in `pixelCache`. -/
theorem materialized_tiles_keep_buffers (s : PixelDisplay) (tex : Int → Int → Int → Color)
    (hr : Reachable s tex) :
    (∀ t, s.textureInUse t = true →
      ∃ buf, s.pixelCache t = some buf ∧ buf.length = (s.tileWidth * s.tileHeight).toNat) ∧
    (∀ s1, Relation.ReflTransGen Step s s1 → ∀ t buf, s.pixelCache t = some buf →
      ∃ buf1, s1.pixelCache t = some buf1 ∧ buf1.length = buf.length) ∧
    (∀ c t, 0 ≤ t → t < s.tileCols * s.tileRows →
      (Clear s c).textureInUse t = false ∧ (Clear s c).pixelCache t = s.pixelCache t) := by
  have hw := Reachable.wf hr
  refine ⟨?_, ?_, ?_⟩
  · intro t ht
    cases hc : s.pixelCache t with
    | none => exact absurd hc (hw.1.inUse_alloc t ht)
    | some buf => exact ⟨buf, rfl, hw.1.alloc_size t buf hc⟩
  · intro s1 hs1 t buf hb
    obtain ⟨w1, g, a⟩ := Step.keeps_star hs1 hw
    cases hc : s1.pixelCache t with
    | none => exact absurd hc (a t (by rw [hb]; exact Option.some_ne_none _))
    | some buf1 =>
      refine ⟨buf1, rfl, ?_⟩
      rw [w1.1.alloc_size t buf1 hc, hw.1.alloc_size t buf hb, g.2.2.1, g.2.2.2.1]
  · intro c t h0 h1
    obtain ⟨_, hp, _, ht⟩ := Clear_spec s c
    rw [(ht t).1, if_pos ⟨h0, h1⟩, hp]
    exact ⟨rfl, rfl⟩

/-- An instance of C24: the drawn 8 x 8 display. -/
theorem materialized_tiles_keep_buffers_witness :
    Reachable demoDrawn demoTex ∧
    ((∀ t, demoDrawn.textureInUse t = true →
      ∃ buf, demoDrawn.pixelCache t = some buf ∧
        buf.length = (demoDrawn.tileWidth * demoDrawn.tileHeight).toNat) ∧
    (∀ s1, Relation.ReflTransGen Step demoDrawn s1 → ∀ t buf, demoDrawn.pixelCache t = some buf →
      ∃ buf1, s1.pixelCache t = some buf1 ∧ buf1.length = buf.length) ∧
    (∀ c t, 0 ≤ t → t < demoDrawn.tileCols * demoDrawn.tileRows →
      (Clear demoDrawn c).textureInUse t = false ∧
        (Clear demoDrawn c).pixelCache t = demoDrawn.pixelCache t)) :=
  ⟨demoDrawn_reachable, materialized_tiles_keep_buffers demoDrawn demoTex demoDrawn_reachable⟩

/-- C25, the call `FillEllipse(41, 49, 129, 129, red)` on the 256 x 256 surface of
64 x 64 tiles, cleared to black.  The `float` test accepts the four corners of
tile `(1, 1)`, every operation being exact; `TileRangeWithin` reports the range
of that one tile; the bulk phase turns the tile, index 5, Solid red; it is
Solid red after the whole call, whatever chords the row loop draws; and its
corner `(64, 64)` is outside the ellipse inscribed in the rectangle, whose
centre is `(41 + 129/2, 49 + 129/2)` and whose radii are `129/2`. -/
theorem fillEllipse_bulk_tile_outside_ellipse :
    (IsPointWithinEllipse 64 64 (SDL_Rect.mk 41 49 129 129) = some true ∧
      IsPointWithinEllipse 128 64 (SDL_Rect.mk 41 49 129 129) = some true ∧
      IsPointWithinEllipse 128 128 (SDL_Rect.mk 41 49 129 129) = some true ∧
      IsPointWithinEllipse 64 128 (SDL_Rect.mk 41 49 129 129) = some true) ∧
    TileRangeWithin demoSurface (SDL_Rect.mk 41 49 129 129) =
      { ok := true, tileCol0 := 1, tileCol1 := 1, tileRow0 := 1, tileRow1 := 1 } ∧
    demoSurface.tileColor 5 = demoBlack ∧
    ((FillEllipseBulk demoExactFloat demoSurface (SDL_Rect.mk 41 49 129 129) 1 1 1 1
        demoRed).textureInUse 5 = false ∧
      (FillEllipseBulk demoExactFloat demoSurface (SDL_Rect.mk 41 49 129 129) 1 1 1 1
        demoRed).tileColor 5 = demoRed) ∧
    (∀ X0 X1 : SDL_Rect → Int → Int,
      (FillEllipse
        { IsPointWithinEllipse := demoExactFloat.IsPointWithinEllipse
          chordX0 := X0, chordX1 := X1 }
        demoSurface 41 49 129 129 demoRed).textureInUse 5 = false ∧
      (FillEllipse
        { IsPointWithinEllipse := demoExactFloat.IsPointWithinEllipse
          chordX0 := X0, chordX1 := X1 }
        demoSurface 41 49 129 129 demoRed).tileColor 5 = demoRed) ∧
    1 < ((64 : ℚ) - (41 + 129 / 2)) ^ 2 / (129 / 2) ^ 2 +
      ((64 : ℚ) - (49 + 129 / 2)) ^ 2 / (129 / 2) ^ 2 := by
  have hrange : TileRangeWithin demoSurface (SDL_Rect.mk 41 49 129 129) =
      { ok := true, tileCol0 := 1, tileCol1 := 1, tileRow0 := 1, tileRow1 := 1 } := by decide
  have hcols : demoSurface.tileCols = 4 := by decide
  have hbulk : ∀ X0 X1 : SDL_Rect → Int → Int,
      FillEllipseBulk
        { IsPointWithinEllipse := demoExactFloat.IsPointWithinEllipse
          chordX0 := X0, chordX1 := X1 }
        demoSurface (SDL_Rect.mk 41 49 129 129) 1 1 1 1 demoRed =
      setSolid demoSurface 5 demoRed := by
    intro X0 X1
    rw [FillEllipseBulk_single, demoTile_within X0 X1, if_pos rfl, hcols]
    rfl
  refine ⟨demoCorners_within, hrange, by decide, ?_, ?_, by norm_num⟩
  · have := hbulk demoExactFloat.chordX0 demoExactFloat.chordX1
    change FillEllipseBulk demoExactFloat demoSurface (SDL_Rect.mk 41 49 129 129) 1 1 1 1
      demoRed = setSolid demoSurface 5 demoRed at this
    rw [this]
    exact ⟨by simp [setSolid], by simp [setSolid]⟩
  · intro X0 X1
    unfold FillEllipse
    simp only
    rw [if_neg (by decide), hrange]
    simp only [if_true]
    rw [hbulk X0 X1]
    exact FillEllipseRows_solid _ _ _ _ _ demoRed 5 (by simp [setSolid]) (by simp [setSolid])

/-- C26: dirty tracking is sound.  With the texture content as part of the
state, in every state reachable from a freshly constructed surface by `Clear`,
`SetPixel`, `DrawLine`, `FillRect` and `Render` (each lock failing or
succeeding), every tile that is Materialized and not dirty has an allocated
buffer, and its texture is that buffer flipped vertically: texel `(x, y)` is
entry `(tileHeight - 1 - y) * tileWidth + x` of the buffer. -/
theorem clean_tiles_match_textures (s : PixelDisplay) (tex : Int → Int → Int → Color)
    (t : Int) (hr : Reachable s tex) (hin : s.textureInUse t = true)
    (hclean : s.tileNeedsUpdate t = false) :
    ∃ buf, s.pixelCache t = some buf ∧
      ∀ x y : Int, 0 ≤ x → x < s.tileWidth → 0 ≤ y → y < s.tileHeight →
        readBuf buf ((s.tileHeight - 1 - y) * s.tileWidth + x) = some (tex t x y) := by
  cases hc : s.pixelCache t with
  | none => exact absurd hc ((Reachable.wf hr).1.inUse_alloc t hin)
  | some buf => exact ⟨buf, rfl, hr.clean_matches t hin hclean buf hc⟩

/-- An instance of C26: tile 0 of the drawn 8 x 8 display after a `Render` pass
in which every lock succeeds. -/
theorem clean_tiles_match_textures_witness :
    Reachable demoRendered.disp demoRendered.tex ∧
    demoRendered.disp.textureInUse 0 = true ∧
    demoRendered.disp.tileNeedsUpdate 0 = false ∧
    ∃ buf, demoRendered.disp.pixelCache 0 = some buf ∧
      ∀ x y : Int, 0 ≤ x → x < demoRendered.disp.tileWidth → 0 ≤ y →
        y < demoRendered.disp.tileHeight →
        readBuf buf ((demoRendered.disp.tileHeight - 1 - y) * demoRendered.disp.tileWidth + x) =
          some (demoRendered.tex 0 x y) :=
  ⟨demoRendered_reachable, by decide, by decide,
    clean_tiles_match_textures demoRendered.disp demoRendered.tex 0 demoRendered_reachable
      (by decide) (by decide)⟩

/-- C27: `DrawLine` follows the exact line to within half a pixel and hits both
endpoints.  With `D = max |dx| |dy| > 0`, the major axis being `y` when
`|dx| < |dy|` and `x` otherwise: the first `SetPixel` call is on one endpoint
`a`, the last on the other endpoint `b`, and the `k`-th call (`0 ≤ k ≤ D`) is on
the pixel `p` with major coordinate `k` past that of `a` and a minor offset
`m = minor p - minor a` with `2 * |m * D - k * d| ≤ D`, where
`d = minor b - minor a` is the minor delta. -/
theorem drawLine_within_half_pixel (x1 y1 x2 y2 : Int)
    (hD : 0 < max (x2 - x1).natAbs (y2 - y1).natAbs) :
    ∃ a b : Int × Int,
      ((a = (x1, y1) ∧ b = (x2, y2)) ∨ (a = (x2, y2) ∧ b = (x1, y1))) ∧
      (DrawLineCalls x1 y1 x2 y2).head? = some a ∧
      (DrawLineCalls x1 y1 x2 y2).getLast? = some b ∧
      ∀ k : Nat, k ≤ max (x2 - x1).natAbs (y2 - y1).natAbs →
        ∃ p : Int × Int, (DrawLineCalls x1 y1 x2 y2)[k]? = some p ∧
          (if (x2 - x1).natAbs < (y2 - y1).natAbs then p.2 else p.1) =
            (if (x2 - x1).natAbs < (y2 - y1).natAbs then a.2 else a.1) + (k : Int) ∧
          2 * |((if (x2 - x1).natAbs < (y2 - y1).natAbs then p.1 else p.2) -
                (if (x2 - x1).natAbs < (y2 - y1).natAbs then a.1 else a.2)) *
                ((max (x2 - x1).natAbs (y2 - y1).natAbs : Nat) : Int) -
              (k : Int) * ((if (x2 - x1).natAbs < (y2 - y1).natAbs then b.1 else b.2) -
                (if (x2 - x1).natAbs < (y2 - y1).natAbs then a.1 else a.2))| ≤
            ((max (x2 - x1).natAbs (y2 - y1).natAbs : Nat) : Int) := by
  obtain ⟨a, b, hab, hs, hx1, hy1, hx2, hy2⟩ := DrawLineSetup_ends x1 y1 x2 y2
  obtain ⟨hdx, hady, herr, hystep⟩ := DrawLineSetup_fields x1 y1 x2 y2
  obtain ⟨-, -, hlen, -⟩ := DrawLineSetup_facts x1 y1 x2 y2
  generalize hL : DrawLineSetup x1 y1 x2 y2 = L at hs hx1 hy1 hx2 hy2 hdx hady herr hystep hlen
  generalize hDD : max (x2 - x1).natAbs (y2 - y1).natAbs = D at hD hlen ⊢
  have hcalls : DrawLineCalls x1 y1 x2 y2 =
      DrawLineLoopCalls L.steep L.absDy L.dx L.ystep (D + 1) (L.x1, L.y1, L.error) := by
    unfold DrawLineCalls
    simp only
    rw [hL, hlen]
    congr 1
  have hDpos : (0 : Int) < (D : Int) := by exact_mod_cast hD
  have hdxD : L.dx = (D : Int) := by rw [hdx, hlen]
  -- the minor delta is at most the major one
  have hminor : L.absDy ≤ L.dx := by
    rw [hdxD, hady, hy1, hy2, ← hDD]
    rcases hab with ⟨ha, hb⟩ | ⟨ha, hb⟩ <;> subst ha <;> subst hb <;>
      split_ifs <;> simp only at * <;> omega
  have hA : 0 ≤ L.absDy := by rw [hady]; split_ifs <;> omega
  have he0 : 0 ≤ L.error ∧ L.error < L.dx ∧ 2 * L.error ≤ L.dx ∧ L.dx ≤ 2 * L.error + 1 := by
    rw [herr, hdxD, tdiv_of_nonneg hDpos.le (by decide)]
    omega
  have hmaj : ∀ p : Int × Int, (if L.steep = true then p.2 else p.1) =
      (if (x2 - x1).natAbs < (y2 - y1).natAbs then p.2 else p.1) := by
    intro p; rw [hs]; simp only [decide_eq_true_eq]
  have hmin : ∀ p : Int × Int, (if L.steep = true then p.1 else p.2) =
      (if (x2 - x1).natAbs < (y2 - y1).natAbs then p.1 else p.2) := by
    intro p; rw [hs]; simp only [decide_eq_true_eq]
  have hk : ∀ k : Nat, k ≤ D →
      ∃ p : Int × Int, (DrawLineCalls x1 y1 x2 y2)[k]? = some p ∧
        (if (x2 - x1).natAbs < (y2 - y1).natAbs then p.2 else p.1) =
          (if (x2 - x1).natAbs < (y2 - y1).natAbs then a.2 else a.1) + (k : Int) ∧
        2 * |((if (x2 - x1).natAbs < (y2 - y1).natAbs then p.1 else p.2) -
              (if (x2 - x1).natAbs < (y2 - y1).natAbs then a.1 else a.2)) * (D : Int) -
            (k : Int) * ((if (x2 - x1).natAbs < (y2 - y1).natAbs then b.1 else b.2) -
              (if (x2 - x1).natAbs < (y2 - y1).natAbs then a.1 else a.2))| ≤ (D : Int) := by
    intro k hkD
    have hklt : k < (DrawLineCalls x1 y1 x2 y2).length := by
      rw [hcalls, DrawLineLoopCalls_length]; omega
    refine ⟨(DrawLineCalls x1 y1 x2 y2)[k], List.getElem?_eq_getElem hklt, ?_, ?_⟩
    · have := DrawLineLoopCalls_major L.steep L.absDy L.dx L.ystep (D + 1) (L.x1, L.y1, L.error)
        k ((DrawLineCalls x1 y1 x2 y2)[k]) (by rw [← hcalls]; exact List.getElem?_eq_getElem hklt)
      rw [hmaj] at this
      rw [this, ← hx1]
    · obtain ⟨j, hj, h0, h1⟩ := DrawLineLoopCalls_error L.steep L.absDy L.dx L.ystep hA hminor
        (D + 1) (L.x1, L.y1, L.error) k ((DrawLineCalls x1 y1 x2 y2)[k]) he0.1 he0.2.1
        (by rw [← hcalls]; exact List.getElem?_eq_getElem hklt)
      rw [hmin] at hj
      simp only at hj h0 h1
      rw [hj, ← hy1, ← hy2]
      rw [hdxD] at h0 h1 he0
      by_cases hlt : L.y1 < L.y2
      · have e1 : L.ystep = 1 := by rw [hystep, if_pos hlt]
        have e2 : L.absDy = L.y2 - L.y1 := by rw [hady, if_neg (by omega)]
        have key : (L.y1 + L.ystep * j - L.y1) * (D : Int) - (k : Int) * (L.y2 - L.y1) =
            (L.error - (k : Int) * L.absDy + j * (D : Int)) - L.error := by
          rw [e1, e2]; ring
        rw [key]
        rcases abs_cases (L.error - (k : Int) * L.absDy + j * (D : Int) - L.error) with
          ⟨h, _⟩ | ⟨h, _⟩ <;> rw [h] <;> omega
      · have e1 : L.ystep = -1 := by rw [hystep, if_neg hlt]
        have e2 : L.absDy = -(L.y2 - L.y1) := by
          rw [hady]; split_ifs <;> omega
        have key : (L.y1 + L.ystep * j - L.y1) * (D : Int) - (k : Int) * (L.y2 - L.y1) =
            L.error - (L.error - (k : Int) * L.absDy + j * (D : Int)) := by
          rw [e1, e2]; ring
        rw [key]
        rcases abs_cases (L.error - (L.error - (k : Int) * L.absDy + j * (D : Int))) with
          ⟨h, _⟩ | ⟨h, _⟩ <;> rw [h] <;> omega
  have hext : ∀ p q : Int × Int,
      (if (x2 - x1).natAbs < (y2 - y1).natAbs then p.2 else p.1) =
        (if (x2 - x1).natAbs < (y2 - y1).natAbs then q.2 else q.1) →
      (if (x2 - x1).natAbs < (y2 - y1).natAbs then p.1 else p.2) =
        (if (x2 - x1).natAbs < (y2 - y1).natAbs then q.1 else q.2) → p = q := by
    intro p q h1 h2
    split_ifs at h1 h2
    · exact Prod.ext h2 h1
    · exact Prod.ext h1 h2
  refine ⟨a, b, hab, ?_, ?_, hk⟩
  · obtain ⟨p, hp, hp1, hp2⟩ := hk 0 (Nat.zero_le _)
    have : (DrawLineCalls x1 y1 x2 y2).head? = some p := by
      rw [← hp, List.head?_eq_getElem?]
    rw [this]
    congr 1
    apply hext p a
    · simpa using hp1
    · have := half_pixel_zero hDpos (z := _) (by simpa using hp2)
      omega
  · obtain ⟨p, hp, hp1, hp2⟩ := hk D (le_refl _)
    have : (DrawLineCalls x1 y1 x2 y2).getLast? = some p := by
      rw [← hp, List.getLast?_eq_getElem?, hcalls, DrawLineLoopCalls_length]
      rfl
    rw [this]
    congr 1
    apply hext p b
    · rw [hp1, ← hx1, ← hx2]; omega
    · have key : ∀ u v w : Int, (u - v) * (D : Int) - (D : Int) * (w - v) = (u - w) * (D : Int) := by
        intro u v w; ring
      rw [key] at hp2
      have := half_pixel_zero hDpos hp2
      omega

/-- An instance of C27: the line from `(0, 0)` to `(5, 2)`. -/
theorem drawLine_within_half_pixel_witness :
    0 < max ((5 : Int) - 0).natAbs ((2 : Int) - 0).natAbs ∧
    ∃ a b : Int × Int,
      ((a = (0, 0) ∧ b = (5, 2)) ∨ (a = (5, 2) ∧ b = (0, 0))) ∧
      (DrawLineCalls 0 0 5 2).head? = some a ∧
      (DrawLineCalls 0 0 5 2).getLast? = some b ∧
      ∀ k : Nat, k ≤ max ((5 : Int) - 0).natAbs ((2 : Int) - 0).natAbs →
        ∃ p : Int × Int, (DrawLineCalls 0 0 5 2)[k]? = some p ∧
          (if ((5 : Int) - 0).natAbs < ((2 : Int) - 0).natAbs then p.2 else p.1) =
            (if ((5 : Int) - 0).natAbs < ((2 : Int) - 0).natAbs then a.2 else a.1) + (k : Int) ∧
          2 * |((if ((5 : Int) - 0).natAbs < ((2 : Int) - 0).natAbs then p.1 else p.2) -
                (if ((5 : Int) - 0).natAbs < ((2 : Int) - 0).natAbs then a.1 else a.2)) *
                ((max ((5 : Int) - 0).natAbs ((2 : Int) - 0).natAbs : Nat) : Int) -
              (k : Int) * ((if ((5 : Int) - 0).natAbs < ((2 : Int) - 0).natAbs then b.1 else b.2) -
                (if ((5 : Int) - 0).natAbs < ((2 : Int) - 0).natAbs then a.1 else a.2))| ≤
            ((max ((5 : Int) - 0).natAbs ((2 : Int) - 0).natAbs : Nat) : Int) :=
  ⟨by decide, drawLine_within_half_pixel 0 0 5 2 (by decide)⟩

/-- C28: `DrawLine` is symmetric in its endpoints: `DrawLine(x1, y1, x2, y2, c)`
and `DrawLine(x2, y2, x1, y1, c)` pass the same sequence of pixels to `SetPixel`,
and leave the same display. -/
theorem drawLine_symmetric (s : PixelDisplay) (x1 y1 x2 y2 : Int) (c : Color) :
    DrawLineCalls x1 y1 x2 y2 = DrawLineCalls x2 y2 x1 y1 ∧
      DrawLine s x1 y1 x2 y2 c = DrawLine s x2 y2 x1 y1 c := by
  constructor
  · unfold DrawLineCalls
    rw [DrawLineSetup_symm]
  · unfold DrawLine
    rw [DrawLineSetup_symm]

/-- C29: `FillRect` is index-safe for all arguments.  On a well-formed display
with positive width and height, for all integers `left`, `bottom`, `width` and
`height`, every tile index with which the bulk phase and the `SetPixelRun` calls
subscript the tile arrays is in `[0, tileCols * tileRows)`, and every offset of
a pixel buffer they store to is in `[0, tileWidth * tileHeight)`. -/
theorem fillRect_index_safe (s : PixelDisplay) (left bottom width height : Int) (c : Color)
    (hw : WellFormed s) (hW : 0 < s.totalWidth) (hH : 0 < s.totalHeight) :
    ∀ w ∈ FillRectWrites s left bottom width height c,
      (0 ≤ w.1 ∧ w.1 < s.tileCols * s.tileRows) ∧
        ∀ off ∈ w.2, 0 ≤ off ∧ off < s.tileWidth * s.tileHeight := by
  intro w hmem
  unfold FillRectWrites at hmem
  simp only at hmem
  rcases List.mem_append.mp hmem with h | h
  · by_cases hok : (TileRangeWithin s ⟨left, bottom, width, height⟩).ok = true
    · rw [if_pos hok] at h
      obtain ⟨⟨a0, a1⟩, b0, b1⟩ := TileRangeWithin_bounds s _ hok
      exact FillRectBulkWrites_in s _ _ _ _ a0 a1 b0 b1 w h
    · rw [if_neg hok] at h
      simp at h
  · have h1 : SameGeom s (if (TileRangeWithin s ⟨left, bottom, width, height⟩).ok = true then
          FillRectBulk s (TileRangeWithin s ⟨left, bottom, width, height⟩).tileCol0
            (TileRangeWithin s ⟨left, bottom, width, height⟩).tileCol1
            (TileRangeWithin s ⟨left, bottom, width, height⟩).tileRow0
            (TileRangeWithin s ⟨left, bottom, width, height⟩).tileRow1 c
        else s) ∧
        WellFormed (if (TileRangeWithin s ⟨left, bottom, width, height⟩).ok = true then
          FillRectBulk s (TileRangeWithin s ⟨left, bottom, width, height⟩).tileCol0
            (TileRangeWithin s ⟨left, bottom, width, height⟩).tileCol1
            (TileRangeWithin s ⟨left, bottom, width, height⟩).tileRow0
            (TileRangeWithin s ⟨left, bottom, width, height⟩).tileRow1 c
        else s) := by
      split
      · exact FillRectBulk_wf s _ _ _ _ c hw
      · exact ⟨SameGeom.refl s, hw⟩
    obtain ⟨g, w1⟩ := h1
    refine InArrays.of_geom g w (FillRectRowsWrites_in _ _ _ _ _ c w1 ?_ ?_ ?_ ?_ w h)
    · split_ifs <;> omega
    · rw [g.1]; split_ifs <;> omega
    · split_ifs <;> omega
    · rw [g.2.1]; split_ifs <;> omega

/-- An instance of C29: `FillRect(-3, 1, 20, 2, red)` on the 8 x 8 display, a
rectangle that sticks out of the surface on both sides. -/
theorem fillRect_index_safe_witness :
    WellFormed demoDisplay ∧ 0 < demoDisplay.totalWidth ∧ 0 < demoDisplay.totalHeight ∧
    ∀ w ∈ FillRectWrites demoDisplay (-3) 1 20 2 demoRed,
      (0 ≤ w.1 ∧ w.1 < demoDisplay.tileCols * demoDisplay.tileRows) ∧
        ∀ off ∈ w.2, 0 ≤ off ∧ off < demoDisplay.tileWidth * demoDisplay.tileHeight :=
  ⟨create_wf 8 8 4 4 demoBlack (by decide) (by decide), by decide, by decide,
    fillRect_index_safe demoDisplay (-3) 1 20 2 demoRed
      (create_wf 8 8 4 4 demoBlack (by decide) (by decide)) (by decide) (by decide)⟩

end SdlGlue
